import Mathlib

/-!
Verification of the graph-partitioning algorithms of `src/algorithms.py`
(BFS level partitioning, Kernighan–Lin, Fiduccia–Mattheyses, SCC-guided KL,
recursive bisection, greedy coloring, k-medoids).

The graph/vertex storage layer (`graph.py` / `vertex.py`) is not part of the
sources; following the specification's interface description it is modelled
here.  Everything under the `Alg` namespace is a direct shallow embedding of
the Python code in `src/algorithms.py`; definitions whose doc comment starts
with `Modelled from the spec:` embed the missing storage layer.
-/

namespace Alg

/-- Partition labels `'A'` / `'B'` used by the Python code. -/
inductive PLabel where
  | A : PLabel
  | B : PLabel
deriving DecidableEq, Repr

/-- Modelled from the spec: a vertex of the graph layer (`vertex.py`, absent
from the sources).  It carries a stable integer identifier, the weighted
adjacency list in insertion order, and the mutable scratch fields
`partition_label` (unset | A | B), `internal_cost`, `external_cost` and
`level` described in the spec's data model, with neutral initial values. -/
structure Vertex where
  id : Nat
  adj : List (Nat × Int) := []
  partition_label : Option PLabel := none
  internal_cost : Int := 0
  external_cost : Int := 0
  level : Option Int := none
deriving DecidableEq, Repr

/-- Modelled from the spec: weight of the edge to neighbor `j`
(`Vertex.getWeight` of the missing `vertex.py`); `0` when `j` is not
adjacent, matching the algorithms' use of `getWeight` on arbitrary
cross pairs. -/
def Vertex.getWeight (v : Vertex) (j : Nat) : Int :=
  match v.adj.find? (fun p => p.1 == j) with
  | some p => p.2
  | none => 0

/-- Ids of the neighbors of `v` in adjacency (insertion) order
(`getConnections` of the missing `vertex.py`). -/
def Vertex.conns (v : Vertex) : List Nat := v.adj.map (·.1)

/-- Modelled from the spec: the graph layer (`graph.py`, absent from the
sources).  `vertList` holds the vertices in insertion order, mirroring the
Python insertion-ordered dict keyed by id. -/
structure Graph where
  vertList : List Vertex := []
deriving DecidableEq, Repr

/-- `graph.numVertices`. -/
def Graph.numVertices (g : Graph) : Nat := g.vertList.length

/-- Modelled from the spec: `getVertex(id) -> Vertex | absent`. -/
def Graph.getVertex (g : Graph) (i : Nat) : Option Vertex :=
  g.vertList.find? (fun v => v.id == i)

/-- Modelled from the spec: `getVertices() -> ids`, in insertion order. -/
def Graph.getVertices (g : Graph) : List Nat := g.vertList.map (·.id)

/-- Edge weight between ids `i` and `j` as the algorithms read it
(`graph.vertList[i].getWeight(graph.vertList[j])`); `0` when absent. -/
def Graph.w (g : Graph) (i j : Nat) : Int :=
  match g.getVertex i with
  | some v => v.getWeight j
  | none => 0

/-- Rewrite the vertex with id `i` through `f` (in-place mutation of the
Python vertex object). -/
def Graph.modifyVertex (g : Graph) (i : Nat) (f : Vertex → Vertex) : Graph :=
  ⟨g.vertList.map (fun v => if v.id = i then f v else v)⟩

/-- Set the `partition_label` scratch field of vertex `i`. -/
def Graph.setLabel (g : Graph) (i : Nat) (l : Option PLabel) : Graph :=
  g.modifyVertex i (fun v => { v with partition_label := l })

/-- Label of vertex `i` (`none` when the vertex is absent or unlabeled). -/
def Graph.labelOf (g : Graph) (i : Nat) : Option PLabel :=
  (g.getVertex i).bind (·.partition_label)

/-- Modelled from the spec: `addVertex(id, partition_label=None)`; inserts a
fresh vertex when the id is absent, otherwise updates the label and keeps
the adjacency. -/
def Graph.addVertex (g : Graph) (i : Nat) (l : Option PLabel := none) : Graph :=
  if (g.getVertex i).isSome then g.setLabel i l
  else ⟨g.vertList ++ [{ id := i, partition_label := l }]⟩

/-- Insert-or-update the weight entry for `j` in an adjacency list. -/
def setAdj (adj : List (Nat × Int)) (j : Nat) (wt : Int) : List (Nat × Int) :=
  if adj.any (fun p => p.1 == j) then
    adj.map (fun p => if p.1 = j then (j, wt) else p)
  else adj ++ [(j, wt)]

/-- Modelled from the spec: `addEdge(u, v, weight)` of the undirected graph
layer; auto-adds missing endpoints and records the weight in both
adjacency lists. -/
def Graph.addEdge (g : Graph) (u v : Nat) (wt : Int) : Graph :=
  let g1 := if (g.getVertex u).isSome then g else ⟨g.vertList ++ [{ id := u }]⟩
  let g2 := if (g1.getVertex v).isSome then g1 else ⟨g1.vertList ++ [{ id := v }]⟩
  (g2.modifyVertex u (fun x => { x with adj := setAdj x.adj v wt })).modifyVertex v
    (fun x => { x with adj := setAdj x.adj u wt })

/-- Build a graph the way the repository's driver does: `addVertex 0..n-1`
then `addEdge` for each listed edge. -/
def buildGraph (n : Nat) (es : List (Nat × Nat × Int)) : Graph :=
  es.foldl (fun g e => g.addEdge e.1 e.2.1 e.2.2)
    ((List.range n).foldl (fun g i => g.addVertex i) ⟨[]⟩)

/-- Boolean well-formedness of a graph value: ids are dense `0..n-1` in
insertion order, adjacency lists have no duplicate keys, refer only to
existing vertices, contain no self loop, and weights are symmetric. -/
def Graph.wfb (g : Graph) : Bool :=
  let n := g.vertList.length
  (List.range n).all (fun i =>
    match g.vertList[i]? with
    | some v =>
      v.id == i &&
      (v.adj.map (·.1)).Nodup &&
      v.adj.all (fun p => p.1 < n && p.1 != i) &&
      v.adj.all (fun p => decide (g.w p.1 i = p.2))
    | none => false)

/-- Well-formed graph: the invariants the spec imposes on the storage layer
(dense increasing ids, undirected symmetric weights, no self loops). -/
def Graph.WF (g : Graph) : Prop := g.wfb = true

instance (g : Graph) : Decidable g.WF := by
  unfold Graph.WF; infer_instance

/-- Errors surfaced by the embedded algorithms (spec §7: `InvalidVertex`,
plus the Python runtime errors the code can raise). -/
inductive Err where
  | invalidVertex : Err
  | indexError : Err
  | nameError : Err
  | zeroDivisionError : Err
  | keyError : Err
deriving DecidableEq, Repr

/-! ## Level-set BFS partitioner (`pa_bfs`, `src/algorithms.py` lines 16-87) -/

/-- One pass of the `while queue:` loop of `pa_bfs` (lines 58-83).
State: graph (the code writes the `level` scratch field), queue, visited
array, the `path` trace list, the running `level` counter and the two
groups.  `fuel` bounds the recursion; each dequeued vertex was enqueued
exactly once (enqueue marks visited), so `numVertices` dequeues suffice. -/
def bfsLoop (threshold : Int) :
    Nat → Graph → List Nat → List Bool → List Nat → Int →
    List Nat → List Nat → Graph × List Nat × List Nat × List Nat
  | 0, g, _, _, path, _, L1, L2 => (g, path, L1, L2)
  | _ + 1, g, [], _, path, _, L1, L2 => (g, path, L1, L2)
  | fuel + 1, g, curPos :: queue, visited, path, level, L1, L2 =>
    let nbs := match g.getVertex curPos with
      | some v => v.conns
      | none => []
    let st := nbs.foldl
      (fun (st : Graph × List Nat × List Bool × List Nat × List Nat) nb =>
        let (g, q, vis, L1, L2) := st
        if vis.getD nb false then st
        else
          let g := g.modifyVertex nb (fun v => { v with level := some level })
          if level ≥ threshold then (g, q ++ [nb], vis.set nb true, L1, L2 ++ [nb])
          else (g, q ++ [nb], vis.set nb true, L1 ++ [nb], L2))
      (g, queue, visited, L1, L2)
    bfsLoop threshold fuel st.1 st.2.1 st.2.2.1 (path ++ [curPos]) (level + 1)
      st.2.2.2.1 st.2.2.2.2

/-- `pa_bfs(graph, vertex_ith, threshold)`: raises `InvalidVertex` when the
start id is absent, otherwise runs the level-bucketing BFS loop and returns
the mutated graph together with the two groups `L1, L2`.  The Python sets
are modelled as duplicate-free lists in insertion order (the `visited`
guard adds each vertex to at most one group, at most once). -/
def pa_bfs (g : Graph) (vertex_ith : Nat) (threshold : Int) :
    Except Err (Graph × List Nat × List Nat) :=
  match g.getVertex vertex_ith with
  | none => .error .invalidVertex
  | some vertex =>
    let n := g.numVertices
    let visited := (List.replicate n false).set vertex.id true
    let r := bfsLoop threshold n g [vertex.id] visited [] 0 [] []
    .ok (r.1, r.2.2.1, r.2.2.2)

/-! ## Stable sorting (Python's `sorted(..., reverse=True)` is a stable sort) -/

/-- Insert `x` into a list sorted by `ge`, after every element `y` with
`ge y x` (stable insertion). -/
def insertBy (ge : α → α → Bool) (x : α) : List α → List α
  | [] => [x]
  | y :: ys => if ge y x then y :: insertBy ge x ys else x :: y :: ys

/-- Stable insertion sort by the comparator `ge`; with `ge u v = (key u ≥ key v)`
this reproduces Python's `sorted(l, key, reverse=True)`. -/
def sortBy (ge : α → α → Bool) (l : List α) : List α :=
  l.foldl (fun acc x => insertBy ge x acc) []

/-- The descending-gain comparator used on the gain lists. -/
def gainGE (u v : (Nat × Nat) × Int) : Bool := decide (v.2 ≤ u.2)

/-! ## Gain-based refinement: shared pieces of `pa_kl` / `pa_fm`
(`src/algorithms.py` lines 114-194 and 235-318) -/

/-- The cost-accumulation pass applied to one vertex (lines 133-138 / 253-258):
for each neighbor, add the edge weight to `internal_cost` when the labels
agree, otherwise subtract it from `external_cost`.  Labels are read from the
pre-pass graph `g`, which is sound because the pass never writes labels. -/
def costUpdVertex (g : Graph) (v : Vertex) : Vertex :=
  v.adj.foldl
    (fun w p =>
      if w.partition_label = g.labelOf p.1 then
        { w with internal_cost := w.internal_cost + w.getWeight p.1 }
      else
        { w with external_cost := w.external_cost - w.getWeight p.1 })
    v

/-- The `for idx, vertex in graph.vertList.items():` cost loop applied to the
whole graph; the accumulators are NOT zeroed first, exactly as in the code. -/
def Graph.costPhase (g : Graph) : Graph := ⟨g.vertList.map (costUpdVertex g)⟩

/-- `D_values[idx] = external_cost + internal_cost` read off a graph
(lines 140-141 / 260-261). -/
def Dvals (g : Graph) (i : Nat) : Int :=
  match g.getVertex i with
  | some v => v.external_cost + v.internal_cost
  | none => 0

/-- `[v.id for v in vertList if v.partition_label == l]`, in insertion order. -/
def Graph.group (g : Graph) (l : PLabel) : List Nat :=
  g.vertList.filterMap (fun v => if v.partition_label = some l then some v.id else none)

/-- The cross-pair gain list (lines 144-149 / 264-269):
`gain(a,b) = D(a) + D(b) - 2 * c(a,b)` for `a ∈ group_a`, `b ∈ group_b`,
in generation order. -/
def gainsOf (g : Graph) (D : Nat → Int) (ga gb : List Nat) : List ((Nat × Nat) × Int) :=
  ga.flatMap fun a => gb.map fun b => ((a, b), D a + D b - 2 * g.w a b)

/-- The initial bisection of `pa_kl` / `pa_fm` (lines 116-119 / 236-239):
`for ind in range(half): vertList[ind] -> 'A'; vertList[ind+half] -> 'B'`.
A missing key is a Python `KeyError`. -/
def klInit (g : Graph) : Except Err Graph :=
  (List.range (g.numVertices / 2)).foldlM
    (fun (g' : Graph) ind =>
      if ((g'.getVertex ind).isSome && (g'.getVertex (ind + g.numVertices / 2)).isSome : Bool)
      then (Except.ok ((g'.setLabel ind (some .A)).setLabel (ind + g.numVertices / 2) (some .B)) :
        Except Err Graph)
      else Except.error Err.keyError)
    g

/-- The two D-value update loops after a swap/move (lines 166-175 / 290-299),
verbatim with the code's indexing: the first loop adds
`2*c(x,a) - 2*c(x,b)` to `D[x]` for `x` in `xs`; the second loop computes
`2*c(y,a) - 2*c(y,b)` for `y` in `ys` but writes it to `D[x]`, where `x`
keeps the value left by the first loop (the last element of `xs`).  When
`xs` is empty and `ys` is not, `x` is unbound: a Python `NameError`
(`none` here). -/
def klDUpdate (g : Graph) (D : Nat → Int) (xs ys : List Nat) (a b : Nat) :
    Option (Nat → Int) :=
  let D1 := xs.foldl
    (fun d x => Function.update d x (d x + 2 * g.w x a - 2 * g.w x b)) D
  match xs.getLast? with
  | none => if ys.isEmpty then some D1 else none
  | some x =>
    some (ys.foldl
      (fun d y => Function.update d x (d x + 2 * g.w y a - 2 * g.w y b)) D1)

/-- Modelled from the spec: the D-value update rule the specification states
for the same loops — every remaining vertex's own accumulator receives its
own update, `D(x) += 2*c(x,a) - 2*c(x,b)` for `x` still in A and
`D(y) += 2*c(y,b) - 2*c(y,a)` for `y` still in B. -/
def klDUpdateSpec (g : Graph) (D : Nat → Int) (xs ys : List Nat) (a b : Nat) :
    Nat → Int :=
  let D1 := xs.foldl
    (fun d x => Function.update d x (d x + 2 * g.w x a - 2 * g.w x b)) D
  ys.foldl
    (fun d y => Function.update d y (d y + 2 * g.w y b - 2 * g.w y a)) D1

/-- Modelled from the spec: `compute_partition_cost` of the missing
`graph.py` — the cut cost of the current `partition_label` assignment,
here as the directed sum of the weights of label-crossing adjacency
entries. -/
def Graph.compute_partition_cost (g : Graph) : Int :=
  g.vertList.foldl
    (fun acc v =>
      v.adj.foldl
        (fun acc p => if v.partition_label = g.labelOf p.1 then acc else acc + p.2)
        acc)
    0

/-- One resultful run of the `for _ in range(half)` loop of `pa_kl`
(lines 124-180), driven by the remaining iteration count. -/
def klLoop : Nat → Graph → Int → Except Err (Graph × Int)
  | 0, g, total_gain => .ok (g, total_gain)
  | fuel + 1, g, total_gain =>
    let group_a := g.group .A
    let group_b := g.group .B
    let g1 := g.costPhase
    let D := Dvals g1
    let gains := sortBy gainGE (gainsOf g1 D group_a group_b)
    match gains with
    | [] => .error .indexError
    | top :: _ =>
      if top.2 ≤ 0 then .ok (g1, total_gain)
      else
        let a := top.1.1
        let b := top.1.2
        let g2 := (g1.setLabel a (some .B)).setLabel b (some .A)
        match klDUpdate g2 D (group_a.erase a) (group_b.erase b) a b with
        | none => .error .nameError
        | some _ => klLoop fuel g2 (total_gain + top.2)

/-- `pa_kl(graph)` (lines 91-194): initial bisection, the swap loop, then the
cut cost and the two group lists; the mutated graph is part of the result
because the Python function mutates its argument in place. -/
def pa_kl (g : Graph) : Except Err (Graph × Int × List Nat × List Nat) := do
  let g ← klInit g
  let r ← klLoop (g.numVertices / 2) g 0
  let g := r.1
  .ok (g, g.compute_partition_cost, g.group .A, g.group .B)

/-- One resultful run of the `for _ in range(half)` loop of `pa_fm`
(lines 244-304).  `coins k` models the `random.randint(0, 1)` drawn at the
`k`-th completed move: `0` relabels the A-side vertex of the chosen pair to
`B`, anything else relabels the B-side vertex to `A`.  The loop stops when
the minimum gain (`gains[-1]`) is non-positive, but the moved pair is
`gains[0]`, and the D-update loops run over the full groups. -/
def fmLoop (coins : Nat → Nat) : Nat → Nat → Graph → Int → Except Err (Graph × Int)
  | _, 0, g, total_gain => .ok (g, total_gain)
  | k, fuel + 1, g, total_gain =>
    let group_a := g.group .A
    let group_b := g.group .B
    let g1 := g.costPhase
    let D := Dvals g1
    let gains := sortBy gainGE (gainsOf g1 D group_a group_b)
    match gains, gains.getLast? with
    | top :: _, some last =>
      if last.2 ≤ 0 then .ok (g1, total_gain)
      else
        let a := top.1.1
        let b := top.1.2
        let g2 := if coins k = 0 then g1.setLabel a (some .B) else g1.setLabel b (some .A)
        match klDUpdate g2 D group_a group_b a b with
        | none => .error .nameError
        | some _ => fmLoop coins (k + 1) fuel g2 (total_gain + last.2)
    | _, _ => .error .indexError

/-- Modelled from the spec: the FM loop as the specification describes it —
the single move is made from the MINIMUM-gain pair of the sorted gain list
(`gains[-1]`), the coin deciding the side, stopping when that chosen gain
is non-positive.  Only the selected pair differs from `fmLoop`. -/
def fmLoopSpecMin (coins : Nat → Nat) :
    Nat → Nat → Graph → Int → Except Err (Graph × Int)
  | _, 0, g, total_gain => .ok (g, total_gain)
  | k, fuel + 1, g, total_gain =>
    let group_a := g.group .A
    let group_b := g.group .B
    let g1 := g.costPhase
    let D := Dvals g1
    let gains := sortBy gainGE (gainsOf g1 D group_a group_b)
    match gains.getLast? with
    | some last =>
      if last.2 ≤ 0 then .ok (g1, total_gain)
      else
        let a := last.1.1
        let b := last.1.2
        let g2 := if coins k = 0 then g1.setLabel a (some .B) else g1.setLabel b (some .A)
        match klDUpdate g2 D group_a group_b a b with
        | none => .error .nameError
        | some _ => fmLoopSpecMin coins (k + 1) fuel g2 (total_gain + last.2)
    | none => .error .indexError

/-- Modelled from the spec: `pa_fm` with the move taken from the
minimum-gain pair, as the specification claims. -/
def pa_fm_specMin (g : Graph) (coins : Nat → Nat) :
    Except Err (Graph × Int × List Nat × List Nat) := do
  let g ← klInit g
  let r ← fmLoopSpecMin coins 0 (g.numVertices / 2) g 0
  let g := r.1
  .ok (g, g.compute_partition_cost, g.group .A, g.group .B)

/-- `pa_fm(graph)` (lines 209-318), with the coin stream made explicit. -/
def pa_fm (g : Graph) (coins : Nat → Nat) :
    Except Err (Graph × Int × List Nat × List Nat) := do
  let g ← klInit g
  let r ← fmLoop coins 0 (g.numVertices / 2) g 0
  let g := r.1
  .ok (g, g.compute_partition_cost, g.group .A, g.group .B)

/-! ## Greedy coloring (`greedyColoring`, lines 569-597) -/

/-- Lookup in an insertion-ordered association list (a Python dict whose keys
are never overwritten). -/
def alookup (m : List (Nat × Nat)) (i : Nat) : Option Nat :=
  (m.find? (fun p => p.1 == i)).map (·.2)

/-- `greedyColoring(graph)`: vertices in descending-degree order (stable);
each vertex collects the colors of its already-colored neighbors and takes
the first color of `range(numVertices)` not among them; when every index is
taken (impossible for well-formed graphs) the vertex stays uncolored,
mirroring the loop that simply never assigns. -/
def greedyColoring (g : Graph) : List (Nat × Nat) :=
  let vertices := sortBy (fun u v => decide (v.adj.length ≤ u.adj.length)) g.vertList
  vertices.foldl
    (fun color_map v =>
      let used := v.conns.filterMap (fun nid => alookup color_map nid)
      match (List.range g.numVertices).find? (fun c => !(used.contains c)) with
      | some c => color_map ++ [(v.id, c)]
      | none => color_map)
    []

/-! ## SCC-guided KL (`pa_scc_kl`, lines 389-424) -/

/-- BFS sweep used by the modelled component search: repeatedly dequeue a
vertex and enqueue its not-yet-seen neighbors. -/
def ccBfs (g : Graph) : Nat → List Nat → List Nat → List Nat
  | 0, _, seen => seen
  | _ + 1, [], seen => seen
  | fuel + 1, q :: qs, seen =>
    let nbs := (match g.getVertex q with
      | some v => v.conns
      | none => []).filter (fun j => !(seen.contains j))
    ccBfs g fuel (qs ++ nbs) (seen ++ nbs)

/-- Modelled from the spec: `find_strongly_connected_components` of the
missing `graph.py` — the maximal sets of mutually reachable vertices; for
the undirected graphs of this system these are the connected components,
listed by first vertex in insertion order, each in BFS discovery order. -/
def Graph.find_strongly_connected_components (g : Graph) : List (List Nat) :=
  g.getVertices.foldl
    (fun comps i =>
      if comps.any (fun c => c.contains i) then comps
      else comps ++ [ccBfs g g.numVertices [i] [i]])
    []

/-- Python's `>=` on integer lists (lexicographic), used when
`sorted(zip(weights, scc_lst), reverse=True)` compares tied weights. -/
def listGE : List Nat → List Nat → Bool
  | _, [] => true
  | [], _ :: _ => false
  | x :: xs, y :: ys => if x = y then listGE xs ys else decide (y < x)

/-- Descending comparison of (weight, component) pairs, the order used by
`sorted(zip(weights, scc_lst), reverse=True)` (line 397). -/
def sccGE (u v : ℚ × List Nat) : Bool :=
  decide (v.1 < u.1) || (decide (u.1 = v.1) && listGE u.2 v.2)

/-- The per-component subgraph of `pa_scc_kl` (lines 405-412): add each
component vertex, and for each of its neighbors OUTSIDE the component add
the neighbor and the boundary edge with its original weight. -/
def sccSubgraph (g : Graph) (component : List Nat) : Graph :=
  component.foldl
    (fun sg vertex =>
      (match g.getVertex vertex with
        | some v => v.adj
        | none => []).foldl
        (fun (sg : Graph) (p : Nat × Int) =>
          if component.contains p.1 then sg
          else (sg.addVertex p.1).addEdge vertex p.1 (g.w vertex p.1))
        (sg.addVertex vertex))
    ⟨[]⟩

/-- Lines 391-412 of `pa_scc_kl`: the component list, their weights
`|len(c) - numVertices/2|`, the descending sort, and each component's
subgraph, in processing order. -/
def pa_scc_stage (g : Graph) : List (List Nat × Graph) :=
  let scc_lst := g.find_strongly_connected_components
  let weights := scc_lst.map (fun c => |(c.length : ℚ) - (g.numVertices : ℚ) / 2|)
  let sorted_scc_lst := (sortBy sccGE (weights.zip scc_lst)).map (·.2)
  sorted_scc_lst.map (fun c => (c, sccSubgraph g c))

/-- `pa_scc_kl(graph)`: run `pa_kl` on each component subgraph in processing
order and accumulate the group lists under `partition_1` / `partition_2`. -/
def pa_scc_kl (g : Graph) : Except Err (List (List Nat) × List (List Nat)) :=
  (pa_scc_stage g).foldlM
    (fun acc cg => do
      let r ← pa_kl cg.2
      .ok (acc.1 ++ [r.2.2.1], acc.2 ++ [r.2.2.2]))
    ([], [])

/-! ## Recursive bisection (`recursive_bisection` and helpers, lines 436-566) -/

/-- The vertex → label mapping accumulated by `save_partition` (a Python
dict in insertion order). -/
abbrev Partition := List (Nat × PLabel)

/-- Dict assignment `partition[vertex] = label`. -/
def dinsert (m : Partition) (i : Nat) (l : PLabel) : Partition :=
  if m.any (fun p => p.1 == i) then m.map (fun p => if p.1 = i then (i, l) else p)
  else m ++ [(i, l)]

/-- Label of `i` in a partition mapping. -/
def plookup (m : Partition) (i : Nat) : Option PLabel :=
  (m.find? (fun p => p.1 == i)).map (·.2)

/-- The two `eval` condition strings `save_partition` is called with
(lines 542 and 552). -/
inductive SaveCond where
  | parityEven : SaveCond
  | inSubgraph1 : Graph → SaveCond

/-- The loop body of `save_partition` (lines 447-451): label the vertex `A`
when the `eval`-ed condition holds against the growing dict, else `B`. -/
def saveStep (cond : SaveCond) (p : Partition) (vertex : Nat) : Partition :=
  let holds : Bool := match cond with
    | .parityEven => p.length % 2 == 0
    | .inSubgraph1 s => s.getVertices.contains vertex
  if holds then dinsert p vertex .A else dinsert p vertex .B

/-- `save_partition(graph, partition, condition, subgraph1)` (lines 446-453). -/
def save_partition (g : Graph) (p : Partition) (cond : SaveCond) : Partition :=
  g.getVertices.foldl (saveStep cond) p

/-- The refinement loop of `partition_vertices` (lines 461-517): identical to
the `pa_kl` loop except that an empty gain list yields `max_gain = 0` and a
clean break instead of an `IndexError`. -/
def pvLoop : Nat → Graph → Int → Except Err (Graph × Int)
  | 0, g, total_gain => .ok (g, total_gain)
  | fuel + 1, g, total_gain =>
    let group_a := g.group .A
    let group_b := g.group .B
    let g1 := g.costPhase
    let D := Dvals g1
    let gains := sortBy gainGE (gainsOf g1 D group_a group_b)
    match gains with
    | [] => .ok (g1, total_gain)
    | top :: _ =>
      if top.2 ≤ 0 then .ok (g1, total_gain)
      else
        let a := top.1.1
        let b := top.1.2
        let g2 := (g1.setLabel a (some .B)).setLabel b (some .A)
        match klDUpdate g2 D (group_a.erase a) (group_b.erase b) a b with
        | none => .error .nameError
        | some _ => pvLoop fuel g2 (total_gain + top.2)

/-- The subgraph split of `partition_vertices` (lines 519-537): `A`-labeled
vertices and their intra-`A` edges go to `subgraph1`, every other vertex
and the intra-`B` edges go to `subgraph2`. -/
def splitByLabel (g : Graph) : Graph × Graph :=
  let group_a := g.group .A
  let group_b := g.group .B
  g.vertList.foldl
    (fun (sgs : Graph × Graph) v =>
      if v.partition_label = some .A then
        (v.adj.foldl
          (fun (s1 : Graph) (p : Nat × Int) =>
            if group_a.contains p.1 then s1.addEdge v.id p.1 (v.getWeight p.1) else s1)
          (sgs.1.addVertex v.id v.partition_label), sgs.2)
      else
        (sgs.1,
          v.adj.foldl
            (fun (s2 : Graph) (p : Nat × Int) =>
              if group_b.contains p.1 then s2.addEdge v.id p.1 (v.getWeight p.1) else s2)
            (sgs.2.addVertex v.id v.partition_label)))
    (⟨[]⟩, ⟨[]⟩)

/-- `partition_vertices(graph)` (lines 456-537): the refinement loop followed
by the label split; the mutated graph is returned alongside the subgraphs. -/
def partition_vertices (g : Graph) : Except Err (Graph × Graph × Graph) := do
  let r ← pvLoop (g.numVertices / 2) g 0
  let s := splitByLabel r.1
  .ok (r.1, s.1, s.2)

/-- Modelled from the spec: `compute_total_weight` of the missing `graph.py`
— the graph's total edge weight, as the directed sum over all adjacency
entries. -/
def Graph.compute_total_weight (g : Graph) : Int :=
  g.vertList.foldl (fun acc v => v.adj.foldl (fun a p => a + p.2) acc) 0

/-- `partition_graph(graph, partition, max_levels, min_size, weight_threshold)`
(lines 540-557).  The Python version mutates `partition` in place; the
mapping is threaded explicitly here.  Dividing by a zero parent weight is
Python's `ZeroDivisionError`. -/
def partition_graph (min_size : Nat) (weight_threshold : ℚ) :
    Nat → Graph → Partition → Except Err Partition
  | 0, g, p => .ok (save_partition g p .parityEven)
  | max_levels + 1, g, p =>
    if g.numVertices ≤ min_size then .ok (save_partition g p .parityEven)
    else do
      let r ← partition_vertices g
      let g' := r.1
      let sub1 := r.2.1
      let sub2 := r.2.2
      let pw := g'.compute_total_weight
      if pw = 0 then .error .zeroDivisionError
      else
        let balance : ℚ :=
          |((sub1.compute_total_weight : ℚ) - (sub2.compute_total_weight : ℚ))| / (pw : ℚ)
        if balance < weight_threshold then .ok (save_partition g' p (.inSubgraph1 sub1))
        else do
          let p ← partition_graph min_size weight_threshold max_levels sub1 p
          partition_graph min_size weight_threshold max_levels sub2 p

/-- `get_subgraphs(partition)` (lines 436-443): split the mapping's keys by
label, in insertion order. -/
def get_subgraphs (p : Partition) : List Nat × List Nat :=
  p.foldl
    (fun acc kv =>
      if kv.2 = .A then (acc.1 ++ [kv.1], acc.2) else (acc.1, acc.2 ++ [kv.1]))
    ([], [])

/-- `recursive_bisection(graph, max_levels=3, min_size=1, weight_threshold=0.02)`
(lines 560-566). -/
def recursive_bisection (g : Graph) (max_levels : Nat := 3) (min_size : Nat := 1)
    (weight_threshold : ℚ := 2 / 100) : Except Err (List Nat × List Nat) := do
  let p ← partition_graph min_size weight_threshold max_levels g []
  .ok (get_subgraphs p)

/-! ## K-medoids (`k_medois` and helpers, lines 600-666)

The graph-distance oracle `get_edge_weight_bfs` lives in the missing
`graph.py`; following the spec it is a black-box shortest-path oracle and is
abstracted as the `dist` parameter below.  Python float values are modelled
by `PyF` (finite rational, `math.inf`, or `nan`). -/

/-- Python float values arising in `k_medois`. -/
inductive PyF where
  | fin : ℚ → PyF
  | inf : PyF
  | nan : PyF
deriving DecidableEq, Repr

/-- Float addition (`inf` absorbs finite values, `nan` absorbs everything). -/
def PyF.add : PyF → PyF → PyF
  | .fin a, .fin b => .fin (a + b)
  | .fin _, .inf => .inf
  | .inf, .fin _ => .inf
  | .inf, .inf => .inf
  | .nan, _ => .nan
  | _, .nan => .nan

/-- Float `abs`. -/
def PyF.abs : PyF → PyF
  | .fin a => .fin |a|
  | .inf => .inf
  | .nan => .nan

/-- Python float `/`: division by (finite) zero raises `ZeroDivisionError`;
a finite value over `inf` is `0`, `inf / inf` is `nan`, `nan` propagates. -/
def PyF.div (x y : PyF) : Except Err PyF :=
  match y with
  | .fin b =>
    if b = 0 then .error .zeroDivisionError
    else match x with
      | .fin a => .ok (.fin (a / b))
      | .inf => .ok .inf
      | .nan => .ok .nan
  | .inf =>
    match x with
    | .fin _ => .ok (.fin 0)
    | .inf => .ok .nan
    | .nan => .ok .nan
  | .nan => .ok .nan

/-- Float `<` (comparisons against `nan` are false). -/
def PyF.lt : PyF → PyF → Bool
  | .fin a, .fin b => decide (a < b)
  | .fin _, .inf => true
  | .inf, _ => false
  | .nan, _ => false
  | _, .nan => false

/-- `d > threshold` for the update test (false when `d` is `nan`). -/
def PyF.gtQ : PyF → ℚ → Bool
  | .fin a, t => decide (t < a)
  | .inf, _ => true
  | .nan, _ => false

/-- Sum of a float list (Python `sum`, starting from `0`). -/
def sumPyF (l : List PyF) : PyF := l.foldl PyF.add (.fin 0)

/-- `np.argmin` over a float list: first index attaining the minimum
(NaN-free inputs); `none` on an empty list (a numpy `ValueError`). -/
def argminPyF : List PyF → Option Nat
  | [] => none
  | d0 :: ds =>
    some ((ds.foldl
      (fun (acc : Nat × PyF × Nat) d =>
        if PyF.lt d acc.2.1 then (acc.2.2, d, acc.2.2 + 1)
        else (acc.1, acc.2.1, acc.2.2 + 1))
      (0, d0, 1)).1)

/-- `np.min` over a float list (same scan, value instead of index). -/
def minPyF : List PyF → Option PyF
  | [] => none
  | d0 :: ds => some (ds.foldl (fun m d => if PyF.lt d m then d else m) d0)

/-- `get_closest_centroid(graph, node, centroids)` (lines 600-606): the pair
`(np.argmin(dist_arr), np.min(dist_arr))`. -/
def get_closest_centroid (dist : Nat → Nat → PyF) (node : Nat) (centroids : List Nat) :
    Option (Nat × PyF) :=
  let dist_arr := centroids.map (fun c_id => dist node c_id)
  match argminPyF dist_arr, minPyF dist_arr with
  | some i, some m => some (i, m)
  | _, _ => none

/-- `recompute_new_centroid(graph, samples)` (lines 609-612): the sample
minimizing the summed distance to all samples; empty input is the numpy
`ValueError` from `argmin`. -/
def recompute_new_centroid (dist : Nat → Nat → PyF) (samples : List Nat) :
    Except Err Nat :=
  let dist_toOthers := samples.map (fun p => sumPyF (samples.map (fun other => dist p other)))
  match argminPyF dist_toOthers with
  | some i => .ok (samples.getD i 0)
  | none => .error .indexError

/-- `update_centroids(graph, c_ids, cur_centroids, thredshold, total_dist,
optimal_total_dist)` (lines 615-628): `d = Σ_i |new_total[i]| / old_total[i]`;
when `d > thredshold` the run has not converged and keeps the old best
totals but adopts the new centroids, otherwise it reports convergence with
the new totals and the old centroid ids. -/
def update_centroids (c_ids cur_centroids : List Nat) (thredshold : ℚ)
    (total_dist optimal_total_dist : List PyF) :
    Except Err (Bool × List Nat × List PyF) := do
  let old_total := optimal_total_dist
  let new_total := total_dist
  let d ← (List.range old_total.length).foldlM
    (fun acc i => do
      let q ← PyF.div (PyF.abs (new_total.getD i (.fin 0))) (old_total.getD i (.fin 0))
      .ok (PyF.add acc q))
    (PyF.fin 0)
  if d.gtQ thredshold then .ok (false, cur_centroids, optimal_total_dist)
  else .ok (true, c_ids, new_total)

/-- Loop state of `k_medois`: the centroid ids, the best known totals, and
the per-cluster member lists. -/
structure KMState where
  c_ids : List Nat
  optimal_total_dist : List PyF
  groups_data : List (List Nat)
deriving DecidableEq, Repr

/-- One iteration of the `for _ in range(max_iter)` loop of `k_medois`
(lines 640-658): cluster every vertex to its closest centroid, recompute
each cluster's centroid and total distance, then run `update_centroids`.
Returns the `has_converged` flag and the new state. -/
def kmIter (dist : Nat → Nat → PyF) (g : Graph) (thredshold : ℚ) (st : KMState) :
    Except Err (Bool × KMState) := do
  let r ← (List.range st.c_ids.length).foldlM
    (fun (acc : List Nat × List PyF × List (List Nat)) i => do
      let sd := g.getVertices.foldl
        (fun (sd : List Nat × List PyF) v_id =>
          match get_closest_centroid dist v_id st.c_ids with
          | some (c, min_c) => if c = i then (sd.1 ++ [v_id], sd.2 ++ [min_c]) else sd
          | none => sd)
        ([], [])
      let samples := sd.1
      let d_min := sd.2
      let new_centroid ← recompute_new_centroid dist samples
      .ok (acc.1 ++ [new_centroid], acc.2.1 ++ [sumPyF d_min], acc.2.2 ++ [samples]))
    ([], [], [])
  let cur_centroids := r.1
  let total_dist := r.2.1
  let groups := r.2.2
  let u ← update_centroids st.c_ids cur_centroids thredshold total_dist st.optimal_total_dist
  .ok (u.1, ⟨u.2.1, u.2.2, groups⟩)

/-- The bounded convergence loop of `k_medois`: stop at the first converged
iteration, or return the current state when the iteration budget runs out
(best-effort, not an error). -/
def kmLoop (dist : Nat → Nat → PyF) (g : Graph) (thredshold : ℚ) :
    Nat → KMState → Except Err KMState
  | 0, st => .ok st
  | fuel + 1, st => do
    let r ← kmIter dist g thredshold st
    if r.1 then .ok r.2 else kmLoop dist g thredshold fuel r.2

/-- `k_medois(graph, k, thredshold, max_iter)` (lines 631-666), with the
initial `random.sample` of centroid ids passed explicitly as `c0`
(`k = c0.length`).  Initializes the best totals to `inf` and the groups to
empty lists, then iterates. -/
def k_medois (dist : Nat → Nat → PyF) (g : Graph) (c0 : List Nat) (thredshold : ℚ)
    (max_iter : Nat) : Except Err (List Nat × List (List Nat)) := do
  let st ← kmLoop dist g thredshold max_iter
    ⟨c0, c0.map (fun _ => PyF.inf), c0.map (fun _ => [])⟩
  .ok (st.c_ids, st.groups_data)

/-! ## Properties of the stable sort -/

theorem insertBy_perm (ge : α → α → Bool) (x : α) (l : List α) :
    List.Perm (insertBy ge x l) (x :: l) := by
  induction l with
  | nil => rfl
  | cons y ys ih =>
    simp only [insertBy]
    split
    · exact (ih.cons y).trans (List.Perm.swap x y ys)
    · rfl

theorem sortBy_perm_aux (ge : α → α → Bool) (l acc : List α) :
    List.Perm (List.foldl (fun acc x => insertBy ge x acc) acc l) (acc ++ l) := by
  induction l generalizing acc with
  | nil => simp
  | cons x xs ih =>
    have h1 : List.Perm (List.foldl (fun acc x => insertBy ge x acc) (insertBy ge x acc) xs)
        (insertBy ge x acc ++ xs) := ih _
    have h2 : List.Perm (insertBy ge x acc ++ xs) ((x :: acc) ++ xs) :=
      (insertBy_perm ge x acc).append_right xs
    have h3 : List.Perm ((x :: acc) ++ xs) (acc ++ x :: xs) := List.perm_middle.symm
    exact (h1.trans h2).trans h3

theorem sortBy_perm (ge : α → α → Bool) (l : List α) : List.Perm (sortBy ge l) l :=
  sortBy_perm_aux ge l []

theorem insertBy_pairwise (ge : α → α → Bool)
    (htot : ∀ a b, ge a b = true ∨ ge b a = true)
    (htrans : ∀ a b c, ge a b = true → ge b c = true → ge a c = true)
    (x : α) (l : List α) (hl : l.Pairwise (fun a b => ge a b = true)) :
    (insertBy ge x l).Pairwise (fun a b => ge a b = true) := by
  induction l with
  | nil => simp [insertBy]
  | cons y ys ih =>
    rcases List.pairwise_cons.mp hl with ⟨hy, hys⟩
    simp only [insertBy]
    by_cases h : ge y x = true
    · simp only [h, if_true]
      refine List.pairwise_cons.mpr ⟨?_, ih hys⟩
      intro z hz
      have hz' : z ∈ x :: ys := (insertBy_perm ge x ys).mem_iff.mp hz
      rcases List.mem_cons.mp hz' with rfl | hz'
      · exact h
      · exact hy z hz'
    · have hx : ge x y = true := (htot x y).resolve_right (by simpa using h)
      simp only [h, if_false]
      refine List.pairwise_cons.mpr ⟨?_, hl⟩
      intro z hz
      rcases List.mem_cons.mp hz with rfl | hz'
      · exact hx
      · exact htrans x y z hx (hy z hz')

theorem sortBy_pairwise (ge : α → α → Bool)
    (htot : ∀ a b, ge a b = true ∨ ge b a = true)
    (htrans : ∀ a b c, ge a b = true → ge b c = true → ge a c = true)
    (l : List α) : (sortBy ge l).Pairwise (fun a b => ge a b = true) := by
  suffices h : ∀ acc : List α, acc.Pairwise (fun a b => ge a b = true) →
      (List.foldl (fun acc x => insertBy ge x acc) acc l).Pairwise
        (fun a b => ge a b = true) from h [] (by simp)
  induction l with
  | nil => intro acc hacc; simpa using hacc
  | cons x xs ih =>
    intro acc hacc
    exact ih _ (insertBy_pairwise ge htot htrans x acc hacc)

/-- The head of a `ge`-sorted nonempty list dominates every element of any
permutation source. -/
theorem sortBy_head_ge (ge : α → α → Bool)
    (htot : ∀ a b, ge a b = true ∨ ge b a = true)
    (htrans : ∀ a b c, ge a b = true → ge b c = true → ge a c = true)
    (l : List α) (top : α) (rest : List α) (h : sortBy ge l = top :: rest) :
    ∀ y ∈ l, ge top y = true := by
  intro y hy
  have hperm := sortBy_perm ge l
  have hy' : y ∈ top :: rest := h ▸ hperm.symm.subset hy
  have hpw := sortBy_pairwise ge htot htrans l
  rw [h] at hpw
  rcases List.mem_cons.mp hy' with rfl | hy'
  · exact (htot y y).elim id id
  · exact (List.pairwise_cons.mp hpw).1 y hy'

/-- The last element of a `ge`-sorted list is dominated by every element. -/
theorem pairwise_ge_getLast (ge : α → α → Bool)
    (htot : ∀ a b, ge a b = true ∨ ge b a = true)
    (l : List α) (hpw : l.Pairwise (fun a b => ge a b = true))
    (last : α) (h : l.getLast? = some last) : ∀ y ∈ l, ge y last = true := by
  induction l with
  | nil => simp at h
  | cons x xs ih =>
    rcases List.pairwise_cons.mp hpw with ⟨hx, hxs⟩
    cases xs with
    | nil =>
      simp only [List.getLast?_singleton, Option.some_inj] at h
      subst h
      intro y hy
      simp only [List.mem_singleton] at hy
      subst hy
      exact (htot y y).elim id id
    | cons z zs =>
      have h' : (z :: zs).getLast? = some last := by
        rw [← h]; symm; exact List.getLast?_cons_cons
      intro y hy
      rcases List.mem_cons.mp hy with rfl | hy'
      · exact hx last (List.mem_of_mem_getLast? h')
      · exact ih hxs h' y hy'

theorem sortBy_getLast_le (ge : α → α → Bool)
    (htot : ∀ a b, ge a b = true ∨ ge b a = true)
    (htrans : ∀ a b c, ge a b = true → ge b c = true → ge a c = true)
    (l : List α) (last : α) (h : (sortBy ge l).getLast? = some last) :
    ∀ y ∈ l, ge y last = true := by
  intro y hy
  exact pairwise_ge_getLast ge htot (sortBy ge l)
    (sortBy_pairwise ge htot htrans l) last h y ((sortBy_perm ge l).symm.subset hy)

theorem gainGE_total : ∀ a b : (Nat × Nat) × Int, gainGE a b = true ∨ gainGE b a = true := by
  intro a b
  simp only [gainGE, decide_eq_true_eq]
  omega

theorem gainGE_trans : ∀ a b c : (Nat × Nat) × Int,
    gainGE a b = true → gainGE b c = true → gainGE a c = true := by
  intro a b c
  simp only [gainGE, decide_eq_true_eq]
  omega

/-! ## Concrete graphs used as failing inputs and counterexamples -/

/-- A 5-vertex tree: edges 0-1, 0-2, 1-3, 2-4 (unit weights).  BFS depths
from 0 are 0, 1, 1, 2, 2. -/
def gBfsTree : Graph := buildGraph 5 [(0, 1, 1), (0, 2, 1), (1, 3, 1), (2, 4, 1)]

/-- Three fresh vertices, no edges: an odd vertex count for `pa_kl`. -/
def gOdd3 : Graph := buildGraph 3 []

/-- The 4-vertex graph 0-1:2, 0-3:1, 2-3:1 on which the first KL iteration
swaps the pair (1, 2) with vertices 0 and 3 remaining. -/
def gDupd : Graph := buildGraph 4 [(0, 1, 2), (0, 3, 1), (2, 3, 1)]

/-- The 4-vertex graph 0-1:5, 2-3:3, 0-2:1: its first FM gain list has the
maximum on pair (1,3) and the minimum on pair (0,2). -/
def gFM : Graph := buildGraph 4 [(0, 1, 5), (2, 3, 3), (0, 2, 1)]

/-- The 4-vertex graph 0-1:5, 0-2:3, 2-3:5, 1-3:7: a first `pa_kl` run swaps
nothing, but the cost accumulators it leaves behind make a second run swap
(0, 2). -/
def gKL2 : Graph := buildGraph 4 [(0, 1, 5), (0, 2, 3), (2, 3, 5), (1, 3, 7)]

/-- A single connected component {0, 1} with the internal edge 0-1 of
weight 5. -/
def gComp2 : Graph := buildGraph 2 [(0, 1, 5)]

/-! ## Claim C1 -/

/-- Claim C1: on the tree `gBfsTree` with start 0 and threshold L = 2, every
visited vertex has BFS depth ≤ 2, so the claimed behavior is
group1 = {0, 1, 2, 3, 4} and group2 = ∅.  The code instead returns
group1 = {1, 2, 3}, group2 = {4} — it never places the start vertex in any
group, and it buckets a discovered vertex by the per-dequeue counter
`level` (vertex 4, at depth 2, is discovered while dequeuing the third
vertex, when `level = 2 ≥ L`), not by BFS depth. -/
theorem pa_bfs_buckets_by_dequeue_counter :
    (pa_bfs gBfsTree 0 2).toOption.map (fun r => (r.2.1, r.2.2)) =
      some ([1, 2, 3], [4]) ∧
    (0 ∉ ([1, 2, 3] : List Nat) ∧ 0 ∉ ([4] : List Nat)) ∧
    4 ∉ ([1, 2, 3] : List Nat) := by
  refine ⟨by decide, ⟨by decide, by decide⟩, by decide⟩

/-! ## Claim C2 -/

/-- Claim C2, counterexample: on three fresh vertices with no edges,
`pa_kl`'s initial bisection labels only vertices 0 (A) and 1 (B); vertex 2
— which the claim says is labeled A — is left unlabeled, appears in
neither returned group, and the group sizes sum to 2 ≠ 3 = numVertices. -/
theorem pa_kl_odd_leaves_extra_vertex_out :
    (pa_kl gOdd3).toOption.map (fun r => (r.2.2.1, r.2.2.2)) = some ([0], [1]) ∧
    2 ∈ gOdd3.getVertices ∧
    ([0] : List Nat).length + ([1] : List Nat).length ≠ gOdd3.numVertices := by
  refine ⟨by decide, by decide, by decide⟩

/-! ## Claim C3 -/

/-- Claim C3: evaluating the D-update of the first `pa_kl` iteration on
`gDupd`.  The winning pair is (1, 2) with gain 3; the remaining groups are
[0] and [3].  The claim (and the spec's update rule, `klDUpdateSpec`) require
D(0) = 5 and D(3) = 2, but the code's second loop writes vertex 3's update
into `D_values[0]` (the loop variable `x` left over from the first loop),
producing D(0) = 3 and leaving D(3) = 0. -/
theorem kl_update_writes_wrong_accumulator :
    (klInit gDupd).toOption.map (fun g =>
      let g1 := g.costPhase
      let D := Dvals g1
      let ga := g1.group .A
      let gb := g1.group .B
      let gains := sortBy gainGE (gainsOf g1 D ga gb)
      let g2 := (g1.setLabel 1 (some .B)).setLabel 2 (some .A)
      (gains.head?.map (fun t => t.1),
        (klDUpdate g2 D (ga.erase 1) (gb.erase 2) 1 2).map (fun d => (d 0, d 3)),
        (klDUpdateSpec g2 D (ga.erase 1) (gb.erase 2) 1 2 0,
          klDUpdateSpec g2 D (ga.erase 1) (gb.erase 2) 1 2 3))) =
      some (some (1, 2), some (3, 0), (5, 2)) ∧ ((3 : Int), (0 : Int)) ≠ ((5 : Int), 2) := by
  refine ⟨by decide, by decide⟩

/-! ## Claim C5 -/

/-- Claim C5, counterexample: `pa_kl` run on the fresh graph `gKL2` returns
groups A = [0, 1], B = [2, 3]; running `pa_kl` again on the graph object the
first run returns (Python mutates it in place and never resets
`internal_cost` / `external_cost`) returns A = [1, 2], B = [0, 3] — the
second run observes the stale accumulators and picks a different swap. -/
theorem pa_kl_second_run_differs :
    (pa_kl gKL2).toOption.map (fun r => (r.2.2.1, r.2.2.2)) = some ([0, 1], [2, 3]) ∧
    ((pa_kl gKL2).toOption.bind fun r => (pa_kl r.1).toOption.map
        (fun r2 => (r2.2.2.1, r2.2.2.2))) = some ([1, 2], [0, 3]) ∧
    (([0, 1], [2, 3]) : List Nat × List Nat) ≠ ([1, 2], [0, 3]) := by
  refine ⟨by decide, by decide, by decide⟩

/-! ## Claim C4 -/

/-- Claim C4, counterexample: on `gFM` (coin stream constantly 0) the first
FM gain list, sorted descending, is [((1,3),8), ((0,3),7), ((1,2),7),
((0,2),4)].  The claim says the move is made from the minimum-gain pair
(0, 2) — as `pa_fm_specMin`, modelled from the claim, does, moving vertex 0
and returning A = [1], B = [0, 2, 3].  The code takes `gains[0]`, the
MAXIMUM-gain pair (1, 3), moves vertex 1 and returns A = [0],
B = [1, 2, 3]. -/
theorem pa_fm_moves_from_max_pair :
    (pa_fm gFM (fun _ => 0)).toOption.map (fun r => (r.2.2.1, r.2.2.2)) =
      some ([0], [1, 2, 3]) ∧
    (pa_fm_specMin gFM (fun _ => 0)).toOption.map (fun r => (r.2.2.1, r.2.2.2)) =
      some ([1], [0, 2, 3]) ∧
    (([0], [1, 2, 3]) : List Nat × List Nat) ≠ ([1], [0, 2, 3]) := by
  refine ⟨by decide, by decide, by decide⟩

/-! ## Claim C6 -/

/-- Claim C6, counterexample: the graph `gComp2` is one strongly connected
component {0, 1} whose internal edge 0-1 has weight 5; the claim says this
edge appears in the component's subgraph with its original weight, but
`pa_scc_kl` only adds edges to neighbors OUTSIDE the component, so the
subgraph records weight 0 for the pair (0, 1). -/
theorem scc_subgraph_drops_internal_edges :
    (pa_scc_stage gComp2).map (fun cg => (cg.1, cg.2.w 0 1)) = [([0, 1], 0)] ∧
    gComp2.w 0 1 = 5 ∧ (0 : Int) ≠ 5 := by
  refine ⟨by decide, by decide, by decide⟩

/-! ## Claim C9 -/

/-- Claim C9: `pa_bfs` raises `InvalidVertex` exactly when the starting
identifier is absent from the graph, and returns the two groups without
raising whenever it is present. -/
theorem pa_bfs_invalid_vertex_iff (g : Graph) (t : Int) (_hwf : g.WF) (s : Nat) :
    ((∃ e, pa_bfs g s t = .error e) ↔ g.getVertex s = none) ∧
    (pa_bfs g s t = .error .invalidVertex ∨ ∃ r, pa_bfs g s t = .ok r) := by
  unfold pa_bfs
  cases h : g.getVertex s with
  | none =>
    refine ⟨⟨fun _ => rfl, fun _ => ⟨.invalidVertex, rfl⟩⟩, .inl rfl⟩
  | some v =>
    refine ⟨⟨?_, fun hc => by simp at hc⟩, .inr ⟨_, rfl⟩⟩
    rintro ⟨e, he⟩
    simp at he

/-- Witness for C9: on the two-vertex graph 0-1, starting id 5 is rejected
with `InvalidVertex` and starting id 0 succeeds. -/
theorem pa_bfs_invalid_vertex_iff_witness :
    ((∃ e, pa_bfs (buildGraph 2 [(0, 1, 1)]) 5 0 = .error e) ↔
      (buildGraph 2 [(0, 1, 1)]).getVertex 5 = none) ∧
    (∃ r, pa_bfs (buildGraph 2 [(0, 1, 1)]) 0 0 = .ok r) := by
  refine ⟨(pa_bfs_invalid_vertex_iff (buildGraph 2 [(0, 1, 1)]) 0 (by decide) 5).1, ?_⟩
  rcases (pa_bfs_invalid_vertex_iff (buildGraph 2 [(0, 1, 1)]) 0 (by decide) 0).2 with h | h
  · exact absurd ((pa_bfs_invalid_vertex_iff (buildGraph 2 [(0, 1, 1)]) 0 (by decide) 0).1.mp
      ⟨_, h⟩) (by decide)
  · exact h

/-! ## Structural lemmas: label and cost writes do not change the graph's
skeleton (ids, adjacency), hence none of the weight or well-formedness
queries. -/

/-- The label-and-cost-independent part of a graph. -/
def Graph.skeleton (g : Graph) : List (Nat × List (Nat × Int)) :=
  g.vertList.map (fun v => (v.id, v.adj))

theorem modifyVertex_skeleton (g : Graph) (i : Nat) (f : Vertex → Vertex)
    (hid : ∀ v, (f v).id = v.id) (hadj : ∀ v, (f v).adj = v.adj) :
    (g.modifyVertex i f).skeleton = g.skeleton := by
  simp only [Graph.skeleton, Graph.modifyVertex, List.map_map]
  apply List.map_congr_left
  intro v _
  by_cases h : v.id = i <;> simp [h, hid, hadj]

theorem setLabel_skeleton (g : Graph) (i : Nat) (l : Option PLabel) :
    (g.setLabel i l).skeleton = g.skeleton :=
  modifyVertex_skeleton g i _ (fun _ => rfl) (fun _ => rfl)

theorem costUpdVertex_id (g : Graph) (v : Vertex) : (costUpdVertex g v).id = v.id := by
  unfold costUpdVertex
  generalize v.adj = l
  induction l generalizing v with
  | nil => rfl
  | cons p ps ih => by_cases h : v.partition_label = g.labelOf p.1 <;> simp [h, ih]

theorem costUpdVertex_adj (g : Graph) (v : Vertex) : (costUpdVertex g v).adj = v.adj := by
  unfold costUpdVertex
  suffices h : ∀ (l : List (Nat × Int)) (v : Vertex),
      (l.foldl (fun w p =>
        if w.partition_label = g.labelOf p.1 then
          { w with internal_cost := w.internal_cost + w.getWeight p.1 }
        else
          { w with external_cost := w.external_cost - w.getWeight p.1 }) v).adj = v.adj by
    exact h v.adj v
  intro l
  induction l with
  | nil => intro v; rfl
  | cons p ps ih =>
    intro v
    by_cases h : v.partition_label = g.labelOf p.1 <;> simp [h, ih]

theorem costUpdVertex_label (g : Graph) (v : Vertex) :
    (costUpdVertex g v).partition_label = v.partition_label := by
  unfold costUpdVertex
  suffices h : ∀ (l : List (Nat × Int)) (v : Vertex),
      (l.foldl (fun w p =>
        if w.partition_label = g.labelOf p.1 then
          { w with internal_cost := w.internal_cost + w.getWeight p.1 }
        else
          { w with external_cost := w.external_cost - w.getWeight p.1 }) v).partition_label =
        v.partition_label by
    exact h v.adj v
  intro l
  induction l with
  | nil => intro v; rfl
  | cons p ps ih =>
    intro v
    by_cases h : v.partition_label = g.labelOf p.1 <;> simp [h, ih]

theorem costPhase_skeleton (g : Graph) : g.costPhase.skeleton = g.skeleton := by
  simp only [Graph.skeleton, Graph.costPhase, List.map_map]
  apply List.map_congr_left
  intro v _
  simp [costUpdVertex_id, costUpdVertex_adj]

/-- Every structural query factors through the skeleton. -/
theorem getVertex_of_skeleton_eq (g g' : Graph) (h : g'.skeleton = g.skeleton) (i : Nat) :
    ((g'.getVertex i).map (fun v => (v.id, v.adj))) =
      ((g.getVertex i).map (fun v => (v.id, v.adj))) := by
  have h1 : ∀ G : Graph, (G.getVertex i).map (fun v => (v.id, v.adj)) =
      G.skeleton.find? (fun p => p.1 == i) := by
    intro G
    simp only [Graph.getVertex, Graph.skeleton, List.find?_map]
    congr 1
  rw [h1, h1, h]

theorem w_of_skeleton_eq (g g' : Graph) (h : g'.skeleton = g.skeleton) :
    g'.w = g.w := by
  funext i j
  have hv := getVertex_of_skeleton_eq g g' h i
  simp only [Graph.w]
  cases h1 : g'.getVertex i with
  | none =>
    rw [h1] at hv
    cases h2 : g.getVertex i with
    | none => rfl
    | some v => rw [h2] at hv; simp at hv
  | some v =>
    rw [h1] at hv
    cases h2 : g.getVertex i with
    | none => rw [h2] at hv; simp at hv
    | some v' =>
      rw [h2] at hv
      simp only [Option.map_some'] at hv
      have hadj : v.adj = v'.adj := (Prod.mk.injEq _ _ _ _ ▸ Option.some.inj hv).2
      simp [Vertex.getWeight, hadj]

theorem numVertices_of_skeleton_eq (g g' : Graph) (h : g'.skeleton = g.skeleton) :
    g'.numVertices = g.numVertices := by
  have := congrArg List.length h
  simpa [Graph.skeleton, Graph.numVertices] using this

theorem getVertices_of_skeleton_eq (g g' : Graph) (h : g'.skeleton = g.skeleton) :
    g'.getVertices = g.getVertices := by
  have := congrArg (List.map Prod.fst) h
  simpa [Graph.skeleton, Graph.getVertices, List.map_map, Function.comp] using this

theorem allCongr {α : Type _} (l : List α) (p q : α → Bool) (h : ∀ x ∈ l, p x = q x) :
    l.all p = l.all q := by
  induction l with
  | nil => rfl
  | cons x xs ih =>
    simp only [List.all_cons, h x (by simp), ih (fun y hy => h y (by simp [hy]))]

theorem wfb_of_skeleton_eq (g g' : Graph) (h : g'.skeleton = g.skeleton) :
    g'.wfb = g.wfb := by
  have hn := numVertices_of_skeleton_eq g g' h
  have hw := w_of_skeleton_eq g g' h
  simp only [Graph.wfb]
  rw [show g'.vertList.length = g.vertList.length from hn]
  apply allCongr
  intro i _
  have hpos : (g'.vertList[i]?).map (fun v => (v.id, v.adj)) =
      (g.vertList[i]?).map (fun v => (v.id, v.adj)) := by
    have := congrArg (fun l => l[i]?) h
    simpa [Graph.skeleton, List.getElem?_map] using this
  cases h1 : g'.vertList[i]? with
  | none =>
    rw [h1] at hpos
    cases h2 : g.vertList[i]? with
    | none => rfl
    | some v => rw [h2] at hpos; simp at hpos
  | some v =>
    rw [h1] at hpos
    cases h2 : g.vertList[i]? with
    | none => rw [h2] at hpos; simp at hpos
    | some v' =>
      rw [h2] at hpos
      simp only [Option.map_some'] at hpos
      have hp := Prod.mk.injEq _ _ _ _ ▸ Option.some.inj hpos
      simp [hp.1, hp.2, hw]

/-! ## Facts about well-formed graphs -/

theorem wf_unpack (g : Graph) (hwf : g.WF) (i : Nat) (hi : i < g.numVertices) :
    ∃ v, g.vertList[i]? = some v ∧ v.id = i := by
  have h := List.all_eq_true.mp hwf i (by simpa [List.mem_range] using hi)
  cases h2 : g.vertList[i]? with
  | none => rw [h2] at h; simp at h
  | some v =>
    rw [h2] at h
    simp only [Bool.and_eq_true, beq_iff_eq] at h
    exact ⟨v, rfl, h.1.1.1⟩

theorem wf_getVertices (g : Graph) (hwf : g.WF) :
    g.getVertices = List.range g.numVertices := by
  apply List.ext_getElem?
  intro i
  simp only [Graph.getVertices, List.getElem?_map]
  by_cases hi : i < g.numVertices
  · obtain ⟨v, hv, hid⟩ := wf_unpack g hwf i hi
    rw [hv, List.getElem?_range hi, Option.map_some']
    rw [hid]
  · have h1 : g.vertList[i]? = none :=
      List.getElem?_eq_none (by simpa [Graph.numVertices] using Nat.le_of_not_lt hi)
    have h2 : (List.range g.numVertices)[i]? = none :=
      List.getElem?_eq_none (by simpa using Nat.le_of_not_lt hi)
    rw [h1, h2]
    rfl

theorem wf_ids_nodup (g : Graph) (hwf : g.WF) : g.getVertices.Nodup := by
  rw [wf_getVertices g hwf]
  exact List.nodup_range _

theorem wf_getVertex_isSome (g : Graph) (hwf : g.WF) (i : Nat)
    (hi : i < g.numVertices) : (g.getVertex i).isSome := by
  obtain ⟨v, hv, hid⟩ := wf_unpack g hwf i hi
  have hmem : v ∈ g.vertList := List.getElem?_mem hv
  apply List.find?_isSome.mpr
  exact ⟨v, hmem, by simp [hid]⟩

/-- In a list of vertices with pairwise-distinct ids, the id determines the
vertex. -/
theorem vertex_id_inj (l : List Vertex) (hnd : (l.map (fun v => v.id)).Nodup) :
    ∀ v1 ∈ l, ∀ v2 ∈ l, v1.id = v2.id → v1 = v2 := by
  induction l with
  | nil => intro v1 h1; simp at h1
  | cons x xs ih =>
    simp only [List.map_cons, List.nodup_cons] at hnd
    intro v1 h1 v2 h2 hid
    rcases List.mem_cons.mp h1 with rfl | h1' <;> rcases List.mem_cons.mp h2 with rfl | h2'
    · rfl
    · have hmem : v1.id ∈ xs.map (fun v => v.id) := by
        rw [hid]; exact List.mem_map_of_mem _ h2'
      exact absurd hmem hnd.1
    · have hmem : v2.id ∈ xs.map (fun v => v.id) := by
        rw [← hid]; exact List.mem_map_of_mem _ h1'
      exact absurd hmem hnd.1
    · exact ih hnd.2 v1 h1' v2 h2' hid

/-- With unique ids, two vertices of the list with the same id coincide. -/
theorem id_inj_of_nodup (g : Graph) (hnd : g.getVertices.Nodup)
    (v1 v2 : Vertex) (h1 : v1 ∈ g.vertList) (h2 : v2 ∈ g.vertList)
    (hid : v1.id = v2.id) : v1 = v2 :=
  vertex_id_inj g.vertList hnd v1 h1 v2 h2 hid

/-! ## The initial bisection of KL / FM -/

/-- The label the initial bisection (lines 116-119 / 236-239) leaves on a
vertex with id `i`, given the vertex count and the prior label. -/
def initLabel (n : Nat) (orig : Option PLabel) (i : Nat) : Option PLabel :=
  if i < n / 2 then some .A
  else if i < n / 2 + n / 2 then some .B
  else orig

theorem klInit_aux (g : Graph) (hwf : g.WF) (k : Nat) (hk : k ≤ g.numVertices / 2) :
    (List.range k).foldlM
      (fun (g' : Graph) ind =>
        if ((g'.getVertex ind).isSome && (g'.getVertex (ind + g.numVertices / 2)).isSome : Bool)
        then (Except.ok ((g'.setLabel ind (some .A)).setLabel (ind + g.numVertices / 2)
          (some .B)) : Except Err Graph)
        else Except.error Err.keyError)
      g =
    Except.ok ⟨g.vertList.map (fun v =>
      { v with partition_label :=
          if v.id < k then some .A
          else if g.numVertices / 2 ≤ v.id ∧ v.id < g.numVertices / 2 + k then some .B
          else v.partition_label })⟩ := by
  induction k with
  | zero =>
    simp only [List.range_zero, List.foldlM_nil]
    congr 1
    apply (Graph.mk.injEq _ _).mpr
    have hcongr : g.vertList.map (fun v =>
        { v with partition_label :=
            if v.id < 0 then some PLabel.A
            else if g.numVertices / 2 ≤ v.id ∧ v.id < g.numVertices / 2 + 0 then some PLabel.B
            else v.partition_label }) = g.vertList.map id := by
      apply List.map_congr_left
      intro v _
      rcases v with ⟨vid, vadj, vlab, vint, vext, vlev⟩
      simp
    rw [List.map_id] at hcongr
    exact hcongr.symm
  | succ k ih =>
    have hk' : k ≤ g.numVertices / 2 := Nat.le_of_succ_le hk
    have hbind : ∀ (x : Graph) (f : Graph → Except Err Graph), (Except.ok x >>= f) = f x :=
      fun _ _ => rfl
    rw [List.range_succ, List.foldlM_append, ih hk', hbind]
    simp only [List.foldlM_cons, List.foldlM_nil]
    set gk : Graph := ⟨g.vertList.map (fun v =>
      { v with partition_label :=
          if v.id < k then some .A
          else if g.numVertices / 2 ≤ v.id ∧ v.id < g.numVertices / 2 + k then some .B
          else v.partition_label })⟩ with hgk
    have hskel : gk.skeleton = g.skeleton := by
      simp only [Graph.skeleton, hgk, List.map_map]
      apply List.map_congr_left
      intro v _
      simp [Function.comp]
    have hsome : ∀ j, j < g.numVertices → (gk.getVertex j).isSome = true := by
      intro j hj
      have hg := wf_getVertex_isSome g hwf j hj
      have hv' := getVertex_of_skeleton_eq g gk hskel j
      cases hv2 : gk.getVertex j with
      | none =>
        rw [hv2] at hv'
        cases hv : g.getVertex j with
        | none => rw [hv] at hg; simp at hg
        | some v => rw [hv] at hv'; simp at hv'
      | some v2 => simp
    have hn2 : g.numVertices / 2 + g.numVertices / 2 ≤ g.numVertices := by
      have := Nat.div_le_self g.numVertices 2
      omega
    have hs1 : (gk.getVertex k).isSome = true := hsome k (by omega)
    have hs2 : (gk.getVertex (k + g.numVertices / 2)).isSome = true := hsome _ (by omega)
    rw [if_pos (by rw [hs1, hs2]; rfl), hbind]
    have hkh : k < g.numVertices / 2 := hk
    show Except.ok _ = _
    congr 1
    simp only [Graph.setLabel, Graph.modifyVertex, hgk, List.map_map]
    apply (Graph.mk.injEq _ _).mpr
    apply List.map_congr_left
    intro v _
    rcases v with ⟨vid, vadj, vlab, vint, vext, vlev⟩
    simp only [Function.comp]
    split_ifs <;> simp_all <;> omega

/-- The initial bisection succeeds on a well-formed graph and rewrites every
vertex's label through `initLabel` while leaving everything else alone. -/
theorem klInit_spec (g : Graph) (hwf : g.WF) :
    klInit g = Except.ok ⟨g.vertList.map (fun v =>
      { v with partition_label := initLabel g.numVertices v.partition_label v.id })⟩ := by
  have h := klInit_aux g hwf (g.numVertices / 2) (le_refl _)
  unfold klInit
  rw [h]
  congr 1
  apply (Graph.mk.injEq _ _).mpr
  apply List.map_congr_left
  intro v _
  rcases v with ⟨vid, vadj, vlab, vint, vext, vlev⟩
  simp only [initLabel]
  split_ifs <;> simp_all <;> omega

/-! ## Labels, groups, and the loop invariants of KL / FM -/

/-- The (id, label) view of a graph. -/
def Graph.labelsProj (g : Graph) : List (Nat × Option PLabel) :=
  g.vertList.map (fun v => (v.id, v.partition_label))

theorem costPhase_labelsProj (g : Graph) : g.costPhase.labelsProj = g.labelsProj := by
  simp only [Graph.labelsProj, Graph.costPhase, List.map_map]
  apply List.map_congr_left
  intro v _
  simp [Function.comp, costUpdVertex_id, costUpdVertex_label]

theorem group_eq_filterMap (g : Graph) (l : PLabel) :
    g.group l = g.labelsProj.filterMap
      (fun p => if p.2 = some l then some p.1 else none) := by
  simp only [Graph.group, Graph.labelsProj, List.filterMap_map]
  rfl

theorem group_of_labelsProj_eq (g g' : Graph) (h : g'.labelsProj = g.labelsProj)
    (l : PLabel) : g'.group l = g.group l := by
  rw [group_eq_filterMap, group_eq_filterMap, h]

theorem costPhase_group (g : Graph) (l : PLabel) : g.costPhase.group l = g.group l :=
  group_of_labelsProj_eq g g.costPhase (costPhase_labelsProj g) l

theorem mem_group_iff (g : Graph) (l : PLabel) (i : Nat) :
    i ∈ g.group l ↔ ∃ v ∈ g.vertList, v.id = i ∧ v.partition_label = some l := by
  simp only [Graph.group, List.mem_filterMap]
  constructor
  · rintro ⟨v, hv, hvi⟩
    by_cases h : v.partition_label = some l
    · rw [if_pos h] at hvi
      exact ⟨v, hv, Option.some.inj hvi, h⟩
    · rw [if_neg h] at hvi; cases hvi
  · rintro ⟨v, hv, rfl, hl⟩
    exact ⟨v, hv, by rw [if_pos hl]⟩

theorem gainsOf_mem (g : Graph) (D : Nat → Int) (ga gb : List Nat)
    (x : (Nat × Nat) × Int) (hx : x ∈ gainsOf g D ga gb) :
    x.1.1 ∈ ga ∧ x.1.2 ∈ gb := by
  simp only [gainsOf, List.mem_flatMap, List.mem_map] at hx
  obtain ⟨a, ha, b, hb, rfl⟩ := hx
  exact ⟨ha, hb⟩

/-- Invariant carried by the KL/FM loops over a graph with vertex count `n`:
vertices with id below `2*(n/2)` are labeled, the rest are unlabeled. -/
def labelDomOk (n : Nat) (g : Graph) : Prop :=
  ∀ v ∈ g.vertList, (v.id < n / 2 + n / 2 → (v.partition_label).isSome) ∧
    (n / 2 + n / 2 ≤ v.id → v.partition_label = none)

theorem labelDomOk_costPhase (n : Nat) (g : Graph) (h : labelDomOk n g) :
    labelDomOk n g.costPhase := by
  intro v hv
  simp only [Graph.costPhase, List.mem_map] at hv
  obtain ⟨v0, hv0, rfl⟩ := hv
  rw [costUpdVertex_id, costUpdVertex_label]
  exact h v0 hv0

theorem labelDomOk_setLabel (n : Nat) (g : Graph) (h : labelDomOk n g) (i : Nat)
    (l : PLabel) (hi : ∃ v ∈ g.vertList, v.id = i ∧ (v.partition_label).isSome) :
    labelDomOk n (g.setLabel i (some l)) := by
  obtain ⟨v0, hv0, rfl, hv0s⟩ := hi
  have hbound : v0.id < n / 2 + n / 2 := by
    by_contra hge
    rw [(h v0 hv0).2 (Nat.le_of_not_lt hge)] at hv0s
    simp at hv0s
  intro v hv
  simp only [Graph.setLabel, Graph.modifyVertex, List.mem_map] at hv
  obtain ⟨w, hw, rfl⟩ := hv
  by_cases hwi : w.id = v0.id
  · simp only [hwi, if_pos]
    exact ⟨fun _ => by simp, fun hge => absurd hbound (Nat.not_lt.mpr hge)⟩
  · simp only [hwi, if_neg, if_false]
    exact h w hw

theorem mem_group_isSome (g : Graph) (l : PLabel) (i : Nat) (hi : i ∈ g.group l) :
    ∃ v ∈ g.vertList, v.id = i ∧ (v.partition_label).isSome := by
  obtain ⟨v, hv, rfl, hl⟩ := (mem_group_iff g l i).mp hi
  exact ⟨v, hv, rfl, by simp [hl]⟩

/-- The KL swap loop preserves the label-domain invariant and the skeleton. -/
theorem klLoop_invariant (n : Nat) :
    ∀ (fuel : Nat) (g : Graph) (tg : Int) (g' : Graph) (tg' : Int),
      klLoop fuel g tg = .ok (g', tg') → labelDomOk n g →
      labelDomOk n g' ∧ g'.skeleton = g.skeleton := by
  intro fuel
  induction fuel with
  | zero =>
    intro g tg g' tg' hok hdom
    simp only [klLoop] at hok
    cases hok
    exact ⟨hdom, rfl⟩
  | succ fuel ih =>
    intro g tg g' tg' hok hdom
    simp only [klLoop] at hok
    split at hok
    · cases hok
    · rename_i top rest hgains
      split at hok
      · cases hok
        exact ⟨labelDomOk_costPhase n g hdom,
          costPhase_skeleton g⟩
      · split at hok
        · cases hok
        · rename_i hD
          have htop : top ∈ gainsOf g.costPhase (Dvals g.costPhase) (g.group .A) (g.group .B) := by
            have hperm := sortBy_perm gainGE
              (gainsOf g.costPhase (Dvals g.costPhase) (g.group .A) (g.group .B))
            have : top ∈ sortBy gainGE
                (gainsOf g.costPhase (Dvals g.costPhase) (g.group .A) (g.group .B)) := by
              rw [hgains]; simp
            exact hperm.subset this
          obtain ⟨ha, hb⟩ := gainsOf_mem _ _ _ _ top htop
          have hcost := labelDomOk_costPhase n g hdom
          have hga : top.1.1 ∈ g.costPhase.group .A := by rw [costPhase_group]; exact ha
          have hgb : top.1.2 ∈ g.costPhase.group .B := by rw [costPhase_group]; exact hb
          have hdom1 : labelDomOk n (g.costPhase.setLabel top.1.1 (some .B)) :=
            labelDomOk_setLabel n _ hcost _ _ (mem_group_isSome _ _ _ hga)
          have hdom2 : labelDomOk n ((g.costPhase.setLabel top.1.1 (some .B)).setLabel
              top.1.2 (some .A)) := by
            apply labelDomOk_setLabel n _ hdom1
            obtain ⟨v, hv, hvi, hvs⟩ := mem_group_isSome _ _ _ hgb
            refine ⟨{ v with partition_label :=
              if v.id = top.1.1 then some PLabel.B else v.partition_label }, ?_, ?_, ?_⟩
            · simp only [Graph.setLabel, Graph.modifyVertex, List.mem_map]
              refine ⟨v, hv, ?_⟩
              by_cases h : v.id = top.1.1 <;> simp [h]
            · simpa using hvi
            · by_cases h : v.id = top.1.1 <;> simp [h, hvs]
          obtain ⟨hd', hs'⟩ := ih _ _ _ _ hok hdom2
          refine ⟨hd', ?_⟩
          rw [hs', setLabel_skeleton, setLabel_skeleton, costPhase_skeleton]

/-- The FM move loop preserves the label-domain invariant and the skeleton. -/
theorem fmLoop_invariant (n : Nat) (coins : Nat → Nat) :
    ∀ (fuel k : Nat) (g : Graph) (tg : Int) (g' : Graph) (tg' : Int),
      fmLoop coins k fuel g tg = .ok (g', tg') → labelDomOk n g →
      labelDomOk n g' ∧ g'.skeleton = g.skeleton := by
  intro fuel
  induction fuel with
  | zero =>
    intro k g tg g' tg' hok hdom
    simp only [fmLoop] at hok
    cases hok
    exact ⟨hdom, rfl⟩
  | succ fuel ih =>
    intro k g tg g' tg' hok hdom
    simp only [fmLoop] at hok
    split at hok
    · rename_i top rest last hgains hlast
      split at hok
      · cases hok
        exact ⟨labelDomOk_costPhase n g hdom, costPhase_skeleton g⟩
      · split at hok
        · cases hok
        · have htop : top ∈ gainsOf g.costPhase (Dvals g.costPhase)
              (g.group .A) (g.group .B) := by
            have hperm := sortBy_perm gainGE
              (gainsOf g.costPhase (Dvals g.costPhase) (g.group .A) (g.group .B))
            have : top ∈ sortBy gainGE
                (gainsOf g.costPhase (Dvals g.costPhase) (g.group .A) (g.group .B)) := by
              rw [hgains]; simp
            exact hperm.subset this
          obtain ⟨ha, hb⟩ := gainsOf_mem _ _ _ _ top htop
          have hcost := labelDomOk_costPhase n g hdom
          have hga : top.1.1 ∈ g.costPhase.group .A := by rw [costPhase_group]; exact ha
          have hgb : top.1.2 ∈ g.costPhase.group .B := by rw [costPhase_group]; exact hb
          by_cases hcoin : coins k = 0
          · rw [if_pos hcoin] at hok
            obtain ⟨hd', hs'⟩ := ih _ _ _ _ _ hok
              (labelDomOk_setLabel n _ hcost _ _ (mem_group_isSome _ _ _ hga))
            exact ⟨hd', by rw [hs', setLabel_skeleton, costPhase_skeleton]⟩
          · rw [if_neg hcoin] at hok
            obtain ⟨hd', hs'⟩ := ih _ _ _ _ _ hok
              (labelDomOk_setLabel n _ hcost _ _ (mem_group_isSome _ _ _ hgb))
            exact ⟨hd', by rw [hs', setLabel_skeleton, costPhase_skeleton]⟩
    · cases hok

/-! ## Counting the two groups -/

theorem group_lengths_aux (l : List Vertex) :
    (l.filterMap (fun v => if v.partition_label = some PLabel.A then some v.id else none)).length +
    (l.filterMap (fun v => if v.partition_label = some PLabel.B then some v.id else none)).length =
    l.countP (fun v => (v.partition_label).isSome) := by
  induction l with
  | nil => rfl
  | cons x xs ih =>
    cases hx : x.partition_label with
    | none => simp [List.filterMap_cons, hx, List.countP_cons, ih]
    | some lab =>
      cases lab <;> simp [List.filterMap_cons, hx, List.countP_cons, ih] <;> omega

theorem range_countP_lt (m : Nat) : ∀ n : Nat,
    (List.range n).countP (fun i => decide (i < m)) = min m n := by
  intro n
  induction n with
  | zero => simp
  | succ n ih =>
    rw [List.range_succ, List.countP_append, ih]
    by_cases h : n < m <;> simp [List.countP_cons, h] <;> omega

/-- The partition shape of the group lists: ids below `2*(n/2)` land in
exactly one group, larger ids in neither, and the sizes add up to
`2*(n/2)`. -/
def partitionOut (n : Nat) (ids ga gb : List Nat) : Prop :=
  (∀ i ∈ ids, i < n / 2 + n / 2 → ((i ∈ ga ∧ i ∉ gb) ∨ (i ∈ gb ∧ i ∉ ga))) ∧
  (∀ i ∈ ids, n / 2 + n / 2 ≤ i → (i ∉ ga ∧ i ∉ gb)) ∧
  ga.length + gb.length = n / 2 + n / 2

theorem groups_partition_of_labelDom (g' : Graph) (n : Nat)
    (hdom : labelDomOk n g') (hids : g'.getVertices = List.range n) :
    partitionOut n (List.range n) (g'.group .A) (g'.group .B) := by
  have hnd : g'.getVertices.Nodup := by rw [hids]; exact List.nodup_range _
  have hvert : ∀ i, i ∈ g'.getVertices → ∃ v ∈ g'.vertList, v.id = i := by
    intro i hi
    simp only [Graph.getVertices, List.mem_map] at hi
    obtain ⟨v, hv, rfl⟩ := hi
    exact ⟨v, hv, rfl⟩
  have hnotboth : ∀ i, i ∈ g'.group .A → i ∈ g'.group .B → False := by
    intro i hA hB
    obtain ⟨v1, hv1, hv1i, hl1⟩ := (mem_group_iff g' .A i).mp hA
    obtain ⟨v2, hv2, hv2i, hl2⟩ := (mem_group_iff g' .B i).mp hB
    have := id_inj_of_nodup g' hnd v1 v2 hv1 hv2 (by rw [hv1i, hv2i])
    rw [this, hl2] at hl1
    cases hl1
  refine ⟨?_, ?_, ?_⟩
  · intro i hi hlt
    obtain ⟨v, hv, rfl⟩ := hvert i (by rw [hids]; exact hi)
    have hsome := (hdom v hv).1 hlt
    cases hl : v.partition_label with
    | none => rw [hl] at hsome; cases hsome
    | some lab =>
      cases lab with
      | A =>
        left
        refine ⟨(mem_group_iff g' .A v.id).mpr ⟨v, hv, rfl, hl⟩, fun hB => ?_⟩
        exact hnotboth v.id ((mem_group_iff g' .A v.id).mpr ⟨v, hv, rfl, hl⟩) hB
      | B =>
        right
        refine ⟨(mem_group_iff g' .B v.id).mpr ⟨v, hv, rfl, hl⟩, fun hA => ?_⟩
        exact hnotboth v.id hA ((mem_group_iff g' .B v.id).mpr ⟨v, hv, rfl, hl⟩)
  · intro i hi hge
    constructor
    · intro hA
      obtain ⟨v, hv, hvi, hl⟩ := (mem_group_iff g' .A i).mp hA
      rw [(hdom v hv).2 (by omega)] at hl
      cases hl
    · intro hB
      obtain ⟨v, hv, hvi, hl⟩ := (mem_group_iff g' .B i).mp hB
      rw [(hdom v hv).2 (by omega)] at hl
      cases hl
  · have h1 : (g'.group .A).length + (g'.group .B).length =
        g'.vertList.countP (fun v => (v.partition_label).isSome) := by
      simp only [Graph.group]
      exact group_lengths_aux g'.vertList
    have h2 : g'.vertList.countP (fun v => (v.partition_label).isSome) =
        g'.vertList.countP (fun v => decide (v.id < n / 2 + n / 2)) := by
      apply List.countP_congr
      intro v hv
      rcases hdom v hv with ⟨hlt, hge⟩
      by_cases h : v.id < n / 2 + n / 2
      · simp [h, hlt h]
      · simp [h, hge (Nat.le_of_not_lt h)]
    have h3 : g'.vertList.countP (fun v => decide (v.id < n / 2 + n / 2)) =
        (g'.vertList.map (fun v => v.id)).countP (fun i => decide (i < n / 2 + n / 2)) := by
      rw [List.countP_map]
      rfl
    have h4 : (g'.vertList.map (fun v => v.id)).countP
        (fun i => decide (i < n / 2 + n / 2)) = min (n / 2 + n / 2) n := by
      have : g'.vertList.map (fun v => v.id) = List.range n := hids
      rw [this]
      exact range_countP_lt _ n
    have hb : n / 2 + n / 2 ≤ n := by omega
    rw [h1, h2, h3, h4]
    omega

theorem bind_ok_eq (x : Graph) (f : Graph → Except Err (Graph × Int × List Nat × List Nat)) :
    ((Except.ok x : Except Err Graph) >>= f) = f x := rfl

theorem bind_ok_pair (x : Graph × Int)
    (f : Graph × Int → Except Err (Graph × Int × List Nat × List Nat)) :
    ((Except.ok x : Except Err (Graph × Int)) >>= f) = f x := rfl

theorem bind_error_pair (e : Err)
    (f : Graph × Int → Except Err (Graph × Int × List Nat × List Nat)) :
    ((Except.error e : Except Err (Graph × Int)) >>= f) = Except.error e := rfl

/-- Initial-bisection graph of a fresh well-formed graph satisfies the
label-domain invariant. -/
theorem klInit_labelDom (g : Graph)
    (hunset : ∀ v ∈ g.vertList, v.partition_label = none) :
    labelDomOk g.numVertices ⟨g.vertList.map (fun v =>
      { v with partition_label := initLabel g.numVertices v.partition_label v.id })⟩ := by
  intro v hv
  simp only [List.mem_map] at hv
  obtain ⟨v0, hv0, rfl⟩ := hv
  simp only [initLabel, hunset v0 hv0]
  constructor
  · intro hlt
    split_ifs <;> first | rfl | (exfalso; omega)
  · intro hge
    split_ifs <;> first | rfl | (exfalso; omega)

theorem klInit_skeleton_map (g : Graph) :
    (⟨g.vertList.map (fun v =>
      { v with partition_label := initLabel g.numVertices v.partition_label v.id })⟩ :
        Graph).skeleton = g.skeleton := by
  simp only [Graph.skeleton, List.map_map]
  apply List.map_congr_left
  intro v _
  simp [Function.comp]

/-- KL part of the partition claim: whatever `pa_kl` returns on a fresh
well-formed graph has the `partitionOut` shape. -/
theorem pa_kl_partition_part (g : Graph) (hwf : g.WF)
    (hunset : ∀ v ∈ g.vertList, v.partition_label = none) :
    ∀ gr c ga gb, pa_kl g = .ok (gr, c, ga, gb) →
      partitionOut g.numVertices (List.range g.numVertices) ga gb := by
  intro gr c ga gb hok
  unfold pa_kl at hok
  rw [klInit_spec g hwf, bind_ok_eq] at hok
  set gI : Graph := ⟨g.vertList.map (fun v =>
    { v with partition_label := initLabel g.numVertices v.partition_label v.id })⟩ with hgI
  cases hl : klLoop (gI.numVertices / 2) gI 0 with
  | error e => rw [hl, bind_error_pair] at hok; cases hok
  | ok r =>
    rw [hl, bind_ok_pair] at hok
    obtain ⟨hdom', hskel'⟩ := klLoop_invariant g.numVertices _ _ _ _ _ hl
      (klInit_labelDom g hunset)
    have hids : r.1.getVertices = List.range g.numVertices := by
      rw [getVertices_of_skeleton_eq _ _ hskel', getVertices_of_skeleton_eq _ _
        (klInit_skeleton_map g), wf_getVertices g hwf]
    have hga : ga = r.1.group .A := by
      have := congrArg (fun x => match x with | Except.ok y => y.2.2.1 | Except.error _ => []) hok
      simpa using this.symm
    have hgb : gb = r.1.group .B := by
      have := congrArg (fun x => match x with | Except.ok y => y.2.2.2 | Except.error _ => []) hok
      simpa using this.symm
    rw [hga, hgb]
    exact groups_partition_of_labelDom r.1 g.numVertices hdom' hids

/-- FM part of the partition claim, for every coin stream. -/
theorem pa_fm_partition_part (g : Graph) (hwf : g.WF)
    (hunset : ∀ v ∈ g.vertList, v.partition_label = none) (coins : Nat → Nat) :
    ∀ gr c ga gb, pa_fm g coins = .ok (gr, c, ga, gb) →
      partitionOut g.numVertices (List.range g.numVertices) ga gb := by
  intro gr c ga gb hok
  unfold pa_fm at hok
  rw [klInit_spec g hwf, bind_ok_eq] at hok
  set gI : Graph := ⟨g.vertList.map (fun v =>
    { v with partition_label := initLabel g.numVertices v.partition_label v.id })⟩ with hgI
  cases hl : fmLoop coins 0 (gI.numVertices / 2) gI 0 with
  | error e => rw [hl, bind_error_pair] at hok; cases hok
  | ok r =>
    rw [hl, bind_ok_pair] at hok
    obtain ⟨hdom', hskel'⟩ := fmLoop_invariant g.numVertices coins _ _ _ _ _ _ hl
      (klInit_labelDom g hunset)
    have hids : r.1.getVertices = List.range g.numVertices := by
      rw [getVertices_of_skeleton_eq _ _ hskel', getVertices_of_skeleton_eq _ _
        (klInit_skeleton_map g), wf_getVertices g hwf]
    have hga : ga = r.1.group .A := by
      have := congrArg (fun x => match x with | Except.ok y => y.2.2.1 | Except.error _ => []) hok
      simpa using this.symm
    have hgb : gb = r.1.group .B := by
      have := congrArg (fun x => match x with | Except.ok y => y.2.2.2 | Except.error _ => []) hok
      simpa using this.symm
    rw [hga, hgb]
    exact groups_partition_of_labelDom r.1 g.numVertices hdom' hids

/-! ## Vertex-id bookkeeping for subgraph construction -/

theorem getVertex_isSome_iff (g : Graph) (i : Nat) :
    (g.getVertex i).isSome ↔ i ∈ g.getVertices := by
  simp only [Graph.getVertex, Graph.getVertices, List.find?_isSome, List.mem_map]
  constructor
  · rintro ⟨v, hv, hvi⟩
    exact ⟨v, hv, by simpa using hvi⟩
  · rintro ⟨v, hv, rfl⟩
    exact ⟨v, hv, by simp⟩

theorem modifyVertex_getVertices (g : Graph) (i : Nat) (f : Vertex → Vertex)
    (hid : ∀ v, (f v).id = v.id) :
    (g.modifyVertex i f).getVertices = g.getVertices := by
  simp only [Graph.getVertices, Graph.modifyVertex, List.map_map]
  apply List.map_congr_left
  intro v _
  by_cases h : v.id = i <;> simp [h, hid]

theorem setLabel_getVertices (g : Graph) (i : Nat) (l : Option PLabel) :
    (g.setLabel i l).getVertices = g.getVertices :=
  modifyVertex_getVertices g i (fun v => { v with partition_label := l }) (fun _ => rfl)

theorem modifyAdj_getVertices (g : Graph) (i tgt : Nat) (wt : Int) :
    (g.modifyVertex i (fun x => { x with adj := setAdj x.adj tgt wt })).getVertices =
      g.getVertices :=
  modifyVertex_getVertices g i _ (fun _ => rfl)

theorem addVertex_mem_getVertices (g : Graph) (i : Nat) (l : Option PLabel) (j : Nat) :
    j ∈ (g.addVertex i l).getVertices ↔ j ∈ g.getVertices ∨ j = i := by
  unfold Graph.addVertex
  by_cases h : (g.getVertex i).isSome
  · rw [if_pos h, setLabel_getVertices]
    constructor
    · exact Or.inl
    · rintro (hj | rfl)
      · exact hj
      · exact (getVertex_isSome_iff g j).mp h
  · rw [if_neg h]
    simp only [Graph.getVertices, List.map_append, List.mem_append, List.map_cons,
      List.map_nil, List.mem_singleton]

theorem addEdge_mem_getVertices (g : Graph) (u v : Nat) (wt : Int) (j : Nat) :
    j ∈ (g.addEdge u v wt).getVertices ↔ j ∈ g.getVertices ∨ j = u ∨ j = v := by
  simp only [Graph.addEdge]
  by_cases h1 : (g.getVertex u).isSome
  · rw [if_pos h1]
    by_cases h2 : (g.getVertex v).isSome
    · rw [if_pos h2, modifyAdj_getVertices, modifyAdj_getVertices]
      constructor
      · exact Or.inl
      · rintro (hj | rfl | rfl)
        · exact hj
        · exact (getVertex_isSome_iff g j).mp h1
        · exact (getVertex_isSome_iff g j).mp h2
    · rw [if_neg h2, modifyAdj_getVertices, modifyAdj_getVertices]
      have hids : (⟨g.vertList ++ [{ id := v }]⟩ : Graph).getVertices =
          g.getVertices ++ [v] := by simp [Graph.getVertices]
      rw [hids]
      simp only [List.mem_append, List.mem_singleton]
      constructor
      · rintro (hj | rfl)
        · exact Or.inl hj
        · exact Or.inr (Or.inr rfl)
      · rintro (hj | rfl | rfl)
        · exact Or.inl hj
        · exact Or.inl ((getVertex_isSome_iff g j).mp h1)
        · exact Or.inr rfl
  · rw [if_neg h1]
    have hids1 : (⟨g.vertList ++ [{ id := u }]⟩ : Graph).getVertices =
        g.getVertices ++ [u] := by simp [Graph.getVertices]
    by_cases h2 : ((⟨g.vertList ++ [{ id := u }]⟩ : Graph).getVertex v).isSome
    · rw [if_pos h2, modifyAdj_getVertices, modifyAdj_getVertices, hids1]
      simp only [List.mem_append, List.mem_singleton]
      constructor
      · rintro (hj | rfl)
        · exact Or.inl hj
        · exact Or.inr (Or.inl rfl)
      · rintro (hj | rfl | rfl)
        · exact Or.inl hj
        · exact Or.inr rfl
        · have hv : j ∈ g.getVertices ++ [u] := by
            rw [← hids1]
            exact (getVertex_isSome_iff _ j).mp h2
          simpa using hv
    · rw [if_neg h2, modifyAdj_getVertices, modifyAdj_getVertices]
      have hids2 : (⟨(g.vertList ++ [{ id := u }]) ++ [{ id := v }]⟩ : Graph).getVertices =
          (g.getVertices ++ [u]) ++ [v] := by simp [Graph.getVertices]
      rw [hids2]
      simp only [List.mem_append, List.mem_singleton]
      constructor
      · rintro ((hj | rfl) | rfl)
        · exact Or.inl hj
        · exact Or.inr (Or.inl rfl)
        · exact Or.inr (Or.inr rfl)
      · rintro (hj | rfl | rfl)
        · exact Or.inl (Or.inl hj)
        · exact Or.inl (Or.inr rfl)
        · exact Or.inr rfl

/-! ## Coverage of the `splitByLabel` subgraphs -/

/-- The per-vertex step of `splitByLabel`. -/
def splitStep (group_a group_b : List Nat) (sgs : Graph × Graph) (v : Vertex) :
    Graph × Graph :=
  if v.partition_label = some .A then
    (v.adj.foldl
      (fun (s1 : Graph) (p : Nat × Int) =>
        if group_a.contains p.1 then s1.addEdge v.id p.1 (v.getWeight p.1) else s1)
      (sgs.1.addVertex v.id v.partition_label), sgs.2)
  else
    (sgs.1,
      v.adj.foldl
        (fun (s2 : Graph) (p : Nat × Int) =>
          if group_b.contains p.1 then s2.addEdge v.id p.1 (v.getWeight p.1) else s2)
        (sgs.2.addVertex v.id v.partition_label))

theorem splitByLabel_eq_fold (g : Graph) :
    splitByLabel g = g.vertList.foldl (splitStep (g.group .A) (g.group .B)) (⟨[]⟩, ⟨[]⟩) := by
  rfl

/-- Ids only grow along the inner edge folds. -/
theorem edgeFold_ids_mono (ga : List Nat) (i : Nat) (wf : Nat → Int) :
    ∀ (adj : List (Nat × Int)) (s : Graph) (j : Nat), j ∈ s.getVertices →
      j ∈ (adj.foldl
        (fun (s' : Graph) (p : Nat × Int) =>
          if ga.contains p.1 then s'.addEdge i p.1 (wf p.1) else s') s).getVertices := by
  intro adj
  induction adj with
  | nil => intro s j hj; exact hj
  | cons p ps ih =>
    intro s j hj
    simp only [List.foldl_cons]
    apply ih
    by_cases h : ga.contains p.1
    · rw [if_pos h]
      exact (addEdge_mem_getVertices _ _ _ _ j).mpr (Or.inl hj)
    · rw [if_neg h]
      exact hj

/-- Ids produced by the inner edge folds lie in the original ids, `{i}`, or
the guard list. -/
theorem edgeFold_ids_sub (ga : List Nat) (i : Nat) (wf : Nat → Int) :
    ∀ (adj : List (Nat × Int)) (s : Graph) (j : Nat),
      j ∈ (adj.foldl
        (fun (s' : Graph) (p : Nat × Int) =>
          if ga.contains p.1 then s'.addEdge i p.1 (wf p.1) else s') s).getVertices →
      j ∈ s.getVertices ∨ j = i ∨ j ∈ ga := by
  intro adj
  induction adj with
  | nil => intro s j hj; exact Or.inl hj
  | cons p ps ih =>
    intro s j hj
    simp only [List.foldl_cons] at hj
    rcases ih _ j hj with hj' | hj' | hj'
    · by_cases h : ga.contains p.1
      · rw [if_pos h] at hj'
        rcases (addEdge_mem_getVertices _ _ _ _ j).mp hj' with h2 | h2 | h2
        · exact Or.inl h2
        · exact Or.inr (Or.inl h2)
        · right; right
          rw [h2]
          simpa using h
      · rw [if_neg h] at hj'
        exact Or.inl hj'
    · exact Or.inr (Or.inl hj')
    · exact Or.inr (Or.inr hj')

theorem splitStep_ids_mono (ga gb : List Nat) (sgs : Graph × Graph) (v : Vertex) (j : Nat) :
    (j ∈ sgs.1.getVertices → j ∈ (splitStep ga gb sgs v).1.getVertices) ∧
    (j ∈ sgs.2.getVertices → j ∈ (splitStep ga gb sgs v).2.getVertices) := by
  unfold splitStep
  by_cases h : v.partition_label = some .A
  · rw [if_pos h]
    refine ⟨fun hj => ?_, fun hj => hj⟩
    apply edgeFold_ids_mono
    exact (addVertex_mem_getVertices _ _ _ j).mpr (Or.inl hj)
  · rw [if_neg h]
    refine ⟨fun hj => hj, fun hj => ?_⟩
    apply edgeFold_ids_mono
    exact (addVertex_mem_getVertices _ _ _ j).mpr (Or.inl hj)

theorem splitStep_self_mem (ga gb : List Nat) (sgs : Graph × Graph) (v : Vertex) :
    v.id ∈ (splitStep ga gb sgs v).1.getVertices ∨
    v.id ∈ (splitStep ga gb sgs v).2.getVertices := by
  unfold splitStep
  by_cases h : v.partition_label = some .A
  · rw [if_pos h]
    left
    apply edgeFold_ids_mono
    exact (addVertex_mem_getVertices _ _ _ _).mpr (Or.inr rfl)
  · rw [if_neg h]
    right
    apply edgeFold_ids_mono
    exact (addVertex_mem_getVertices _ _ _ _).mpr (Or.inr rfl)

theorem splitStep_ids_sub (ga gb : List Nat) (sgs : Graph × Graph) (v : Vertex) (j : Nat) :
    (j ∈ (splitStep ga gb sgs v).1.getVertices →
      j ∈ sgs.1.getVertices ∨ j = v.id ∨ j ∈ ga) ∧
    (j ∈ (splitStep ga gb sgs v).2.getVertices →
      j ∈ sgs.2.getVertices ∨ j = v.id ∨ j ∈ gb) := by
  unfold splitStep
  by_cases h : v.partition_label = some .A
  · rw [if_pos h]
    refine ⟨fun hj => ?_, fun hj => Or.inl hj⟩
    rcases edgeFold_ids_sub ga v.id v.getWeight v.adj _ j hj with hj' | hj' | hj'
    · rcases (addVertex_mem_getVertices _ _ _ j).mp hj' with h2 | h2
      · exact Or.inl h2
      · exact Or.inr (Or.inl h2)
    · exact Or.inr (Or.inl hj')
    · exact Or.inr (Or.inr hj')
  · rw [if_neg h]
    refine ⟨fun hj => Or.inl hj, fun hj => ?_⟩
    rcases edgeFold_ids_sub gb v.id v.getWeight v.adj _ j hj with hj' | hj' | hj'
    · rcases (addVertex_mem_getVertices _ _ _ j).mp hj' with h2 | h2
      · exact Or.inl h2
      · exact Or.inr (Or.inl h2)
    · exact Or.inr (Or.inl hj')
    · exact Or.inr (Or.inr hj')

/-- Every vertex of `g` appears in one of the two `splitByLabel` subgraphs,
and the subgraphs introduce no foreign ids. -/
theorem splitByLabel_cover (g : Graph) (j : Nat) :
    (j ∈ (splitByLabel g).1.getVertices ∨ j ∈ (splitByLabel g).2.getVertices) ↔
      j ∈ g.getVertices := by
  rw [splitByLabel_eq_fold]
  have hga : ∀ i, i ∈ g.group .A → i ∈ g.getVertices := by
    intro i hi
    obtain ⟨v, hv, rfl, _⟩ := (mem_group_iff g _ i).mp hi
    exact List.mem_map_of_mem _ hv
  have hgb : ∀ i, i ∈ g.group .B → i ∈ g.getVertices := by
    intro i hi
    obtain ⟨v, hv, rfl, _⟩ := (mem_group_iff g _ i).mp hi
    exact List.mem_map_of_mem _ hv
  constructor
  · -- no foreign ids
    have hsub : ∀ (l : List Vertex) (sgs : Graph × Graph),
        (∀ i ∈ l, i ∈ g.vertList) →
        (j ∈ (l.foldl (splitStep (g.group .A) (g.group .B)) sgs).1.getVertices →
          j ∈ sgs.1.getVertices ∨ j ∈ g.getVertices) ∧
        (j ∈ (l.foldl (splitStep (g.group .A) (g.group .B)) sgs).2.getVertices →
          j ∈ sgs.2.getVertices ∨ j ∈ g.getVertices) := by
      intro l
      induction l with
      | nil => intro sgs _; exact ⟨Or.inl, Or.inl⟩
      | cons v vs ih =>
        intro sgs hmem
        simp only [List.foldl_cons]
        have ihs := ih (splitStep (g.group .A) (g.group .B) sgs v)
          (fun i hi => hmem i (List.mem_cons_of_mem v hi))
        have hvid : v.id ∈ g.getVertices :=
          List.mem_map_of_mem _ (hmem v (List.mem_cons_self v vs))
        constructor
        · intro hj
          rcases ihs.1 hj with hj' | hj'
          · rcases (splitStep_ids_sub _ _ sgs v j).1 hj' with h2 | h2 | h2
            · exact Or.inl h2
            · exact Or.inr (h2 ▸ hvid)
            · exact Or.inr (hga j h2)
          · exact Or.inr hj'
        · intro hj
          rcases ihs.2 hj with hj' | hj'
          · rcases (splitStep_ids_sub _ _ sgs v j).2 hj' with h2 | h2 | h2
            · exact Or.inl h2
            · exact Or.inr (h2 ▸ hvid)
            · exact Or.inr (hgb j h2)
          · exact Or.inr hj'
    intro hj
    rcases hj with hj | hj
    · rcases (hsub g.vertList (⟨[]⟩, ⟨[]⟩) (fun i hi => hi)).1 hj with h | h
      · simp [Graph.getVertices] at h
      · exact h
    · rcases (hsub g.vertList (⟨[]⟩, ⟨[]⟩) (fun i hi => hi)).2 hj with h | h
      · simp [Graph.getVertices] at h
      · exact h
  · -- every vertex of g is covered
    intro hj
    simp only [Graph.getVertices, List.mem_map] at hj
    obtain ⟨v, hv, rfl⟩ := hj
    have hcover : ∀ (l : List Vertex) (sgs : Graph × Graph), v ∈ l →
        v.id ∈ (l.foldl (splitStep (g.group .A) (g.group .B)) sgs).1.getVertices ∨
        v.id ∈ (l.foldl (splitStep (g.group .A) (g.group .B)) sgs).2.getVertices := by
      intro l
      induction l with
      | nil => intro sgs h; cases h
      | cons x xs ih =>
        intro sgs hmem
        simp only [List.foldl_cons]
        rcases List.mem_cons.mp hmem with rfl | hmem'
        · -- v is processed now; its id survives the rest of the fold
          have hmono : ∀ (l' : List Vertex) (sgs' : Graph × Graph) (j : Nat),
              (j ∈ sgs'.1.getVertices →
                j ∈ (l'.foldl (splitStep (g.group .A) (g.group .B)) sgs').1.getVertices) ∧
              (j ∈ sgs'.2.getVertices →
                j ∈ (l'.foldl (splitStep (g.group .A) (g.group .B)) sgs').2.getVertices) := by
            intro l'
            induction l' with
            | nil => intro sgs' j; exact ⟨id, id⟩
            | cons y ys ihy =>
              intro sgs' j
              simp only [List.foldl_cons]
              constructor
              · intro hj
                exact (ihy _ j).1 ((splitStep_ids_mono _ _ sgs' y j).1 hj)
              · intro hj
                exact (ihy _ j).2 ((splitStep_ids_mono _ _ sgs' y j).2 hj)
          rcases splitStep_self_mem (g.group .A) (g.group .B) sgs v with h | h
          · exact Or.inl ((hmono xs _ v.id).1 h)
          · exact Or.inr ((hmono xs _ v.id).2 h)
        · exact ih _ hmem'
    exact hcover g.vertList (⟨[]⟩, ⟨[]⟩) hv

/-! ## The refinement loop of `partition_vertices` preserves the skeleton -/

theorem pvLoop_skeleton :
    ∀ (fuel : Nat) (g : Graph) (tg : Int) (g' : Graph) (tg' : Int),
      pvLoop fuel g tg = .ok (g', tg') → g'.skeleton = g.skeleton := by
  intro fuel
  induction fuel with
  | zero =>
    intro g tg g' tg' hok
    simp only [pvLoop] at hok
    cases hok
    rfl
  | succ fuel ih =>
    intro g tg g' tg' hok
    simp only [pvLoop] at hok
    split at hok
    · cases hok
      exact costPhase_skeleton g
    · split at hok
      · cases hok
        exact costPhase_skeleton g
      · split at hok
        · cases hok
        · have := ih _ _ _ _ hok
          rw [this, setLabel_skeleton, setLabel_skeleton, costPhase_skeleton]

theorem partition_vertices_spec (g : Graph) (gr sub1 sub2 : Graph)
    (hok : partition_vertices g = .ok (gr, sub1, sub2)) :
    gr.skeleton = g.skeleton ∧
    (∀ j, (j ∈ sub1.getVertices ∨ j ∈ sub2.getVertices) ↔ j ∈ gr.getVertices) := by
  unfold partition_vertices at hok
  cases hl : pvLoop (g.numVertices / 2) g 0 with
  | error e =>
    rw [hl] at hok
    cases hok
  | ok r =>
    rw [hl] at hok
    have hskel := pvLoop_skeleton _ _ _ _ _ hl
    have hgr : gr = r.1 := by
      have := congrArg (fun x => match x with | Except.ok y => y.1 | Except.error _ => g) hok
      simpa using this.symm
    have hs1 : sub1 = (splitByLabel r.1).1 := by
      have := congrArg (fun x => match x with
        | Except.ok y => y.2.1 | Except.error _ => g) hok
      simpa using this.symm
    have hs2 : sub2 = (splitByLabel r.1).2 := by
      have := congrArg (fun x => match x with
        | Except.ok y => y.2.2 | Except.error _ => g) hok
      simpa using this.symm
    subst hgr hs1 hs2
    exact ⟨hskel, fun j => splitByLabel_cover r.1 j⟩

/-! ## Keys of the partition mapping -/

def pkeys (p : Partition) : List Nat := p.map (·.1)

theorem dinsert_keys_mem (p : Partition) (i : Nat) (l : PLabel) (j : Nat) :
    j ∈ pkeys (dinsert p i l) ↔ j ∈ pkeys p ∨ j = i := by
  unfold dinsert
  by_cases h : p.any (fun q => q.1 == i)
  · rw [if_pos h]
    have hi : i ∈ pkeys p := by
      simp only [List.any_eq_true, beq_iff_eq] at h
      obtain ⟨q, hq, rfl⟩ := h
      exact List.mem_map_of_mem _ hq
    simp only [pkeys, List.map_map]
    constructor
    · intro hj
      simp only [List.mem_map, Function.comp] at hj
      obtain ⟨q, hq, hqe⟩ := hj
      by_cases hqi : q.1 = i
      · right
        rw [← hqe]
        simp [hqi]
      · left
        rw [← hqe]
        simp only [hqi, if_neg, if_false]
        exact List.mem_map_of_mem _ hq
    · intro hj
      rcases hj with hj | rfl
      · simp only [pkeys, List.mem_map] at hj
        obtain ⟨q, hq, rfl⟩ := hj
        simp only [List.mem_map, Function.comp]
        refine ⟨q, hq, ?_⟩
        by_cases hqi : q.1 = i <;> simp [hqi]
      · simp only [pkeys, List.mem_map] at hi
        obtain ⟨q, hq, rfl⟩ := hi
        simp only [List.mem_map, Function.comp]
        refine ⟨q, hq, ?_⟩
        simp
  · rw [if_neg h]
    simp [pkeys]

theorem dinsert_keys_nodup (p : Partition) (i : Nat) (l : PLabel)
    (hnd : (pkeys p).Nodup) : (pkeys (dinsert p i l)).Nodup := by
  unfold dinsert
  by_cases h : p.any (fun q => q.1 == i)
  · rw [if_pos h]
    have : pkeys (p.map (fun q => if q.1 = i then (i, l) else q)) = pkeys p := by
      simp only [pkeys, List.map_map]
      apply List.map_congr_left
      intro q _
      by_cases hqi : q.1 = i <;> simp [hqi, Function.comp]
    rw [this]
    exact hnd
  · rw [if_neg h]
    have hni : i ∉ pkeys p := by
      intro hi
      apply h
      simp only [pkeys, List.mem_map] at hi
      obtain ⟨q, hq, rfl⟩ := hi
      simp only [List.any_eq_true, beq_iff_eq]
      exact ⟨q, hq, rfl⟩
    simp only [pkeys, List.map_append, List.map_cons, List.map_nil]
    exact List.Nodup.append hnd (by simp) (by
      intro a ha hb
      simp only [List.mem_singleton] at hb
      exact hni (hb ▸ ha))

theorem dinsert_lookup_self (p : Partition) (i : Nat) (l : PLabel) :
    plookup (dinsert p i l) i = some l := by
  unfold dinsert plookup
  by_cases h : p.any (fun q => q.1 == i)
  · rw [if_pos h]
    simp only [List.any_eq_true, beq_iff_eq] at h
    induction p with
    | nil => simp at h
    | cons x xs ih =>
      rw [List.map_cons]
      by_cases hx : x.1 = i
      · rw [List.find?_cons_of_pos _ (by simp [hx])]
        simp [hx]
      · rw [List.find?_cons_of_neg _ (by simp [hx])]
        apply ih
        obtain ⟨q, hq, hqi⟩ := h
        rcases List.mem_cons.mp hq with rfl | hq'
        · exact absurd hqi hx
        · exact ⟨q, hq', hqi⟩
  · rw [if_neg h]
    rw [List.find?_append]
    have hnone : p.find? (fun q => q.1 == i) = none := by
      rw [List.find?_eq_none]
      intro q hq
      simp only [beq_iff_eq]
      intro hqi
      apply h
      simp only [List.any_eq_true, beq_iff_eq]
      exact ⟨q, hq, hqi⟩
    rw [hnone]
    simp

theorem dinsert_lookup_other (p : Partition) (i : Nat) (l : PLabel) (j : Nat)
    (hne : j ≠ i) : plookup (dinsert p i l) j = plookup p j := by
  unfold dinsert plookup
  by_cases h : p.any (fun q => q.1 == i)
  · rw [if_pos h]
    clear h
    induction p with
    | nil => rfl
    | cons x xs ih =>
      rw [List.map_cons]
      by_cases hx : x.1 = j
      · have hxi : ¬ x.1 = i := by rw [hx]; exact hne
        rw [List.find?_cons_of_pos _ (by rw [if_neg hxi]; simp [hx]),
          List.find?_cons_of_pos _ (by simp [hx]), if_neg hxi]
      · by_cases hxi : x.1 = i
        · rw [List.find?_cons_of_neg _ (by rw [if_pos hxi]; simp; exact fun he => hne he.symm),
            List.find?_cons_of_neg _ (by simp [hx])]
          exact ih
        · rw [List.find?_cons_of_neg _ (by rw [if_neg hxi]; simp [hx]),
            List.find?_cons_of_neg _ (by simp [hx])]
          exact ih
  · rw [if_neg h]
    rw [List.find?_append]
    cases hfind : p.find? (fun q => q.1 == j) with
    | some q => simp
    | none =>
      simp only [Option.none_or]
      have hsingle : (([(i, l)] : Partition).find? (fun q => q.1 == j)) = none := by
        rw [List.find?_eq_none]
        intro q hq
        simp only [List.mem_singleton] at hq
        subst hq
        simp only [beq_iff_eq]
        exact fun he => hne he.symm
      rw [hsingle]

theorem ebind_ok {α β : Type} (x : α) (f : α → Except Err β) :
    ((Except.ok x : Except Err α) >>= f) = f x := rfl

theorem ebind_error {α β : Type} (e : Err) (f : α → Except Err β) :
    ((Except.error e : Except Err α) >>= f) = Except.error e := rfl

theorem plookup_isSome_iff (p : Partition) (j : Nat) :
    (plookup p j).isSome ↔ j ∈ pkeys p := by
  unfold plookup pkeys
  rw [Option.isSome_map']
  rw [List.find?_isSome]
  constructor
  · rintro ⟨q, hq, hqj⟩
    simp only [beq_iff_eq] at hqj
    exact hqj ▸ List.mem_map_of_mem _ hq
  · intro hj
    simp only [List.mem_map] at hj
    obtain ⟨q, hq, rfl⟩ := hj
    exact ⟨q, hq, by simp⟩

theorem saveStep_keys_mem (c : SaveCond) (p : Partition) (x j : Nat) :
    j ∈ pkeys (saveStep c p x) ↔ j ∈ pkeys p ∨ j = x := by
  unfold saveStep
  simp only []
  split
  · exact dinsert_keys_mem p x .A j
  · exact dinsert_keys_mem p x .B j

theorem saveStep_keys_nodup (c : SaveCond) (p : Partition) (x : Nat)
    (hnd : (pkeys p).Nodup) : (pkeys (saveStep c p x)).Nodup := by
  unfold saveStep
  simp only []
  split
  · exact dinsert_keys_nodup p x .A hnd
  · exact dinsert_keys_nodup p x .B hnd

theorem save_partition_fold (c : SaveCond) :
    ∀ (ids : List Nat) (p : Partition),
      (∀ j, j ∈ pkeys (ids.foldl (saveStep c) p) ↔ j ∈ pkeys p ∨ j ∈ ids) ∧
      ((pkeys p).Nodup → (pkeys (ids.foldl (saveStep c) p)).Nodup) := by
  intro ids
  induction ids with
  | nil =>
    intro p
    refine ⟨fun j => ?_, fun h => h⟩
    simp
  | cons x xs ih =>
    intro p
    simp only [List.foldl_cons]
    refine ⟨fun j => ?_, fun hnd => (ih (saveStep c p x)).2 (saveStep_keys_nodup c p x hnd)⟩
    rw [(ih (saveStep c p x)).1 j, saveStep_keys_mem c p x j]
    simp only [List.mem_cons]
    tauto

theorem save_partition_keys (g : Graph) (p : Partition) (c : SaveCond) :
    (∀ j, j ∈ pkeys (save_partition g p c) ↔ j ∈ pkeys p ∨ j ∈ g.getVertices) ∧
    ((pkeys p).Nodup → (pkeys (save_partition g p c)).Nodup) := by
  unfold save_partition
  exact save_partition_fold c g.getVertices p

/-- Keys accumulated by `partition_graph`: exactly the prior keys plus the
graph's vertex ids, and no key is duplicated. -/
theorem partition_graph_keys (ms : Nat) (thr : ℚ) :
    ∀ (lvls : Nat) (g : Graph) (p p' : Partition),
      partition_graph ms thr lvls g p = .ok p' →
      (∀ j, j ∈ pkeys p' ↔ j ∈ pkeys p ∨ j ∈ g.getVertices) ∧
      ((pkeys p).Nodup → (pkeys p').Nodup) := by
  intro lvls
  induction lvls with
  | zero =>
    intro g p p' hok
    simp only [partition_graph] at hok
    cases hok
    exact save_partition_keys g p .parityEven
  | succ lvls ih =>
    intro g p p' hok
    simp only [partition_graph] at hok
    split at hok
    · cases hok
      exact save_partition_keys g p .parityEven
    · cases hpv : partition_vertices g with
      | error e => rw [hpv, ebind_error] at hok; cases hok
      | ok r =>
        rw [hpv, ebind_ok] at hok
        obtain ⟨gr, sub1, sub2⟩ := r
        obtain ⟨hskel, hcover⟩ := partition_vertices_spec g gr sub1 sub2 hpv
        have hids : gr.getVertices = g.getVertices := getVertices_of_skeleton_eq g gr hskel
        simp only [] at hok
        split at hok
        · cases hok
        · split at hok
          · cases hok
            refine ⟨fun j => ?_, (save_partition_keys gr p (.inSubgraph1 sub1)).2⟩
            rw [(save_partition_keys gr p (.inSubgraph1 sub1)).1 j, hids]
          · cases h1 : partition_graph ms thr lvls sub1 p with
            | error e => rw [h1, ebind_error] at hok; cases hok
            | ok p1 =>
              rw [h1, ebind_ok] at hok
              obtain ⟨hk1, hn1⟩ := ih sub1 p p1 h1
              obtain ⟨hk2, hn2⟩ := ih sub2 p1 p' hok
              refine ⟨fun j => ?_, fun hnd => hn2 (hn1 hnd)⟩
              rw [hk2 j, hk1 j, ← hids, ← hcover j]
              tauto

/-! ## `get_subgraphs` and the recursive-bisection output -/

theorem get_subgraphs_eq : ∀ (p : Partition) (acc : List Nat × List Nat),
    p.foldl
      (fun acc kv =>
        if kv.2 = PLabel.A then (acc.1 ++ [kv.1], acc.2) else (acc.1, acc.2 ++ [kv.1])) acc =
    (acc.1 ++ (p.filter (fun kv => kv.2 == PLabel.A)).map (·.1),
     acc.2 ++ (p.filter (fun kv => !(kv.2 == PLabel.A))).map (·.1)) := by
  intro p
  induction p with
  | nil => intro acc; simp
  | cons kv kvs ih =>
    intro acc
    simp only [List.foldl_cons]
    by_cases h : kv.2 = PLabel.A
    · rw [if_pos h, ih]
      simp [List.filter_cons, h]
    · rw [if_neg h, ih]
      have hb : (kv.2 == PLabel.A) = false := by simpa using h
      simp [List.filter_cons, hb]

theorem get_subgraphs_mem (p : Partition) (i : Nat) :
    (i ∈ (get_subgraphs p).1 ↔ (i, PLabel.A) ∈ p) ∧
    (i ∈ (get_subgraphs p).2 ↔ (i, PLabel.B) ∈ p) := by
  unfold get_subgraphs
  rw [get_subgraphs_eq p ([], [])]
  simp only [List.nil_append, List.mem_map, List.mem_filter]
  constructor
  · constructor
    · rintro ⟨kv, ⟨hkv, hA⟩, rfl⟩
      have : kv = (kv.1, PLabel.A) := by
        rcases kv with ⟨a, b⟩
        simp only [beq_iff_eq] at hA
        simp [hA]
      rw [← this]
      exact hkv
    · intro hmem
      exact ⟨(i, PLabel.A), ⟨hmem, by simp⟩, rfl⟩
  · constructor
    · rintro ⟨kv, ⟨hkv, hB⟩, rfl⟩
      have : kv = (kv.1, PLabel.B) := by
        rcases kv with ⟨a, b⟩
        cases b
        · simp at hB
        · rfl
      rw [← this]
      exact hkv
    · intro hmem
      refine ⟨(i, PLabel.B), ⟨hmem, by simp⟩, rfl⟩

theorem get_subgraphs_lengths (p : Partition) :
    (get_subgraphs p).1.length + (get_subgraphs p).2.length = p.length := by
  unfold get_subgraphs
  rw [get_subgraphs_eq p ([], [])]
  simp only [List.nil_append, List.length_map]
  exact (List.length_eq_length_filter_add _).symm

theorem mem_iff_plookup (p : Partition) (hnd : (pkeys p).Nodup) (i : Nat) (l : PLabel) :
    (i, l) ∈ p ↔ plookup p i = some l := by
  induction p with
  | nil => simp [plookup]
  | cons kv kvs ih =>
    simp only [pkeys, List.map_cons, List.nodup_cons] at hnd
    unfold plookup
    by_cases h : kv.1 = i
    · rw [List.find?_cons_of_pos _ (by simp [h])]
      simp only [Option.map_some', Option.some_inj, List.mem_cons]
      constructor
      · rintro (rfl | hmem)
        · rfl
        · exfalso
          apply hnd.1
          have : i ∈ kvs.map (·.1) := List.mem_map_of_mem _ hmem
          rw [h]
          simpa using this
      · intro hl
        left
        rcases kv with ⟨a, b⟩
        simp only at h hl
        rw [h, hl]
    · rw [List.find?_cons_of_neg _ (by simp [h])]
      rw [List.mem_cons]
      unfold plookup at ih
      rw [← ih hnd.2]
      constructor
      · rintro (he | hmem)
        · exact absurd (congrArg Prod.fst he).symm h
        · exact hmem
      · exact Or.inr

/-- Recursive-bisection part of the partition claim: the returned group
lists split the graph's vertex ids exactly. -/
theorem rb_partition_part (g : Graph) (hwf : g.WF) (ml ms : Nat) (thr : ℚ)
    (ga gb : List Nat) (hok : recursive_bisection g ml ms thr = .ok (ga, gb)) :
    (∀ i ∈ g.getVertices, (i ∈ ga ∧ i ∉ gb) ∨ (i ∈ gb ∧ i ∉ ga)) ∧
    (∀ i, i ∈ ga ∨ i ∈ gb → i ∈ g.getVertices) ∧
    ga.length + gb.length = g.numVertices := by
  unfold recursive_bisection at hok
  cases hpg : partition_graph ms thr ml g [] with
  | error e => rw [hpg, ebind_error] at hok; cases hok
  | ok p' =>
    rw [hpg, ebind_ok] at hok
    have hga : ga = (get_subgraphs p').1 := by
      have := congrArg (fun x => match x with | Except.ok y => y.1 | Except.error _ => ([] : List Nat)) hok
      simpa using this.symm
    have hgb : gb = (get_subgraphs p').2 := by
      have := congrArg (fun x => match x with | Except.ok y => y.2 | Except.error _ => ([] : List Nat)) hok
      simpa using this.symm
    obtain ⟨hkeys, hnd⟩ := partition_graph_keys ms thr ml g [] p' hpg
    have hnd' : (pkeys p').Nodup := hnd (by simp [pkeys])
    have hkeys' : ∀ j, j ∈ pkeys p' ↔ j ∈ g.getVertices := by
      intro j
      rw [hkeys j]
      simp [pkeys]
    subst hga hgb
    refine ⟨?_, ?_, ?_⟩
    · intro i hi
      have hk : i ∈ pkeys p' := (hkeys' i).mpr hi
      have hsome : (plookup p' i).isSome := (plookup_isSome_iff p' i).mpr hk
      cases hl : plookup p' i with
      | none => rw [hl] at hsome; cases hsome
      | some l =>
        have hmemA := (get_subgraphs_mem p' i).1
        have hmemB := (get_subgraphs_mem p' i).2
        rw [mem_iff_plookup p' hnd' i PLabel.A] at hmemA
        rw [mem_iff_plookup p' hnd' i PLabel.B] at hmemB
        cases l with
        | A =>
          left
          refine ⟨hmemA.mpr hl, fun hB => ?_⟩
          rw [hmemB, hl] at hB
          cases hB
        | B =>
          right
          refine ⟨hmemB.mpr hl, fun hA => ?_⟩
          rw [hmemA, hl] at hA
          cases hA
    · intro i hi
      apply (hkeys' i).mp
      rcases hi with hi | hi
      · have := (get_subgraphs_mem p' i).1.mp hi
        exact List.mem_map_of_mem _ this
      · have := (get_subgraphs_mem p' i).2.mp hi
        exact List.mem_map_of_mem _ this
    · rw [get_subgraphs_lengths p']
      have hlen : p'.length = (pkeys p').length := by simp [pkeys]
      rw [hlen]
      have h1 : (pkeys p').toFinset = (List.range g.numVertices).toFinset := by
        apply Finset.ext
        intro a
        simp only [List.mem_toFinset]
        rw [hkeys' a, wf_getVertices g hwf]
      have h2 : (pkeys p').toFinset.card = (pkeys p').length := List.toFinset_card_of_nodup hnd'
      have h3 : (List.range g.numVertices).toFinset.card = g.numVertices := by
        rw [List.toFinset_card_of_nodup (List.nodup_range _)]
        exact List.length_range _
      rw [← h2, h1, h3]

/-- Claim C2 (amended): on a fresh well-formed graph, the group lists
returned by `pa_kl` and `pa_fm` are disjoint and cover exactly the vertex
ids below `2*(numVertices/2)` — for odd vertex counts the initial bisection
leaves the extra vertex unlabeled, so it lands in NEITHER group and the
sizes sum to `numVertices - 1`, not `numVertices`; `recursive_bisection`
does place every vertex id in exactly one group with sizes summing to
`numVertices`. -/
theorem partition_exactly_one (g : Graph) (hwf : g.WF)
    (hunset : ∀ v ∈ g.vertList, v.partition_label = none) :
    (∀ gr c ga gb, pa_kl g = .ok (gr, c, ga, gb) →
      partitionOut g.numVertices (List.range g.numVertices) ga gb) ∧
    (∀ coins gr c ga gb, pa_fm g coins = .ok (gr, c, ga, gb) →
      partitionOut g.numVertices (List.range g.numVertices) ga gb) ∧
    (∀ ml ms thr ga gb, recursive_bisection g ml ms thr = .ok (ga, gb) →
      (∀ i ∈ g.getVertices, (i ∈ ga ∧ i ∉ gb) ∨ (i ∈ gb ∧ i ∉ ga)) ∧
      (∀ i, i ∈ ga ∨ i ∈ gb → i ∈ g.getVertices) ∧
      ga.length + gb.length = g.numVertices) :=
  ⟨fun gr c ga gb hok => pa_kl_partition_part g hwf hunset gr c ga gb hok,
   fun coins gr c ga gb hok => pa_fm_partition_part g hwf hunset coins gr c ga gb hok,
   fun ml ms thr ga gb hok => rb_partition_part g hwf ml ms thr ga gb hok⟩

/-- A fresh 4-vertex graph for the C2 witness. -/
def gC2w : Graph := buildGraph 4 [(0, 1, 2), (2, 3, 1)]

/-- Witness for C2: on `gC2w`, `pa_kl` returns groups [1, 2] and [0, 3],
which indeed split the ids 0..3 with sizes summing to 4. -/
theorem partition_exactly_one_witness :
    (pa_kl gC2w).toOption.map (fun r => (r.2.2.1, r.2.2.2)) = some ([1, 2], [0, 3]) ∧
    partitionOut gC2w.numVertices (List.range gC2w.numVertices) [1, 2] [0, 3] := by
  have h := (partition_exactly_one gC2w (by decide) (by decide)).1
  refine ⟨by decide, ?_⟩
  cases heval : pa_kl gC2w with
  | error e =>
    have hd : (pa_kl gC2w).toOption.map (fun r => (r.2.2.1, r.2.2.2)) =
        some ([1, 2], [0, 3]) := by decide
    rw [heval] at hd
    cases hd
  | ok r =>
    have hd : (pa_kl gC2w).toOption.map (fun r => (r.2.2.1, r.2.2.2)) =
        some ([1, 2], [0, 3]) := by decide
    rw [heval] at hd
    simp only [Except.toOption, Option.map_some', Option.some_inj] at hd
    have happ := h r.1 r.2.1 r.2.2.1 r.2.2.2 (by rw [heval])
    have h1 : r.2.2.1 = [1, 2] := congrArg Prod.fst hd
    have h2 : r.2.2.2 = [0, 3] := congrArg Prod.snd hd
    rw [← h1, ← h2]
    exact happ

theorem klDUpdate_some (g : Graph) (D : Nat → Int) (xs ys : List Nat) (a b : Nat)
    (h : xs ≠ []) : ∃ d, klDUpdate g D xs ys a b = some d := by
  unfold klDUpdate
  cases hl : xs.getLast? with
  | none =>
    rw [List.getLast?_eq_none_iff] at hl
    exact absurd hl h
  | some x => exact ⟨_, rfl⟩

/-- Claim C4 (amended): every iteration of `pa_fm`'s loop stops exactly when
the minimum cross-pair gain is non-positive (equivalently, when some cross
pair has gain ≤ 0), and otherwise moves a vertex of the pair `gains[0]` — a
pair of MAXIMUM gain, not minimum as the spec says — with the coin deciding
whether its A-side vertex moves to B or its B-side vertex moves to A. -/
theorem fm_step_stops_on_min_moves_max (g : Graph) (coins : Nat → Nat)
    (k fuel : Nat) (tg : Int)
    (hne : gainsOf g.costPhase (Dvals g.costPhase) (g.group .A) (g.group .B) ≠ []) :
    ∃ p m,
      p ∈ gainsOf g.costPhase (Dvals g.costPhase) (g.group .A) (g.group .B) ∧
      (∀ q ∈ gainsOf g.costPhase (Dvals g.costPhase) (g.group .A) (g.group .B), q.2 ≤ p.2) ∧
      (∃ q ∈ gainsOf g.costPhase (Dvals g.costPhase) (g.group .A) (g.group .B), q.2 = m) ∧
      (∀ q ∈ gainsOf g.costPhase (Dvals g.costPhase) (g.group .A) (g.group .B), m ≤ q.2) ∧
      fmLoop coins k (fuel + 1) g tg =
        (if m ≤ 0 then .ok (g.costPhase, tg)
         else fmLoop coins (k + 1) fuel
           (if coins k = 0 then g.costPhase.setLabel p.1.1 (some .B)
            else g.costPhase.setLabel p.1.2 (some .A)) (tg + m)) := by
  set gl := gainsOf g.costPhase (Dvals g.costPhase) (g.group .A) (g.group .B) with hgl
  have hperm := sortBy_perm gainGE gl
  have hlen : (sortBy gainGE gl).length = gl.length := hperm.length_eq
  cases hgs : sortBy gainGE gl with
  | nil =>
    rw [hgs] at hlen
    exact absurd (List.length_eq_zero.mp hlen.symm) hne
  | cons top rest =>
    have hlast : (sortBy gainGE gl).getLast? = some ((top :: rest).getLast (by simp)) := by
      rw [hgs]
      exact List.getLast?_eq_getLast _ _
    set last := (top :: rest).getLast (by simp) with hlastdef
    have hlastmem : last ∈ sortBy gainGE gl := by
      rw [hgs]
      exact List.getLast_mem _
    have htopmem : top ∈ gl := hperm.subset (by rw [hgs]; simp)
    have hlastmem' : last ∈ gl := hperm.subset hlastmem
    have htopmax : ∀ q ∈ gl, q.2 ≤ top.2 := by
      intro q hq
      have := sortBy_head_ge gainGE gainGE_total gainGE_trans gl top rest hgs q hq
      simpa [gainGE] using this
    have hlastmin : ∀ q ∈ gl, last.2 ≤ q.2 := by
      intro q hq
      have := sortBy_getLast_le gainGE gainGE_total gainGE_trans gl last hlast q hq
      simpa [gainGE] using this
    have hganil : g.group .A ≠ [] := by
      intro hganil
      apply hne
      rw [hgl, hganil]
      rfl
    refine ⟨top, last.2, htopmem, htopmax, ⟨last, hlastmem', rfl⟩, hlastmin, ?_⟩
    show fmLoop coins k (fuel + 1) g tg = _
    simp only [fmLoop]
    have hlast' : (top :: rest).getLast? = some last := by rw [← hgs]; exact hlast
    rw [← hgl, hgs, hlast']
    simp only []
    by_cases hstop : last.2 ≤ 0
    · rw [if_pos hstop, if_pos hstop]
    · rw [if_neg hstop, if_neg hstop]
      by_cases hcoin : coins k = 0
      · rw [if_pos hcoin]
        obtain ⟨d, hd⟩ := klDUpdate_some (g.costPhase.setLabel top.1.1 (some .B))
          (Dvals g.costPhase) (g.group .A) (g.group .B) top.1.1 top.1.2 hganil
        rw [hd]
      · rw [if_neg hcoin]
        obtain ⟨d, hd⟩ := klDUpdate_some (g.costPhase.setLabel top.1.2 (some .A))
          (Dvals g.costPhase) (g.group .A) (g.group .B) top.1.1 top.1.2 hganil
        rw [hd]

/-- The loop-entry graph for the C4 witness: `gFM` after the initial
bisection. -/
def gC4w : Graph :=
  match klInit gFM with
  | .ok g => g
  | .error _ => ⟨[]⟩

/-- Witness for C4 at `gC4w` (first loop iteration, coin stream 0). -/
theorem fm_step_stops_on_min_moves_max_witness :
    gainsOf gC4w.costPhase (Dvals gC4w.costPhase) (gC4w.group .A) (gC4w.group .B) ≠ [] ∧
    ∃ p m,
      p ∈ gainsOf gC4w.costPhase (Dvals gC4w.costPhase) (gC4w.group .A) (gC4w.group .B) ∧
      (∀ q ∈ gainsOf gC4w.costPhase (Dvals gC4w.costPhase) (gC4w.group .A) (gC4w.group .B),
        q.2 ≤ p.2) ∧
      (∃ q ∈ gainsOf gC4w.costPhase (Dvals gC4w.costPhase) (gC4w.group .A) (gC4w.group .B),
        q.2 = m) ∧
      (∀ q ∈ gainsOf gC4w.costPhase (Dvals gC4w.costPhase) (gC4w.group .A) (gC4w.group .B),
        m ≤ q.2) ∧
      fmLoop (fun _ => 0) 0 (1 + 1) gC4w 0 =
        (if m ≤ 0 then .ok (gC4w.costPhase, 0)
         else fmLoop (fun _ => 0) (0 + 1) 1
           (if (fun _ => 0) 0 = 0 then gC4w.costPhase.setLabel p.1.1 (some .B)
            else gC4w.costPhase.setLabel p.1.2 (some .A)) (0 + m)) :=
  ⟨by decide, fm_step_stops_on_min_moves_max gC4w (fun _ => 0) 0 1 0 (by decide)⟩

/-! ## Resetting scratch costs and rerunning `pa_kl` -/

/-- Modelled from the spec: resetting the per-vertex scratch cost fields to
their neutral values, which the spec's invariant demands at the start of
each invocation (and the code never does). -/
def resetCosts (g : Graph) : Graph :=
  ⟨g.vertList.map (fun v => { v with internal_cost := 0, external_cost := 0 })⟩

/-- The (positional) `level` view of a graph. -/
def Graph.levelsProj (g : Graph) : List (Option Int) := g.vertList.map (·.level)

theorem setLabel_levelsProj (g : Graph) (i : Nat) (l : Option PLabel) :
    (g.setLabel i l).levelsProj = g.levelsProj := by
  simp only [Graph.levelsProj, Graph.setLabel, Graph.modifyVertex, List.map_map]
  apply List.map_congr_left
  intro v _
  by_cases h : v.id = i <;> simp [h, Function.comp]

theorem costUpdVertex_level (g : Graph) (v : Vertex) :
    (costUpdVertex g v).level = v.level := by
  unfold costUpdVertex
  suffices h : ∀ (l : List (Nat × Int)) (v : Vertex),
      (l.foldl (fun w p =>
        if w.partition_label = g.labelOf p.1 then
          { w with internal_cost := w.internal_cost + w.getWeight p.1 }
        else
          { w with external_cost := w.external_cost - w.getWeight p.1 }) v).level =
        v.level by
    exact h v.adj v
  intro l
  induction l with
  | nil => intro v; rfl
  | cons p ps ih =>
    intro v
    by_cases h : v.partition_label = g.labelOf p.1 <;> simp [h, ih]

theorem costPhase_levelsProj (g : Graph) : g.costPhase.levelsProj = g.levelsProj := by
  simp only [Graph.levelsProj, Graph.costPhase, List.map_map]
  apply List.map_congr_left
  intro v _
  simp [Function.comp, costUpdVertex_level]

theorem klLoop_levelsProj :
    ∀ (fuel : Nat) (g : Graph) (tg : Int) (g' : Graph) (tg' : Int),
      klLoop fuel g tg = .ok (g', tg') → g'.levelsProj = g.levelsProj := by
  intro fuel
  induction fuel with
  | zero =>
    intro g tg g' tg' hok
    simp only [klLoop] at hok
    cases hok
    rfl
  | succ fuel ih =>
    intro g tg g' tg' hok
    simp only [klLoop] at hok
    split at hok
    · cases hok
    · split at hok
      · cases hok
        exact costPhase_levelsProj g
      · split at hok
        · cases hok
        · have := ih _ _ _ _ hok
          rw [this, setLabel_levelsProj, setLabel_levelsProj, costPhase_levelsProj]

theorem initLabel_of_lt (n : Nat) (o : Option PLabel) (i : Nat) (hi : i < n / 2 + n / 2) :
    initLabel n o i = if i < n / 2 then some PLabel.A else some PLabel.B := by
  unfold initLabel
  split_ifs <;> first | rfl | omega

/-- Two graphs with the same skeleton and levels, both with zeroed scratch
costs and ids inside the initialized band, produce the same
initial-bisection graph. -/
theorem init_graph_eq (g1 g2 : Graph) (n : Nat)
    (hskel : g1.skeleton = g2.skeleton) (hlev : g1.levelsProj = g2.levelsProj)
    (hz1 : ∀ v ∈ g1.vertList, v.internal_cost = 0 ∧ v.external_cost = 0)
    (hz2 : ∀ v ∈ g2.vertList, v.internal_cost = 0 ∧ v.external_cost = 0)
    (hall : ∀ v ∈ g1.vertList, v.id < n / 2 + n / 2) :
    (⟨g1.vertList.map (fun v =>
      { v with partition_label := initLabel n v.partition_label v.id })⟩ : Graph) =
    ⟨g2.vertList.map (fun v =>
      { v with partition_label := initLabel n v.partition_label v.id })⟩ := by
  congr 1
  apply List.ext_getElem?
  intro i
  simp only [List.getElem?_map]
  have hp1 : (g1.vertList[i]?).map (fun v => (v.id, v.adj)) =
      (g2.vertList[i]?).map (fun v => (v.id, v.adj)) := by
    have := congrArg (fun l => l[i]?) hskel
    simpa [Graph.skeleton, List.getElem?_map] using this
  have hp2 : (g1.vertList[i]?).map (fun v => v.level) =
      (g2.vertList[i]?).map (fun v => v.level) := by
    have := congrArg (fun l => l[i]?) hlev
    simpa [Graph.levelsProj, List.getElem?_map] using this
  cases h1 : g1.vertList[i]? with
  | none =>
    rw [h1] at hp1
    cases h2 : g2.vertList[i]? with
    | none => rfl
    | some v2 => rw [h2] at hp1; simp at hp1
  | some v1 =>
    rw [h1] at hp1 hp2
    cases h2 : g2.vertList[i]? with
    | none => rw [h2] at hp1; simp at hp1
    | some v2 =>
      rw [h2] at hp1 hp2
      simp only [Option.map_some', Option.some_inj] at hp1 hp2 ⊢
      have hid : v1.id = v2.id := congrArg Prod.fst hp1
      have hadj : v1.adj = v2.adj := congrArg Prod.snd hp1
      have hm1 : v1 ∈ g1.vertList := List.getElem?_mem h1
      have hm2 : v2 ∈ g2.vertList := List.getElem?_mem h2
      have hc1 := hz1 v1 hm1
      have hc2 := hz2 v2 hm2
      have hb : v1.id < n / 2 + n / 2 := hall v1 hm1
      rcases v1 with ⟨id1, adj1, lab1, int1, ext1, lev1⟩
      rcases v2 with ⟨id2, adj2, lab2, int2, ext2, lev2⟩
      simp only at hid hadj hp2 hc1 hc2 hb
      simp only [Vertex.mk.injEq]
      refine ⟨hid, hadj, ?_, ?_, ?_, hp2⟩
      · rw [initLabel_of_lt n lab1 id1 hb, initLabel_of_lt n lab2 id2 (hid ▸ hb), hid]
      · rw [hc1.1, hc2.1]
      · rw [hc1.2, hc2.2]

/-- Claim C5 (amended): `pa_kl` involves no randomness, but it never resets
the cost accumulators, and a second back-to-back run can differ
(`pa_kl_second_run_differs`).  If the scratch cost fields are reset to
their neutral value between the runs, the second run reproduces the first
run's result exactly (even vertex count, fresh costs at the first run). -/
theorem pa_kl_rerun_after_reset (g : Graph) (hwf : g.WF)
    (heven : g.numVertices % 2 = 0)
    (hzero : ∀ v ∈ g.vertList, v.internal_cost = 0 ∧ v.external_cost = 0)
    (r : Graph × Int × List Nat × List Nat) (hok : pa_kl g = .ok r) :
    pa_kl (resetCosts r.1) = .ok r := by
  unfold pa_kl at hok ⊢
  rw [klInit_spec g hwf, bind_ok_eq] at hok
  set gI : Graph := ⟨g.vertList.map (fun v =>
    { v with partition_label := initLabel g.numVertices v.partition_label v.id })⟩ with hgI
  have hok0 := hok
  cases hl : klLoop (gI.numVertices / 2) gI 0 with
  | error e => rw [hl, bind_error_pair] at hok; cases hok
  | ok rr =>
    rw [hl, bind_ok_pair] at hok
    have hr1 : r.1 = rr.1 := by
      have := congrArg (fun x => match x with | Except.ok y => y.1 | Except.error _ => g) hok
      simpa using this.symm
    have hskelI : gI.skeleton = g.skeleton := klInit_skeleton_map g
    have hdomI : labelDomOk g.numVertices gI := by
      intro v hv
      simp only [hgI, List.mem_map] at hv
      obtain ⟨v0, hv0, rfl⟩ := hv
      have hid : v0.id < g.numVertices := by
        have hmem : v0.id ∈ g.getVertices := List.mem_map_of_mem _ hv0
        rw [wf_getVertices g hwf, List.mem_range] at hmem
        exact hmem
      constructor
      · intro _
        simp only [initLabel]
        split_ifs <;> simp
      · intro hge
        exfalso
        have hge' : g.numVertices / 2 + g.numVertices / 2 ≤ v0.id := hge
        omega
    obtain ⟨_, hskelr⟩ := klLoop_invariant g.numVertices _ _ _ _ _ hl hdomI
    have hlevr := klLoop_levelsProj _ _ _ _ _ hl
    have hlevI : gI.levelsProj = g.levelsProj := by
      simp only [Graph.levelsProj, hgI, List.map_map]
      apply List.map_congr_left
      intro v _
      simp [Function.comp]
    -- well-formedness of the reset graph
    have hskelreset : (resetCosts r.1).skeleton = g.skeleton := by
      have h1 : (resetCosts r.1).skeleton = r.1.skeleton := by
        simp only [Graph.skeleton, resetCosts, List.map_map]
        apply List.map_congr_left
        intro v _
        simp [Function.comp]
      rw [h1, hr1, hskelr, hskelI]
    have hwf' : (resetCosts r.1).WF := by
      unfold Graph.WF
      rw [wfb_of_skeleton_eq g (resetCosts r.1) hskelreset]
      exact hwf
    rw [klInit_spec (resetCosts r.1) hwf', bind_ok_eq]
    have hn' : (resetCosts r.1).numVertices = g.numVertices :=
      numVertices_of_skeleton_eq g (resetCosts r.1) hskelreset
    have hlevreset : (resetCosts r.1).levelsProj = g.levelsProj := by
      have h1 : (resetCosts r.1).levelsProj = r.1.levelsProj := by
        simp only [Graph.levelsProj, resetCosts, List.map_map]
        apply List.map_congr_left
        intro v _
        simp [Function.comp]
      rw [h1, hr1, hlevr, hlevI]
    have hzreset : ∀ v ∈ (resetCosts r.1).vertList,
        v.internal_cost = 0 ∧ v.external_cost = 0 := by
      intro v hv
      simp only [resetCosts, List.mem_map] at hv
      obtain ⟨v0, _, rfl⟩ := hv
      exact ⟨rfl, rfl⟩
    have hallreset : ∀ v ∈ (resetCosts r.1).vertList,
        v.id < g.numVertices / 2 + g.numVertices / 2 := by
      intro v hv
      have hvid : v.id ∈ (resetCosts r.1).getVertices := List.mem_map_of_mem _ hv
      rw [getVertices_of_skeleton_eq g (resetCosts r.1) hskelreset,
        wf_getVertices g hwf, List.mem_range] at hvid
      omega
    have hEq : (⟨(resetCosts r.1).vertList.map (fun v =>
        { v with partition_label :=
          initLabel (resetCosts r.1).numVertices v.partition_label v.id })⟩ : Graph) = gI := by
      rw [hn']
      rw [hgI]
      exact init_graph_eq (resetCosts r.1) g g.numVertices
        (by rw [hskelreset]) (by rw [hlevreset]) hzreset hzero hallreset
    rw [hEq]
    exact hok0

/-- Fresh even graph for the C5 witness. -/
def gC5w : Graph := buildGraph 2 [(0, 1, 3)]

/-- The first-run result of `pa_kl` on `gC5w`. -/
def rC5w : Graph × Int × List Nat × List Nat :=
  (pa_kl gC5w).toOption.getD (⟨[]⟩, 0, [], [])

/-- Witness for C5: after resetting the cost fields, the second run of
`pa_kl` on `gC5w`'s result graph reproduces the first run exactly. -/
theorem pa_kl_rerun_after_reset_witness :
    (pa_kl gC5w).toOption = some rC5w ∧
    (pa_kl (resetCosts rC5w.1)).toOption = some rC5w := by
  have hok : pa_kl gC5w = .ok rC5w := by
    cases heval : pa_kl gC5w with
    | error e =>
      have hd : (pa_kl gC5w).toOption.isSome = true := by decide
      rw [heval] at hd
      cases hd
    | ok r =>
      have hr : rC5w = r := by
        unfold rC5w
        rw [heval]
        rfl
      rw [hr]
  refine ⟨by rw [hok]; rfl, ?_⟩
  rw [pa_kl_rerun_after_reset gC5w (by decide) (by decide) (by decide) rC5w hok]
  rfl

/-! ## Ordering of the SCC stage -/

theorem listGE_total : ∀ a b : List Nat, listGE a b = true ∨ listGE b a = true := by
  intro a
  induction a with
  | nil =>
    intro b
    cases b with
    | nil => left; rfl
    | cons y ys => right; rfl
  | cons x xs ih =>
    intro b
    cases b with
    | nil => left; rfl
    | cons y ys =>
      simp only [listGE]
      by_cases hxy : x = y
      · subst hxy
        simp only [if_pos rfl]
        exact ih ys
      · rw [if_neg hxy, if_neg (fun h => hxy h.symm)]
        rcases Nat.lt_or_ge x y with h | h
        · right; simpa using h
        · left
          simp only [decide_eq_true_eq]
          omega

theorem listGE_trans : ∀ a b c : List Nat,
    listGE a b = true → listGE b c = true → listGE a c = true := by
  intro a
  induction a with
  | nil =>
    intro b c hab hbc
    cases b with
    | nil => exact hbc
    | cons y ys => simp [listGE] at hab
  | cons x xs ih =>
    intro b c hab hbc
    cases b with
    | nil =>
      cases c with
      | nil => rfl
      | cons z zs => simp [listGE] at hbc
    | cons y ys =>
      cases c with
      | nil => rfl
      | cons z zs =>
        simp only [listGE] at hab hbc ⊢
        by_cases hxy : x = y
        · subst hxy
          rw [if_pos rfl] at hab
          by_cases hyz : x = z
          · subst hyz
            rw [if_pos rfl] at hbc ⊢
            exact ih ys zs hab hbc
          · rw [if_neg hyz] at hbc ⊢
            exact hbc
        · rw [if_neg hxy] at hab
          simp only [decide_eq_true_eq] at hab
          by_cases hyz : y = z
          · subst hyz
            rw [if_neg hxy]
            simpa using hab
          · rw [if_neg hyz] at hbc
            simp only [decide_eq_true_eq] at hbc
            have hxz : ¬ x = z := by omega
            rw [if_neg hxz]
            simp only [decide_eq_true_eq]
            omega

theorem sccGE_total : ∀ a b : ℚ × List Nat, sccGE a b = true ∨ sccGE b a = true := by
  intro a b
  unfold sccGE
  rcases lt_trichotomy a.1 b.1 with h | h | h
  · right
    simp [h]
  · rcases listGE_total a.2 b.2 with hl | hl
    · left
      simp [h, hl]
    · right
      simp [h.symm, hl]
  · left
    simp [h]

theorem sccGE_trans : ∀ a b c : ℚ × List Nat,
    sccGE a b = true → sccGE b c = true → sccGE a c = true := by
  intro a b c hab hbc
  unfold sccGE at hab hbc ⊢
  simp only [Bool.or_eq_true, Bool.and_eq_true, decide_eq_true_eq] at hab hbc ⊢
  rcases hab with hab | ⟨hab1, hab2⟩
  · rcases hbc with hbc | ⟨hbc1, hbc2⟩
    · exact Or.inl (lt_trans hbc hab)
    · exact Or.inl (hbc1 ▸ hab)
  · rcases hbc with hbc | ⟨hbc1, hbc2⟩
    · exact Or.inl (hab1 ▸ hbc)
    · exact Or.inr ⟨hab1.trans hbc1, listGE_trans _ _ _ hab2 hbc2⟩

theorem zip_map_fst {α β : Type _} (f : α → β) :
    ∀ l : List α, ∀ x ∈ (l.map f).zip l, x.1 = f x.2 := by
  intro l
  induction l with
  | nil => intro x hx; cases hx
  | cons a as ih =>
    intro x hx
    simp only [List.map_cons, List.zip_cons_cons, List.mem_cons] at hx
    rcases hx with rfl | hx
    · rfl
    · exact ih x hx

/-- The components of `pa_scc_stage` come out in descending order of the
weight `|component size - numVertices/2|`. -/
theorem pa_scc_stage_sorted (g : Graph) :
    (pa_scc_stage g).Pairwise (fun e1 e2 =>
      |(e2.1.length : ℚ) - (g.numVertices : ℚ) / 2| ≤
      |(e1.1.length : ℚ) - (g.numVertices : ℚ) / 2|) := by
  unfold pa_scc_stage
  rw [List.pairwise_map, List.pairwise_map]
  set scc_lst := g.find_strongly_connected_components with hscc
  set pairs := (scc_lst.map (fun c => |(c.length : ℚ) - (g.numVertices : ℚ) / 2|)).zip scc_lst
    with hpairs
  have hfst : ∀ x ∈ pairs, x.1 = |(x.2.length : ℚ) - (g.numVertices : ℚ) / 2| := by
    intro x hx
    exact zip_map_fst _ scc_lst x hx
  have hfst' : ∀ x ∈ sortBy sccGE pairs, x.1 = |(x.2.length : ℚ) - (g.numVertices : ℚ) / 2| :=
    fun x hx => hfst x ((sortBy_perm sccGE pairs).subset hx)
  have hpw := sortBy_pairwise sccGE sccGE_total sccGE_trans pairs
  have := List.Pairwise.and_mem.mp hpw
  apply List.Pairwise.imp_of_mem ?_ this
  intro a b ha hb hab
  obtain ⟨hamem, hbmem, hge⟩ := hab
  have h1 := hfst' a hamem
  have h2 := hfst' b hbmem
  unfold sccGE at hge
  simp only [Bool.or_eq_true, Bool.and_eq_true, decide_eq_true_eq] at hge
  rcases hge with hlt | ⟨heq, _⟩
  · rw [← h1, ← h2]
    exact le_of_lt hlt
  · rw [← h1, ← h2, heq]

/-! ## Weight bookkeeping for `addVertex` / `addEdge` -/

theorem find?_setAdj_self (adj : List (Nat × Int)) (j : Nat) (wt : Int) :
    (setAdj adj j wt).find? (fun p => p.1 == j) = some (j, wt) := by
  unfold setAdj
  by_cases h : adj.any (fun p => p.1 == j)
  · rw [if_pos h]
    simp only [List.any_eq_true, beq_iff_eq] at h
    induction adj with
    | nil => simp at h
    | cons q qs ih =>
      rw [List.map_cons]
      by_cases hq : q.1 = j
      · rw [List.find?_cons_of_pos _ (by simp [hq])]
        simp [hq]
      · rw [if_neg hq, List.find?_cons_of_neg _ (by simp [hq])]
        apply ih
        obtain ⟨p, hp, hpj⟩ := h
        rcases List.mem_cons.mp hp with rfl | hp'
        · exact absurd hpj hq
        · exact ⟨p, hp', hpj⟩
  · rw [if_neg h]
    rw [List.find?_append]
    have hnone : adj.find? (fun p => p.1 == j) = none := by
      rw [List.find?_eq_none]
      intro p hp hpj
      exact h (List.any_eq_true.mpr ⟨p, hp, hpj⟩)
    rw [hnone]
    simp

theorem find?_setAdj_other (adj : List (Nat × Int)) (j : Nat) (wt : Int) (k : Nat)
    (hk : k ≠ j) :
    (setAdj adj j wt).find? (fun p => p.1 == k) = adj.find? (fun p => p.1 == k) := by
  unfold setAdj
  by_cases h : adj.any (fun p => p.1 == j)
  · rw [if_pos h]
    clear h
    induction adj with
    | nil => rfl
    | cons q qs ih =>
      rw [List.map_cons]
      by_cases hq : q.1 = k
      · have hqj : ¬ q.1 = j := by rw [hq]; exact hk
        rw [if_neg hqj, List.find?_cons_of_pos _ (by simp [hq]),
          List.find?_cons_of_pos _ (by simp [hq])]
      · by_cases hqj : q.1 = j
        · rw [if_pos hqj, List.find?_cons_of_neg _ (by simp; exact fun he => hk he.symm),
            List.find?_cons_of_neg _ (by simp [hq])]
          exact ih
        · rw [if_neg hqj, List.find?_cons_of_neg _ (by simp [hq]),
            List.find?_cons_of_neg _ (by simp [hq])]
          exact ih
  · rw [if_neg h]
    rw [List.find?_append]
    cases hfind : adj.find? (fun p => p.1 == k) with
    | some q => simp
    | none =>
      simp only [Option.none_or]
      rw [List.find?_eq_none]
      intro p hp
      simp only [List.mem_singleton] at hp
      subst hp
      simp only [beq_iff_eq]
      exact fun he => hk he.symm

theorem getWeight_setAdj (v : Vertex) (j : Nat) (wt : Int) (k : Nat) :
    Vertex.getWeight { v with adj := setAdj v.adj j wt } k =
      if k = j then wt else v.getWeight k := by
  unfold Vertex.getWeight
  by_cases hk : k = j
  · subst hk
    rw [if_pos rfl]
    simp only []
    rw [find?_setAdj_self]
  · rw [if_neg hk]
    simp only []
    rw [find?_setAdj_other v.adj j wt k hk]

theorem getVertex_id (g : Graph) (a : Nat) (v : Vertex) (h : g.getVertex a = some v) :
    v.id = a := by
  have := List.find?_some h
  simpa using this

theorem modifyVertex_getVertex (g : Graph) (i : Nat) (f : Vertex → Vertex)
    (hid : ∀ v, (f v).id = v.id) (a : Nat) :
    (g.modifyVertex i f).getVertex a =
      (g.getVertex a).map (fun v => if v.id = i then f v else v) := by
  have hp : ((fun v : Vertex => v.id == a) ∘ fun v => if v.id = i then f v else v) =
      (fun v : Vertex => v.id == a) := by
    funext v
    by_cases h : v.id = i <;> simp [Function.comp, h, hid]
  simp only [Graph.getVertex, Graph.modifyVertex, List.find?_map, hp]

theorem modifyVertex_w (g : Graph) (i : Nat) (f : Vertex → Vertex)
    (hid : ∀ v, (f v).id = v.id) (a b : Nat) :
    (g.modifyVertex i f).w a b =
      match g.getVertex a with
      | none => 0
      | some v => if v.id = i then (f v).getWeight b else v.getWeight b := by
  simp only [Graph.w, modifyVertex_getVertex g i f hid a]
  cases h : g.getVertex a with
  | none => rfl
  | some v =>
    simp only [Option.map_some']
    by_cases hv : v.id = i <;> simp [hv]

/-- Appending a fresh vertex does not change any weight. -/
theorem append_fresh_w (g : Graph) (u : Nat) (l : Option PLabel) :
    ∀ a b, (⟨g.vertList ++ [{ id := u, partition_label := l }]⟩ : Graph).w a b = g.w a b := by
  intro a b
  simp only [Graph.w, Graph.getVertex, List.find?_append]
  cases hf : g.vertList.find? (fun v => v.id == a) with
  | some v => simp
  | none =>
    simp only [Option.none_or]
    cases hf2 : ([({ id := u, partition_label := l } : Vertex)].find? (fun v => v.id == a)) with
    | none => rfl
    | some v =>
      have hv : v ∈ [({ id := u, partition_label := l } : Vertex)] :=
        List.mem_of_find?_eq_some hf2
      simp only [List.mem_singleton] at hv
      subst hv
      simp [Vertex.getWeight]

theorem addVertex_w (g : Graph) (i : Nat) (l : Option PLabel) :
    ∀ a b, (g.addVertex i l).w a b = g.w a b := by
  intro a b
  unfold Graph.addVertex
  by_cases h : (g.getVertex i).isSome
  · rw [if_pos h]
    exact congrFun (congrFun (w_of_skeleton_eq g _ (setLabel_skeleton g i l)) a) b
  · rw [if_neg h]
    exact append_fresh_w g i l a b

/-- The full weight description of `addEdge` for distinct endpoints. -/
theorem addEdge_w (g : Graph) (u v : Nat) (wt : Int) (huv : u ≠ v) :
    ∀ a b, (g.addEdge u v wt).w a b =
      if a = u ∧ b = v then wt
      else if a = v ∧ b = u then wt
      else g.w a b := by
  intro a b
  unfold Graph.addEdge
  simp only []
  set g1 : Graph := if (g.getVertex u).isSome = true then g
    else ⟨g.vertList ++ [{ id := u }]⟩ with hg1
  set g2 : Graph := if (g1.getVertex v).isSome = true then g1
    else ⟨g1.vertList ++ [{ id := v }]⟩ with hg2
  have hg1w : ∀ a b, g1.w a b = g.w a b := by
    intro a b
    rw [hg1]
    by_cases h : (g.getVertex u).isSome
    · rw [if_pos h]
    · rw [if_neg h]
      exact append_fresh_w g u none a b
  have hg2w : ∀ a b, g2.w a b = g.w a b := by
    intro a b
    rw [hg2]
    by_cases h : (g1.getVertex v).isSome
    · rw [if_pos h]
      exact hg1w a b
    · rw [if_neg h]
      rw [append_fresh_w g1 v none a b]
      exact hg1w a b
  have husome : (g2.getVertex u).isSome := by
    rw [hg2]
    by_cases h2 : (g1.getVertex v).isSome
    · rw [if_pos h2]
      rw [hg1]
      by_cases h1 : (g.getVertex u).isSome
      · rw [if_pos h1]; exact h1
      · rw [if_neg h1]
        apply List.find?_isSome.mpr
        exact ⟨{ id := u }, by simp, by simp⟩
    · rw [if_neg h2]
      have : (g1.getVertex u).isSome := by
        rw [hg1]
        by_cases h1 : (g.getVertex u).isSome
        · rw [if_pos h1]; exact h1
        · rw [if_neg h1]
          apply List.find?_isSome.mpr
          exact ⟨{ id := u }, by simp, by simp⟩
      obtain ⟨vu, hvu⟩ := Option.isSome_iff_exists.mp this
      apply List.find?_isSome.mpr
      have hmem : vu ∈ g1.vertList := List.mem_of_find?_eq_some hvu
      exact ⟨vu, by simp only [List.mem_append]; exact Or.inl hmem,
        by simpa using List.find?_some hvu⟩
  -- second modification first (outermost)
  rw [modifyVertex_w _ v (fun x => { x with adj := setAdj x.adj u wt }) (fun _ => rfl) a b]
  cases hga : (g2.modifyVertex u fun x => { x with adj := setAdj x.adj v wt }).getVertex a with
  | none =>
    -- vertex a absent everywhere
    have hnone : g2.getVertex a = none := by
      have := modifyVertex_getVertex g2 u (fun x => { x with adj := setAdj x.adj v wt })
        (fun _ => rfl) a
      rw [hga] at this
      cases h2 : g2.getVertex a with
      | none => rfl
      | some w => rw [h2] at this; simp at this
    have hwa : g.w a b = 0 := by
      rw [← hg2w a b]
      simp only [Graph.w, hnone]
    rw [hwa]
    have hau : ¬ (a = u) := by
      intro rfl'
      subst rfl'
      rw [hnone] at husome
      cases husome
    split_ifs with h1 h2
    · exact absurd h1.1 hau
    · -- a = v, b = u: vertex a = v must exist after the u-modification?  v need not exist
      -- in g, but g2 ensures it does
      exfalso
      have hvsome : (g2.getVertex v).isSome := by
        rw [hg2]
        by_cases h2' : (g1.getVertex v).isSome
        · rw [if_pos h2']; exact h2'
        · rw [if_neg h2']
          apply List.find?_isSome.mpr
          exact ⟨{ id := v }, by simp, by simp⟩
      rw [h2.1] at hnone
      rw [hnone] at hvsome
      cases hvsome
    · rfl
  | some va =>
    have hva := modifyVertex_getVertex g2 u (fun x => { x with adj := setAdj x.adj v wt })
      (fun _ => rfl) a
    rw [hga] at hva
    cases h2 : g2.getVertex a with
    | none => rw [h2] at hva; simp at hva
    | some wa =>
      rw [h2] at hva
      simp only [Option.map_some', Option.some_inj] at hva
      have hwaid : wa.id = a := getVertex_id g2 a wa h2
      have hvaid : va.id = a := by
        rw [hva]
        by_cases h : wa.id = u
        · rw [if_pos h]
          exact hwaid
        · rw [if_neg h]
          exact hwaid
      have hwg : wa.getWeight b = g.w a b := by
        rw [← hg2w a b]
        simp only [Graph.w, h2]
      show (if va.id = v then
          Vertex.getWeight { va with adj := setAdj va.adj u wt } b
        else va.getWeight b) = _
      by_cases hav : a = v
      · -- a = v ≠ u: only the outer (v-side) modification touches it
        have hc : va.id = v := by rw [hvaid]; exact hav
        rw [if_pos hc]
        rw [getWeight_setAdj va u wt b]
        have hwanu : ¬ wa.id = u := by
          rw [hwaid, hav]
          exact fun he => huv he.symm
        have hva' : va = wa := by rw [hva, if_neg hwanu]
        have hnc1 : ¬ (a = u ∧ b = v) := fun hc' => huv (hc'.1 ▸ hav)
        by_cases hbu : b = u
        · have hc2 : a = v ∧ b = u := ⟨hav, hbu⟩
          rw [if_pos hbu, if_neg hnc1, if_pos hc2]
        · have hnc2 : ¬ (a = v ∧ b = u) := fun hc' => hbu hc'.2
          rw [if_neg hbu, if_neg hnc1, if_neg hnc2, hva', hwg]
      · have hne : ¬ va.id = v := by rw [hvaid]; exact hav
        rw [if_neg hne]
        have hnc2 : ¬ (a = v ∧ b = u) := fun hc' => hav hc'.1
        by_cases hau : a = u
        · -- a = u ≠ v: the inner (u-side) modification touches it
          have hwau : wa.id = u := by rw [hwaid]; exact hau
          rw [hva, if_pos hwau]
          rw [getWeight_setAdj wa v wt b]
          by_cases hbv : b = v
          · have hc1 : a = u ∧ b = v := ⟨hau, hbv⟩
            rw [if_pos hbv, if_pos hc1]
          · have hnc1 : ¬ (a = u ∧ b = v) := fun hc' => hbv hc'.2
            rw [if_neg hbv, if_neg hnc1, if_neg hnc2, hwg]
        · have hwanu : ¬ wa.id = u := by rw [hwaid]; exact hau
          rw [hva, if_neg hwanu]
          have hnc1 : ¬ (a = u ∧ b = v) := fun hc' => hau hc'.1
          rw [if_neg hnc1, if_neg hnc2, hwg]

/-! ## Weight characterization of `sccSubgraph` -/

/-- The inner fold of `sccSubgraph` (the neighbor loop of one component
vertex `t`): it installs the boundary weights `g.w t n` for the outside
keys `n` of the processed adjacency list and leaves everything else. -/
theorem sccInner_w (g : Graph) (c : List Nat) (t : Nat) (ht : t ∈ c) :
    ∀ (l : List (Nat × Int)) (sg : Graph) (a b : Nat),
    (l.foldl (fun (sg : Graph) (p : Nat × Int) =>
        if c.contains p.1 then sg
        else (sg.addVertex p.1).addEdge t p.1 (g.w t p.1)) sg).w a b =
      if a = t ∧ b ∉ c ∧ b ∈ l.map Prod.fst then g.w t b
      else if b = t ∧ a ∉ c ∧ a ∈ l.map Prod.fst then g.w t a
      else sg.w a b := by
  intro l
  induction l with
  | nil =>
    intro sg a b
    simp
  | cons p l ih =>
    intro sg a b
    rw [List.foldl_cons]
    by_cases hp : p.1 ∈ c
    · have hpc : c.contains p.1 = true := List.elem_iff.mpr hp
      rw [if_pos hpc, ih]
      have h1 : (a = t ∧ b ∉ c ∧ b ∈ l.map Prod.fst) ↔
          (a = t ∧ b ∉ c ∧ b ∈ (p :: l).map Prod.fst) := by
        constructor
        · rintro ⟨ha, hbc, hbm⟩
          exact ⟨ha, hbc, by rw [List.map_cons]; exact List.mem_cons_of_mem _ hbm⟩
        · rintro ⟨ha, hbc, hbm⟩
          rw [List.map_cons, List.mem_cons] at hbm
          rcases hbm with hb | hb
          · exact absurd (by rw [hb]; exact hp) hbc
          · exact ⟨ha, hbc, hb⟩
      have h2 : (b = t ∧ a ∉ c ∧ a ∈ l.map Prod.fst) ↔
          (b = t ∧ a ∉ c ∧ a ∈ (p :: l).map Prod.fst) := by
        constructor
        · rintro ⟨hb, hac, ham⟩
          exact ⟨hb, hac, by rw [List.map_cons]; exact List.mem_cons_of_mem _ ham⟩
        · rintro ⟨hb, hac, ham⟩
          rw [List.map_cons, List.mem_cons] at ham
          rcases ham with ha | ha
          · exact absurd (by rw [ha]; exact hp) hac
          · exact ⟨hb, hac, ha⟩
      rw [if_congr h1 rfl rfl, if_congr h2 rfl rfl]
    · have hpc : ¬ c.contains p.1 = true := fun h => hp (List.elem_iff.mp h)
      rw [if_neg hpc, ih]
      have hne : t ≠ p.1 := fun he => hp (he ▸ ht)
      have hsg : ((sg.addVertex p.1).addEdge t p.1 (g.w t p.1)).w a b =
          if a = t ∧ b = p.1 then g.w t p.1
          else if a = p.1 ∧ b = t then g.w t p.1
          else sg.w a b := by
        rw [addEdge_w _ t p.1 _ hne a b, addVertex_w sg p.1 none a b]
      by_cases hK1 : a = t ∧ b ∉ c ∧ b ∈ l.map Prod.fst
      · rw [if_pos hK1, if_pos (⟨hK1.1, hK1.2.1,
          by rw [List.map_cons]; exact List.mem_cons_of_mem _ hK1.2.2⟩ :
            a = t ∧ b ∉ c ∧ b ∈ (p :: l).map Prod.fst)]
      · rw [if_neg hK1]
        by_cases hK2 : b = t ∧ a ∉ c ∧ a ∈ l.map Prod.fst
        · rw [if_pos hK2]
          have hA : ¬ (a = t ∧ b ∉ c ∧ b ∈ (p :: l).map Prod.fst) := by
            rintro ⟨ha, _, _⟩
            exact hK2.2.1 (ha ▸ ht)
          rw [if_neg hA, if_pos (⟨hK2.1, hK2.2.1,
            by rw [List.map_cons]; exact List.mem_cons_of_mem _ hK2.2.2⟩ :
              b = t ∧ a ∉ c ∧ a ∈ (p :: l).map Prod.fst)]
        · rw [if_neg hK2, hsg]
          by_cases h1 : a = t ∧ b = p.1
          · rw [if_pos h1]
            have hA : a = t ∧ b ∉ c ∧ b ∈ (p :: l).map Prod.fst :=
              ⟨h1.1, by rw [h1.2]; exact hp,
                by rw [List.map_cons, h1.2]; exact List.mem_cons_self _ _⟩
            rw [if_pos hA, h1.2]
          · rw [if_neg h1]
            by_cases h2 : a = p.1 ∧ b = t
            · rw [if_pos h2]
              have hA : ¬ (a = t ∧ b ∉ c ∧ b ∈ (p :: l).map Prod.fst) := by
                rintro ⟨_, hbc, _⟩
                exact hbc (h2.2 ▸ ht)
              have hB : b = t ∧ a ∉ c ∧ a ∈ (p :: l).map Prod.fst :=
                ⟨h2.2, by rw [h2.1]; exact hp,
                  by rw [List.map_cons, h2.1]; exact List.mem_cons_self _ _⟩
              rw [if_neg hA, if_pos hB, h2.1]
            · rw [if_neg h2]
              have hA : ¬ (a = t ∧ b ∉ c ∧ b ∈ (p :: l).map Prod.fst) := by
                rintro ⟨ha, hbc, hbm⟩
                rw [List.map_cons, List.mem_cons] at hbm
                rcases hbm with hb | hb
                · exact h1 ⟨ha, hb⟩
                · exact hK1 ⟨ha, hbc, hb⟩
              have hB : ¬ (b = t ∧ a ∉ c ∧ a ∈ (p :: l).map Prod.fst) := by
                rintro ⟨hb, hac, ham⟩
                rw [List.map_cons, List.mem_cons] at ham
                rcases ham with ha | ha
                · exact h2 ⟨ha, hb⟩
                · exact hK2 ⟨hb, hac, ha⟩
              rw [if_neg hA, if_neg hB]

/-- If `x` is not a key of `t`'s adjacency list then `g.w t x = 0`. -/
theorem w_eq_zero_of_not_key (g : Graph) (t x : Nat)
    (hx : x ∉ (match g.getVertex t with
      | some v => v.adj
      | none => ([] : List (Nat × Int))).map Prod.fst) :
    g.w t x = 0 := by
  simp only [Graph.w]
  cases hv : g.getVertex t with
  | none => rfl
  | some v =>
    rw [hv] at hx
    simp only [Vertex.getWeight]
    have hfind : v.adj.find? (fun p => p.1 == x) = none := by
      rw [List.find?_eq_none]
      intro p hp
      simp only [beq_iff_eq]
      intro he
      exact hx (List.mem_map.mpr ⟨p, hp, he⟩)
    rw [hfind]

/-- The outer fold of `sccSubgraph`: after processing `todo` (all inside the
component `c`), the weights are the boundary weights of the processed
vertices and nothing else. -/
theorem sccOuter_w (g : Graph) (c : List Nat) :
    ∀ (todo : List Nat), (∀ t ∈ todo, t ∈ c) →
    ∀ (sg : Graph) (done : List Nat), (∀ t ∈ done, t ∈ c) →
    (∀ a b, sg.w a b =
      if a ∈ done ∧ b ∉ c then g.w a b
      else if b ∈ done ∧ a ∉ c then g.w b a else 0) →
    ∀ a b,
    (todo.foldl
      (fun sg vertex =>
        (match g.getVertex vertex with
          | some v => v.adj
          | none => []).foldl
          (fun (sg : Graph) (p : Nat × Int) =>
            if c.contains p.1 then sg
            else (sg.addVertex p.1).addEdge vertex p.1 (g.w vertex p.1))
          (sg.addVertex vertex))
      sg).w a b =
    if a ∈ done ++ todo ∧ b ∉ c then g.w a b
    else if b ∈ done ++ todo ∧ a ∉ c then g.w b a else 0 := by
  intro todo
  induction todo with
  | nil =>
    intro _ sg done hdone hinv a b
    rw [List.foldl_nil, List.append_nil]
    exact hinv a b
  | cons t todo ih =>
    intro htodo sg done hdone hinv a b
    rw [List.foldl_cons]
    have ht : t ∈ c := htodo t (List.mem_cons_self _ _)
    have hinv' : ∀ a b,
        ((match g.getVertex t with
          | some v => v.adj
          | none => []).foldl
          (fun (sg : Graph) (p : Nat × Int) =>
            if c.contains p.1 then sg
            else (sg.addVertex p.1).addEdge t p.1 (g.w t p.1))
          (sg.addVertex t)).w a b =
        if a ∈ done ++ [t] ∧ b ∉ c then g.w a b
        else if b ∈ done ++ [t] ∧ a ∉ c then g.w b a else 0 := by
      intro a b
      rw [sccInner_w g c t ht _ _ a b, addVertex_w sg t none a b, hinv a b]
      by_cases hbc : b ∈ c
      · have hA : ¬ (a = t ∧ b ∉ c ∧ b ∈ (match g.getVertex t with
            | some v => v.adj
            | none => ([] : List (Nat × Int))).map Prod.fst) := fun h => h.2.1 hbc
        have hA' : ¬ (a ∈ done ++ [t] ∧ b ∉ c) := fun h => h.2 hbc
        have hA'' : ¬ (a ∈ done ∧ b ∉ c) := fun h => h.2 hbc
        rw [if_neg hA, if_neg hA', if_neg hA'']
        by_cases hac : a ∈ c
        · have hB : ¬ (b = t ∧ a ∉ c ∧ a ∈ (match g.getVertex t with
              | some v => v.adj
              | none => ([] : List (Nat × Int))).map Prod.fst) := fun h => h.2.1 hac
          have hB' : ¬ (b ∈ done ++ [t] ∧ a ∉ c) := fun h => h.2 hac
          have hB'' : ¬ (b ∈ done ∧ a ∉ c) := fun h => h.2 hac
          rw [if_neg hB, if_neg hB', if_neg hB'']
        · by_cases hbt : b = t
          · have hB' : b ∈ done ++ [t] ∧ a ∉ c :=
              ⟨List.mem_append.mpr (Or.inr (List.mem_singleton.mpr hbt)), hac⟩
            rw [if_pos hB']
            by_cases haK : a ∈ (match g.getVertex t with
                | some v => v.adj
                | none => ([] : List (Nat × Int))).map Prod.fst
            · rw [if_pos ⟨hbt, hac, haK⟩, hbt]
            · rw [if_neg (fun h => haK h.2.2)]
              by_cases hbd : b ∈ done
              · rw [if_pos ⟨hbd, hac⟩]
              · rw [if_neg (fun h => hbd h.1), hbt, w_eq_zero_of_not_key g t a haK]
          · have hB : ¬ (b = t ∧ a ∉ c ∧ a ∈ (match g.getVertex t with
                | some v => v.adj
                | none => ([] : List (Nat × Int))).map Prod.fst) := fun h => hbt h.1
            rw [if_neg hB]
            by_cases hbd : b ∈ done
            · rw [if_pos ⟨hbd, hac⟩, if_pos ⟨List.mem_append.mpr (Or.inl hbd), hac⟩]
            · have hB' : ¬ (b ∈ done ++ [t] ∧ a ∉ c) := by
                rintro ⟨hm, _⟩
                rcases List.mem_append.mp hm with h' | h'
                · exact hbd h'
                · exact hbt (List.mem_singleton.mp h')
              rw [if_neg (fun h => hbd h.1), if_neg hB']
      · by_cases hat : a = t
        · have hA' : a ∈ done ++ [t] ∧ b ∉ c :=
            ⟨List.mem_append.mpr (Or.inr (List.mem_singleton.mpr hat)), hbc⟩
          rw [if_pos hA']
          by_cases hbK : b ∈ (match g.getVertex t with
              | some v => v.adj
              | none => ([] : List (Nat × Int))).map Prod.fst
          · rw [if_pos ⟨hat, hbc, hbK⟩, hat]
          · rw [if_neg (fun h => hbK h.2.2)]
            have hB : ¬ (b = t ∧ a ∉ c ∧ a ∈ (match g.getVertex t with
                | some v => v.adj
                | none => ([] : List (Nat × Int))).map Prod.fst) :=
              fun h => hbc (h.1.symm ▸ ht)
            rw [if_neg hB]
            by_cases had : a ∈ done
            · rw [if_pos ⟨had, hbc⟩]
            · have hB'' : ¬ (b ∈ done ∧ a ∉ c) := fun h => h.2 (hat.symm ▸ ht)
              rw [if_neg (fun h => had h.1), if_neg hB'', hat, w_eq_zero_of_not_key g t b hbK]
        · have hA : ¬ (a = t ∧ b ∉ c ∧ b ∈ (match g.getVertex t with
              | some v => v.adj
              | none => ([] : List (Nat × Int))).map Prod.fst) := fun h => hat h.1
          have hB : ¬ (b = t ∧ a ∉ c ∧ a ∈ (match g.getVertex t with
              | some v => v.adj
              | none => ([] : List (Nat × Int))).map Prod.fst) :=
            fun h => hbc (h.1.symm ▸ ht)
          rw [if_neg hA, if_neg hB]
          by_cases had : a ∈ done
          · rw [if_pos ⟨had, hbc⟩, if_pos ⟨List.mem_append.mpr (Or.inl had), hbc⟩]
          · have hA' : ¬ (a ∈ done ++ [t] ∧ b ∉ c) := by
              rintro ⟨hm, _⟩
              rcases List.mem_append.mp hm with h' | h'
              · exact had h'
              · exact hat (List.mem_singleton.mp h')
            have h1 : ¬ (b ∈ done ∧ a ∉ c) := fun h => hbc (hdone b h.1)
            have h2 : ¬ (b ∈ done ++ [t] ∧ a ∉ c) := by
              rintro ⟨hm, _⟩
              rcases List.mem_append.mp hm with h' | h'
              · exact hbc (hdone b h')
              · exact hbc ((List.mem_singleton.mp h').symm ▸ ht)
            rw [if_neg (fun h => had h.1), if_neg hA', if_neg h1, if_neg h2]
    have hlist : done ++ t :: todo = (done ++ [t]) ++ todo := by
      rw [List.append_assoc, List.singleton_append]
    rw [hlist]
    exact ih (fun x hx => htodo x (List.mem_cons_of_mem _ hx)) _ (done ++ [t])
      (by
        intro x hx
        rcases List.mem_append.mp hx with h | h
        · exact hdone x h
        · rw [List.mem_singleton] at h
          rw [h]
          exact ht)
      hinv' a b

/-- `sccSubgraph` keeps exactly the boundary weights: a pair with one end
inside the component and the other outside carries the original weight read
from the inside end, every other pair (in particular every INTERNAL edge of
the component) weighs `0`. -/
theorem sccSubgraph_w (g : Graph) (c : List Nat) (a b : Nat) :
    (sccSubgraph g c).w a b =
      if a ∈ c ∧ b ∉ c then g.w a b
      else if b ∈ c ∧ a ∉ c then g.w b a else 0 := by
  have h := sccOuter_w g c c (fun _ ht => ht) ⟨[]⟩ []
    (fun t ht => absurd ht (List.not_mem_nil t))
    (by
      intro a b
      simp [Graph.w, Graph.getVertex])
    a b
  simpa [sccSubgraph] using h

/-- Vertices already present survive the neighbor loop of `sccSubgraph`. -/
theorem sccInner_mem_mono (g : Graph) (c : List Nat) (t : Nat) :
    ∀ (l : List (Nat × Int)) (sg : Graph) (j : Nat), j ∈ sg.getVertices →
      j ∈ (l.foldl (fun (sg : Graph) (p : Nat × Int) =>
        if c.contains p.1 then sg
        else (sg.addVertex p.1).addEdge t p.1 (g.w t p.1)) sg).getVertices := by
  intro l
  induction l with
  | nil =>
    intro sg j hj
    exact hj
  | cons p l ih =>
    intro sg j hj
    rw [List.foldl_cons]
    apply ih
    by_cases hp : c.contains p.1 = true
    · rw [if_pos hp]
      exact hj
    · rw [if_neg hp]
      exact (addEdge_mem_getVertices _ _ _ _ _).mpr
        (Or.inl ((addVertex_mem_getVertices _ _ _ _).mpr (Or.inl hj)))

/-- The neighbor loop adds every outside key it processes. -/
theorem sccInner_mem_key (g : Graph) (c : List Nat) (t : Nat) :
    ∀ (l : List (Nat × Int)) (sg : Graph) (p : Nat × Int), p ∈ l → p.1 ∉ c →
      p.1 ∈ (l.foldl (fun (sg : Graph) (p : Nat × Int) =>
        if c.contains p.1 then sg
        else (sg.addVertex p.1).addEdge t p.1 (g.w t p.1)) sg).getVertices := by
  intro l
  induction l with
  | nil =>
    intro sg p hp
    exact absurd hp (List.not_mem_nil p)
  | cons q l ih =>
    intro sg p hp hpc
    rw [List.foldl_cons]
    rcases List.mem_cons.mp hp with rfl | hp'
    · have hq : ¬ c.contains p.1 = true := fun h => hpc (List.elem_iff.mp h)
      rw [if_neg hq]
      apply sccInner_mem_mono
      exact (addEdge_mem_getVertices _ _ _ _ _).mpr
        (Or.inl ((addVertex_mem_getVertices _ _ _ _).mpr (Or.inr rfl)))
    · exact ih _ p hp' hpc

/-- Vertices already present survive the component loop of `sccSubgraph`. -/
theorem sccOuter_mem_mono (g : Graph) (c : List Nat) :
    ∀ (todo : List Nat) (sg : Graph) (j : Nat), j ∈ sg.getVertices →
      j ∈ (todo.foldl
        (fun sg vertex =>
          (match g.getVertex vertex with
            | some v => v.adj
            | none => []).foldl
            (fun (sg : Graph) (p : Nat × Int) =>
              if c.contains p.1 then sg
              else (sg.addVertex p.1).addEdge vertex p.1 (g.w vertex p.1))
            (sg.addVertex vertex))
        sg).getVertices := by
  intro todo
  induction todo with
  | nil =>
    intro sg j hj
    exact hj
  | cons t todo ih =>
    intro sg j hj
    rw [List.foldl_cons]
    apply ih
    apply sccInner_mem_mono
    exact (addVertex_mem_getVertices _ _ _ _).mpr (Or.inl hj)

/-- Every component vertex ends up in the subgraph `sccSubgraph` builds. -/
theorem sccSubgraph_mem_comp (g : Graph) (c : List Nat) :
    ∀ (todo : List Nat) (sg : Graph) (t : Nat), t ∈ todo →
      t ∈ (todo.foldl
        (fun sg vertex =>
          (match g.getVertex vertex with
            | some v => v.adj
            | none => []).foldl
            (fun (sg : Graph) (p : Nat × Int) =>
              if c.contains p.1 then sg
              else (sg.addVertex p.1).addEdge vertex p.1 (g.w vertex p.1))
            (sg.addVertex vertex))
        sg).getVertices := by
  intro todo
  induction todo with
  | nil =>
    intro sg t ht
    exact absurd ht (List.not_mem_nil t)
  | cons u todo ih =>
    intro sg t ht
    rw [List.foldl_cons]
    rcases List.mem_cons.mp ht with rfl | ht'
    · apply sccOuter_mem_mono
      apply sccInner_mem_mono
      exact (addVertex_mem_getVertices _ _ _ _).mpr (Or.inr rfl)
    · exact ih _ t ht'

/-- Every outside neighbor of a component vertex ends up in the subgraph. -/
theorem sccSubgraph_mem_boundary (g : Graph) (c : List Nat) :
    ∀ (todo : List Nat) (sg : Graph) (t : Nat), t ∈ todo →
      ∀ p ∈ (match g.getVertex t with
        | some v => v.adj
        | none => ([] : List (Nat × Int))), p.1 ∉ c →
      p.1 ∈ (todo.foldl
        (fun sg vertex =>
          (match g.getVertex vertex with
            | some v => v.adj
            | none => []).foldl
            (fun (sg : Graph) (p : Nat × Int) =>
              if c.contains p.1 then sg
              else (sg.addVertex p.1).addEdge vertex p.1 (g.w vertex p.1))
            (sg.addVertex vertex))
        sg).getVertices := by
  intro todo
  induction todo with
  | nil =>
    intro sg t ht
    exact absurd ht (List.not_mem_nil t)
  | cons u todo ih =>
    intro sg t ht p hp hpc
    rw [List.foldl_cons]
    rcases List.mem_cons.mp ht with rfl | ht'
    · apply sccOuter_mem_mono
      exact sccInner_mem_key g c t _ _ p hp hpc
    · exact ih _ t ht' p hp hpc

/-- The second component of every `pa_scc_stage` entry is the subgraph the
code builds for its first component. -/
theorem mem_pa_scc_stage (g : Graph) (e : List Nat × Graph)
    (he : e ∈ pa_scc_stage g) : e.2 = sccSubgraph g e.1 := by
  simp only [pa_scc_stage] at he
  obtain ⟨c, -, rfl⟩ := List.mem_map.mp he
  rfl

/-- Claim C6 (corrected): `pa_scc_kl` does process the components in
descending order of `|size - numVertices/2|`, and each per-component
subgraph does contain the component's vertices and the outside endpoints of
its boundary edges — but the only weights carried over are the boundary
weights: every pair with both ends inside the component (the component's
own edges, which the claim says keep their original weight) weighs `0` in
the subgraph handed to `pa_kl`. -/
theorem pa_scc_stage_subgraphs (g : Graph) :
    ((pa_scc_stage g).Pairwise (fun e1 e2 =>
      |(e2.1.length : ℚ) - (g.numVertices : ℚ) / 2| ≤
      |(e1.1.length : ℚ) - (g.numVertices : ℚ) / 2|)) ∧
    ∀ e ∈ pa_scc_stage g,
      e.2 = sccSubgraph g e.1 ∧
      (∀ t ∈ e.1, t ∈ e.2.getVertices) ∧
      (∀ t ∈ e.1, ∀ p ∈ (match g.getVertex t with
          | some v => v.adj
          | none => ([] : List (Nat × Int))), p.1 ∉ e.1 → p.1 ∈ e.2.getVertices) ∧
      (∀ a b, e.2.w a b =
        if a ∈ e.1 ∧ b ∉ e.1 then g.w a b
        else if b ∈ e.1 ∧ a ∉ e.1 then g.w b a else 0) := by
  refine ⟨pa_scc_stage_sorted g, ?_⟩
  intro e he
  have hsub := mem_pa_scc_stage g e he
  refine ⟨hsub, ?_, ?_, ?_⟩
  · intro t ht
    rw [hsub]
    exact sccSubgraph_mem_comp g e.1 e.1 ⟨[]⟩ t ht
  · intro t ht p hp hpc
    rw [hsub]
    exact sccSubgraph_mem_boundary g e.1 e.1 ⟨[]⟩ t ht p hp hpc
  · intro a b
    rw [hsub]
    exact sccSubgraph_w g e.1 a b

/-- Witness for claim C6 at the two-vertex graph `gComp2`: its single
component `[0, 1]` is an entry of `pa_scc_stage`, the component vertex `0`
is in the subgraph, and the internal pair `(0, 1)` weighs `0` there. -/
theorem pa_scc_stage_subgraphs_witness :
    (([0, 1], sccSubgraph gComp2 [0, 1]) ∈ pa_scc_stage gComp2) ∧
    0 ∈ (sccSubgraph gComp2 [0, 1]).getVertices ∧
    (sccSubgraph gComp2 [0, 1]).w 0 1 = 0 := by
  have h := (pa_scc_stage_subgraphs gComp2).2 ([0, 1], sccSubgraph gComp2 [0, 1])
    (by decide)
  refine ⟨by decide, h.2.1 0 (by decide), ?_⟩
  rw [h.2.2.2 0 1]
  decide

/-! ## `partition_vertices` on graphs without `A` labels (claim C10) -/

theorem group_eq_nil (g : Graph) (l : PLabel)
    (h : ∀ v ∈ g.vertList, v.partition_label ≠ some l) : g.group l = [] := by
  unfold Graph.group
  rw [List.filterMap_eq_nil]
  intro v hv
  rw [if_neg (h v hv)]

/-- With no `A`-labeled vertex the refinement loop of `partition_vertices`
breaks in its first iteration (empty gain list), leaving only the cost
mutation of the D-value pass. -/
theorem pvLoop_noA (g : Graph) (hA : ∀ v ∈ g.vertList, v.partition_label ≠ some PLabel.A) :
    pvLoop (g.numVertices / 2) g 0 =
      .ok (if 2 ≤ g.numVertices then g.costPhase else g, 0) := by
  by_cases h2 : 2 ≤ g.numVertices
  · rw [if_pos h2]
    obtain ⟨k, hk⟩ : ∃ k, g.numVertices / 2 = k + 1 := ⟨g.numVertices / 2 - 1, by omega⟩
    rw [hk]
    have hga : g.group .A = [] := group_eq_nil g .A hA
    simp only [pvLoop, hga]
    rfl
  · rw [if_neg h2]
    have hk : g.numVertices / 2 = 0 := by omega
    rw [hk]
    rfl

theorem splitFold_fst (ga gb : List Nat) :
    ∀ (vs : List Vertex) (sgs : Graph × Graph),
      (∀ v ∈ vs, v.partition_label ≠ some PLabel.A) →
      (vs.foldl (splitStep ga gb) sgs).1 = sgs.1 := by
  intro vs
  induction vs with
  | nil =>
    intro sgs _
    rfl
  | cons v vs ih =>
    intro sgs h
    rw [List.foldl_cons, ih _ (fun w hw => h w (List.mem_cons_of_mem _ hw))]
    unfold splitStep
    rw [if_neg (h v (List.mem_cons_self _ _))]

theorem splitByLabel_fst_empty (g : Graph)
    (hA : ∀ v ∈ g.vertList, v.partition_label ≠ some PLabel.A) :
    (splitByLabel g).1 = (⟨[]⟩ : Graph) := by
  rw [splitByLabel_eq_fold]
  exact splitFold_fst _ _ _ _ hA

theorem addVertex_adj_nil (g : Graph) (i : Nat) (l : Option PLabel)
    (h : ∀ w ∈ g.vertList, w.adj = []) :
    ∀ w ∈ (g.addVertex i l).vertList, w.adj = [] := by
  intro w hw
  unfold Graph.addVertex at hw
  by_cases hs : (g.getVertex i).isSome
  · rw [if_pos hs] at hw
    simp only [Graph.setLabel, Graph.modifyVertex] at hw
    obtain ⟨v, hv, rfl⟩ := List.mem_map.mp hw
    split_ifs <;> exact h v hv
  · rw [if_neg hs] at hw
    rcases List.mem_append.mp hw with h' | h'
    · exact h w h'
    · rw [List.mem_singleton] at h'
      rw [h']

/-- The intra-`B` edge loop does nothing when group `B` is empty. -/
theorem splitInner_nilB (v : Vertex) :
    ∀ (adj : List (Nat × Int)) (s2 : Graph),
      adj.foldl (fun (s2 : Graph) (p : Nat × Int) =>
        if ([] : List Nat).contains p.1 then s2.addEdge v.id p.1 (v.getWeight p.1) else s2)
        s2 = s2 := by
  intro adj
  induction adj with
  | nil =>
    intro s2
    rfl
  | cons p adj ih =>
    intro s2
    rw [List.foldl_cons]
    have h : (if ([] : List Nat).contains p.1 then s2.addEdge v.id p.1 (v.getWeight p.1)
        else s2) = s2 := rfl
    rw [h]
    exact ih s2

theorem splitFold_snd_adj_nil (ga : List Nat) :
    ∀ (vs : List Vertex) (sgs : Graph × Graph),
      (∀ v ∈ vs, v.partition_label ≠ some PLabel.A) →
      (∀ w ∈ sgs.2.vertList, w.adj = []) →
      ∀ w ∈ (vs.foldl (splitStep ga []) sgs).2.vertList, w.adj = [] := by
  intro vs
  induction vs with
  | nil =>
    intro sgs _ h
    exact h
  | cons v vs ih =>
    intro sgs h hadj
    rw [List.foldl_cons]
    apply ih _ (fun w hw => h w (List.mem_cons_of_mem _ hw))
    unfold splitStep
    rw [if_neg (h v (List.mem_cons_self _ _))]
    simp only [splitInner_nilB]
    exact addVertex_adj_nil _ _ _ hadj

theorem ctw_of_adj_nil (g : Graph) (h : ∀ v ∈ g.vertList, v.adj = []) :
    g.compute_total_weight = 0 := by
  unfold Graph.compute_total_weight
  suffices hgen : ∀ (vs : List Vertex) (acc : Int), (∀ v ∈ vs, v.adj = []) →
      vs.foldl (fun acc v => v.adj.foldl (fun a p => a + p.2) acc) acc = acc by
    exact hgen g.vertList 0 h
  intro vs
  induction vs with
  | nil =>
    intro acc _
    rfl
  | cons v vs ih =>
    intro acc h
    rw [List.foldl_cons, h v (List.mem_cons_self _ _)]
    exact ih acc (fun w hw => h w (List.mem_cons_of_mem _ hw))

theorem ctw_costPhase (g : Graph) :
    g.costPhase.compute_total_weight = g.compute_total_weight := by
  simp only [Graph.compute_total_weight, Graph.costPhase, List.foldl_map, costUpdVertex_adj]

/-- Saving with the `vertex in subgraph1.getVertices()` condition against an
EMPTY `subgraph1` assigns label `B` to every visited vertex. -/
theorem saveB_fold :
    ∀ (ids : List Nat) (p : Partition) (j : Nat),
      (j ∈ ids ∨ plookup p j = some PLabel.B) →
      plookup (ids.foldl (saveStep (.inSubgraph1 (⟨[]⟩ : Graph))) p) j = some PLabel.B := by
  intro ids
  induction ids with
  | nil =>
    intro p j h
    rcases h with h | h
    · exact absurd h (List.not_mem_nil j)
    · exact h
  | cons x ids ih =>
    intro p j h
    rw [List.foldl_cons]
    have hstep : saveStep (.inSubgraph1 (⟨[]⟩ : Graph)) p x = dinsert p x PLabel.B := rfl
    rw [hstep]
    rcases h with h | h
    · rcases List.mem_cons.mp h with rfl | h'
      · apply ih
        right
        exact dinsert_lookup_self p j PLabel.B
      · exact ih _ j (Or.inl h')
    · by_cases hjx : j = x
      · apply ih
        right
        rw [hjx]
        exact dinsert_lookup_self p x PLabel.B
      · apply ih
        right
        rw [dinsert_lookup_other p x PLabel.B j hjx]
        exact h

/-- Claim C10: when no vertex carries label `A` at invocation,
`partition_vertices` performs no swap (the label projection is unchanged;
only the D-value cost pass runs when `numVertices ≥ 2`), returns an EMPTY
`subgraph1` and a `subgraph2` holding every vertex of the graph; hence on an
all-unlabeled (fresh) graph with a positive threshold, `partition_graph`
never truly splits: above the size floor it either raises
`ZeroDivisionError` (zero total weight) or takes the balance fallback of
`save_partition`, which labels EVERY vertex `B`. -/
theorem partition_vertices_noA (g g' : Graph) (p : Partition) (ms L : Nat) (thr : ℚ)
    (hA : ∀ v ∈ g.vertList, v.partition_label ≠ some PLabel.A)
    (hg' : g' = if 2 ≤ g.numVertices then g.costPhase else g) :
    partition_vertices g = .ok (g', (⟨[]⟩ : Graph), (splitByLabel g').2) ∧
    g'.labelsProj = g.labelsProj ∧
    (∀ j, j ∈ (splitByLabel g').2.getVertices ↔ j ∈ g.getVertices) ∧
    ((∀ v ∈ g.vertList, v.partition_label = none) → 0 < thr → ms < g.numVertices →
      (g.compute_total_weight = 0 →
        partition_graph ms thr (L + 1) g p = .error .zeroDivisionError) ∧
      (g.compute_total_weight ≠ 0 →
        partition_graph ms thr (L + 1) g p =
          .ok (save_partition g' p (.inSubgraph1 (⟨[]⟩ : Graph))) ∧
        ∀ j ∈ g.getVertices,
          plookup (save_partition g' p (.inSubgraph1 (⟨[]⟩ : Graph))) j =
            some PLabel.B)) := by
  have hA' : ∀ v ∈ g'.vertList, v.partition_label ≠ some PLabel.A := by
    rw [hg']
    split_ifs
    · intro w hw
      simp only [Graph.costPhase] at hw
      obtain ⟨v, hv, rfl⟩ := List.mem_map.mp hw
      rw [costUpdVertex_label]
      exact hA v hv
    · exact hA
  have hskel : g'.skeleton = g.skeleton := by
    rw [hg']
    split_ifs
    · exact costPhase_skeleton g
    · rfl
  have hfst : (splitByLabel g').1 = (⟨[]⟩ : Graph) := splitByLabel_fst_empty g' hA'
  have hpv : partition_vertices g = .ok (g', (⟨[]⟩ : Graph), (splitByLabel g').2) := by
    unfold partition_vertices
    rw [show pvLoop (g.numVertices / 2) g 0 = .ok (g', 0) from hg' ▸ pvLoop_noA g hA]
    rw [ebind_ok]
    simp only []
    rw [hfst]
  have hlab : g'.labelsProj = g.labelsProj := by
    rw [hg']
    split_ifs
    · exact costPhase_labelsProj g
    · rfl
  have hgv : g'.getVertices = g.getVertices := getVertices_of_skeleton_eq g g' hskel
  have hcov : ∀ j, j ∈ (splitByLabel g').2.getVertices ↔ j ∈ g.getVertices := by
    intro j
    have h := splitByLabel_cover g' j
    rw [hfst] at h
    have hemp : j ∉ ((⟨[]⟩ : Graph)).getVertices := by
      intro hj
      exact absurd hj (List.not_mem_nil j)
    rw [← hgv]
    constructor
    · intro hj
      exact h.mp (Or.inr hj)
    · intro hj
      rcases h.mpr hj with hj' | hj'
      · exact absurd hj' hemp
      · exact hj'
  refine ⟨hpv, hlab, hcov, ?_⟩
  intro hnone hthr hms
  have hpw : g'.compute_total_weight = g.compute_total_weight := by
    rw [hg']
    split_ifs
    · exact ctw_costPhase g
    · rfl
  have hnone' : ∀ v ∈ g'.vertList, v.partition_label = none := by
    rw [hg']
    split_ifs
    · intro w hw
      simp only [Graph.costPhase] at hw
      obtain ⟨v, hv, rfl⟩ := List.mem_map.mp hw
      rw [costUpdVertex_label]
      exact hnone v hv
    · exact hnone
  have hgb : g'.group .B = [] := group_eq_nil g' .B (by
    intro v hv
    rw [hnone' v hv]
    intro h
    cases h)
  have hsub2adj : ∀ w ∈ (splitByLabel g').2.vertList, w.adj = [] := by
    have h := splitFold_snd_adj_nil (g'.group .A) g'.vertList (⟨[]⟩, ⟨[]⟩) hA'
      (fun w hw => absurd hw (List.not_mem_nil w))
    rw [splitByLabel_eq_fold, hgb]
    exact fun w hw => h w hw
  have hsub2ctw : (splitByLabel g').2.compute_total_weight = 0 :=
    ctw_of_adj_nil _ hsub2adj
  have hunf : partition_graph ms thr (L + 1) g p =
      (if g'.compute_total_weight = 0 then (.error .zeroDivisionError : Except Err Partition)
       else
        if |(((⟨[]⟩ : Graph).compute_total_weight : ℚ) -
            ((splitByLabel g').2.compute_total_weight : ℚ))| /
            (g'.compute_total_weight : ℚ) < thr then
          .ok (save_partition g' p (.inSubgraph1 (⟨[]⟩ : Graph)))
        else do
          let p ← partition_graph ms thr L (⟨[]⟩ : Graph) p
          partition_graph ms thr L (splitByLabel g').2 p) := by
    simp only [partition_graph]
    rw [if_neg (Nat.not_le.mpr hms), hpv, ebind_ok]
  refine ⟨?_, ?_⟩
  · intro h0
    rw [hunf, if_pos (hpw.trans h0)]
  · intro h0
    have hbal : |(((⟨[]⟩ : Graph).compute_total_weight : ℚ) -
        ((splitByLabel g').2.compute_total_weight : ℚ))| /
        (g'.compute_total_weight : ℚ) < thr := by
      have hz : ((⟨[]⟩ : Graph)).compute_total_weight = 0 := rfl
      rw [hsub2ctw, hz]
      simpa using hthr
    refine ⟨by rw [hunf, if_neg (fun h => h0 (hpw.symm.trans h)), if_pos hbal], ?_⟩
    intro j hj
    unfold save_partition
    apply saveB_fold
    left
    rw [hgv]
    exact hj

/-- A fresh 2-vertex graph with one weighted edge (claim C10 witness data). -/
def gC10 : Graph := buildGraph 2 [(0, 1, 4)]

/-- Witness for claim C10 at `gC10`: `partition_vertices` returns the
cost-updated graph with an empty `subgraph1`, and the balance fallback
labels vertex `0` with `B`. -/
theorem partition_vertices_noA_witness :
    partition_vertices gC10 = .ok (gC10.costPhase, (⟨[]⟩ : Graph),
      (splitByLabel gC10.costPhase).2) ∧
    plookup (save_partition gC10.costPhase [] (.inSubgraph1 (⟨[]⟩ : Graph))) 0 =
      some PLabel.B := by
  have h := partition_vertices_noA gC10 gC10.costPhase [] 1 0 (1 / 2)
    (by decide) (by decide)
  exact ⟨h.1, ((h.2.2.2 (by decide) (by norm_num) (by decide)).2 (by decide)).2 0 (by decide)⟩

/-- Claim C7: the `k_medois` loop iterates until the summed ratio
`d = Σ |new_total[i]| / old_total[i]` of the new cluster totals against the
previous best totals fails the `d > thredshold` test (the converged flag of
`update_centroids` is exactly that criterion); a converged iteration stops
the loop at once, a non-converged one continues, and exhausting the
iteration budget returns the current state as a best-effort result — an
error can only originate inside an iteration body, never from running out
of iterations. -/
theorem k_medois_loop_spec (dist : Nat → Nat → PyF) (g : Graph) (thr : ℚ) :
    (∀ st, kmLoop dist g thr 0 st = .ok st) ∧
    (∀ fuel st e, kmLoop dist g thr fuel st = .error e →
      ∃ st', kmIter dist g thr st' = .error e) ∧
    (∀ fuel st b st', kmIter dist g thr st = .ok (b, st') →
      kmLoop dist g thr (fuel + 1) st =
        (if b then .ok st' else kmLoop dist g thr fuel st')) ∧
    (∀ (c_ids cur : List Nat) (td otd : List PyF) (r : Bool × List Nat × List PyF),
      update_centroids c_ids cur thr td otd = .ok r →
      ∃ d, ((List.range otd.length).foldlM
          (fun acc i => do
            let q ← PyF.div (PyF.abs (td.getD i (.fin 0))) (otd.getD i (.fin 0))
            (.ok (PyF.add acc q) : Except Err PyF))
          (PyF.fin 0)) = .ok d ∧
        r = (if d.gtQ thr then (false, cur, otd) else (true, c_ids, td))) ∧
    (∀ (c0 : List Nat) (max_iter : Nat) (st : KMState),
      kmLoop dist g thr max_iter
        ⟨c0, c0.map (fun _ => PyF.inf), c0.map (fun _ => [])⟩ = .ok st →
      k_medois dist g c0 thr max_iter = .ok (st.c_ids, st.groups_data)) := by
  refine ⟨fun st => rfl, ?_, ?_, ?_, ?_⟩
  · intro fuel
    induction fuel with
    | zero =>
      intro st e h
      exact absurd h (by simp [kmLoop])
    | succ fuel ih =>
      intro st e h
      simp only [kmLoop] at h
      cases hit : kmIter dist g thr st with
      | error e' =>
        rw [hit, ebind_error] at h
        injection h with h'
        subst h'
        exact ⟨st, hit⟩
      | ok r =>
        rw [hit, ebind_ok] at h
        obtain ⟨b, st'⟩ := r
        simp only [] at h
        cases b with
        | true => exact absurd h (by simp)
        | false =>
          simp only [Bool.false_eq_true, if_false] at h
          exact ih st' e h
  · intro fuel st b st' hit
    simp only [kmLoop]
    rw [hit, ebind_ok]
  · intro c_ids cur td otd r hu
    simp only [update_centroids] at hu
    cases hd : ((List.range otd.length).foldlM
        (fun acc i => do
          let q ← PyF.div (PyF.abs (td.getD i (.fin 0))) (otd.getD i (.fin 0))
          (.ok (PyF.add acc q) : Except Err PyF))
        (PyF.fin 0)) with
    | error e =>
      rw [hd, ebind_error] at hu
      cases hu
    | ok d =>
      rw [hd, ebind_ok] at hu
      refine ⟨d, rfl, ?_⟩
      by_cases hgt : d.gtQ thr = true
      · rw [if_pos hgt] at hu
        rw [if_pos hgt]
        injection hu with h'
        exact h'.symm
      · rw [if_neg hgt] at hu
        rw [if_neg hgt]
        injection hu with h'
        exact h'.symm
  · intro c0 max_iter st h
    unfold k_medois
    rw [h, ebind_ok]

/-- Witness for claim C7 on a one-vertex graph with a constant-`inf`
distance oracle: the first iteration converges (the initial best totals are
`inf`, so `d` is `nan` and `d > 1` is false) and the loop stops with the
recomputed state. -/
theorem k_medois_loop_spec_witness :
    kmIter (fun _ _ => PyF.inf) (buildGraph 1 []) 1 ⟨[0], [PyF.inf], [[]]⟩ =
      .ok (true, ⟨[0], [PyF.inf], [[0]]⟩) ∧
    kmLoop (fun _ _ => PyF.inf) (buildGraph 1 []) 1 1 ⟨[0], [PyF.inf], [[]]⟩ =
      .ok ⟨[0], [PyF.inf], [[0]]⟩ := by
  have ht : (kmIter (fun _ _ => PyF.inf) (buildGraph 1 []) 1
      ⟨[0], [PyF.inf], [[]]⟩).toOption =
      some (true, ⟨[0], [PyF.inf], [[0]]⟩) := by decide
  have heq : kmIter (fun _ _ => PyF.inf) (buildGraph 1 []) 1 ⟨[0], [PyF.inf], [[]]⟩ =
      .ok (true, ⟨[0], [PyF.inf], [[0]]⟩) := by
    cases hK : kmIter (fun _ _ => PyF.inf) (buildGraph 1 []) 1
        ⟨[0], [PyF.inf], [[]]⟩ with
    | ok y =>
      rw [hK] at ht
      simp only [Except.toOption] at ht
      injection ht with ht'
      rw [ht']
    | error e =>
      rw [hK] at ht
      simp [Except.toOption] at ht
  have h := (k_medois_loop_spec (fun _ _ => PyF.inf) (buildGraph 1 []) 1).2.2.1
    0 ⟨[0], [PyF.inf], [[]]⟩ true ⟨[0], [PyF.inf], [[0]]⟩ heq
  exact ⟨heq, h⟩

/-! ## Greedy coloring (claim C8) -/

/-- `find?` over `range'` returns the least index satisfying the predicate. -/
theorem find_range'_least (p : Nat → Bool) :
    ∀ (n k c : Nat), (List.range' k n).find? p = some c →
      p c = true ∧ ∀ c', k ≤ c' → c' < c → p c' = false := by
  intro n
  induction n with
  | zero =>
    intro k c h
    cases h
  | succ n ih =>
    intro k c h
    rw [List.range'_succ] at h
    by_cases hk : p k = true
    · rw [List.find?_cons_of_pos _ hk] at h
      injection h with h'
      subst h'
      exact ⟨hk, fun c' h1 h2 => absurd h1 (by omega)⟩
    · rw [List.find?_cons_of_neg _ hk] at h
      obtain ⟨h1, h2⟩ := ih (k + 1) c h
      refine ⟨h1, fun c' hk' hc' => ?_⟩
      by_cases he : c' = k
      · rw [he]
        exact Bool.eq_false_iff.mpr hk
      · exact h2 c' (by omega) hc'

theorem find_range_least (n : Nat) (p : Nat → Bool) (c : Nat)
    (h : (List.range n).find? p = some c) :
    p c = true ∧ c < n ∧ ∀ c' < c, p c' = false := by
  rw [List.range_eq_range'] at h
  obtain ⟨h1, h2⟩ := find_range'_least p n 0 c h
  refine ⟨h1, ?_, fun c' hc' => h2 c' (Nat.zero_le c') hc'⟩
  have := List.mem_of_find?_eq_some h
  simpa using this

/-- A duplicate-free list included in another is no longer than it. -/
theorem nodup_subset_length (l1 l2 : List Nat) (h1 : l1.Nodup)
    (hsub : ∀ x ∈ l1, x ∈ l2) : l1.length ≤ l2.length := by
  have hc1 : l1.toFinset.card = l1.length := List.toFinset_card_of_nodup h1
  have hc2 : l2.toFinset.card ≤ l2.length := List.toFinset_card_le l2
  have hle : l1.toFinset ⊆ l2.toFinset := by
    intro x hx
    rw [List.mem_toFinset] at hx
    rw [List.mem_toFinset]
    exact hsub x hx
  calc l1.length = l1.toFinset.card := hc1.symm
    _ ≤ l2.toFinset.card := Finset.card_le_card hle
    _ ≤ l2.length := hc2

/-- Per-vertex facts packed in `wfb`. -/
theorem wf_vertex_facts (g : Graph) (hwf : g.WF) (v : Vertex) (hv : v ∈ g.vertList) :
    v.id < g.numVertices ∧ (v.adj.map (·.1)).Nodup ∧
    (∀ p ∈ v.adj, p.1 < g.numVertices ∧ p.1 ≠ v.id) := by
  obtain ⟨i, hlt, hgi⟩ := List.mem_iff_getElem.mp hv
  have hi : g.vertList[i]? = some v := by
    rw [List.getElem?_eq_getElem hlt, hgi]
  have h := List.all_eq_true.mp hwf i
    (by simpa [List.mem_range, Graph.numVertices] using hlt)
  rw [hi] at h
  simp only [Bool.and_eq_true, beq_iff_eq, List.all_eq_true] at h
  obtain ⟨⟨⟨hid, hnd⟩, hb⟩, -⟩ := h
  have hidn : v.id < g.numVertices := by
    rw [hid]
    simpa [Graph.numVertices] using hlt
  refine ⟨hidn, by simpa using hnd, fun p hp => ?_⟩
  have := hb p hp
  simp only [Bool.and_eq_true, decide_eq_true_eq, bne_iff_ne, ne_eq] at this
  exact ⟨this.1, by rw [hid]; exact this.2⟩

/-- Under well-formedness every degree is below the vertex count. -/
theorem wf_degree_lt (g : Graph) (hwf : g.WF) (v : Vertex) (hv : v ∈ g.vertList) :
    v.adj.length < g.numVertices := by
  obtain ⟨hid, hnd, hkey⟩ := wf_vertex_facts g hwf v hv
  have hlen : v.adj.length = (v.adj.map (·.1)).length := (List.length_map _ _).symm
  have hsub : ∀ x ∈ v.adj.map (·.1), x ∈ (List.range g.numVertices).erase v.id := by
    intro x hx
    obtain ⟨p, hp, rfl⟩ := List.mem_map.mp hx
    obtain ⟨h1, h2⟩ := hkey p hp
    rw [List.mem_erase_of_ne h2]
    exact List.mem_range.mpr h1
  have hle := nodup_subset_length _ _ hnd hsub
  have herase : ((List.range g.numVertices).erase v.id).length =
      g.numVertices - 1 := by
    rw [List.length_erase_of_mem (List.mem_range.mpr hid), List.length_range]
  rw [hlen]
  omega

/-- Looking up an existing key is unchanged by appending entries. -/
theorem alookup_append_left (cm l : List (Nat × Nat)) (k c : Nat)
    (h : alookup cm k = some c) : alookup (cm ++ l) k = some c := by
  unfold alookup at h ⊢
  rw [List.find?_append]
  cases hf : cm.find? (fun p => p.1 == k) with
  | none => rw [hf] at h; cases h
  | some q => rw [hf] at h; simpa using h

/-- Looking up a fresh key after appending one entry. -/
theorem alookup_append_fresh (cm : List (Nat × Nat)) (i c k : Nat)
    (h : alookup cm k = none) :
    alookup (cm ++ [(i, c)]) k = if k = i then some c else none := by
  unfold alookup at h ⊢
  rw [List.find?_append]
  cases hf : cm.find? (fun p => p.1 == k) with
  | some q => rw [hf] at h; cases h
  | none =>
    simp only [Option.none_or]
    by_cases hk : k = i
    · rw [List.find?_cons_of_pos _ (by simp [hk]), if_pos hk]
      rfl
    · rw [if_neg hk, List.find?_cons_of_neg _ (by simp; exact fun he => hk he.symm)]
      rfl

/-- Fresh keys look up to `none`. -/
theorem alookup_eq_none (cm : List (Nat × Nat)) (k : Nat)
    (h : k ∉ cm.map Prod.fst) : alookup cm k = none := by
  unfold alookup
  rw [List.find?_eq_none.mpr]
  · rfl
  · intro p hp
    simp only [beq_iff_eq]
    intro he
    exact h (List.mem_map.mpr ⟨p, hp, he⟩)

/-- The two ways a decomposition of `cm ++ [x]` around an element can sit. -/
theorem append_singleton_split {α : Type} (cm a b : List α) (x y : α)
    (h : cm ++ [x] = a ++ y :: b) :
    (b = [] ∧ a = cm ∧ y = x) ∨ ∃ b', b = b' ++ [x] ∧ cm = a ++ y :: b' := by
  rcases List.eq_nil_or_concat b with rfl | ⟨b', z, rfl⟩
  · left
    have hlen : cm.length = a.length := by
      have := congrArg List.length h
      simp at this
      omega
    obtain ⟨h1, h2⟩ := List.append_inj h hlen
    injection h2 with h2a
    exact ⟨rfl, h1.symm, h2a.symm⟩
  · right
    rw [List.concat_eq_append] at h
    have h' : cm ++ [x] = (a ++ y :: b') ++ [z] := by
      rw [h]
      simp
    have hlen : cm.length = (a ++ y :: b').length := by
      have := congrArg List.length h'
      simp at this
      simp
      omega
    obtain ⟨h1, h2⟩ := List.append_inj h' hlen
    injection h2 with h2a
    exact ⟨b', by rw [List.concat_eq_append, h2a], h1⟩

/-- Split a lookup in `cm ++ [(i, c0)]` into the old-entry and new-entry
cases. -/
theorem alookup_append_singleton_cases (cm : List (Nat × Nat)) (i c0 k c1 : Nat)
    (h : alookup (cm ++ [(i, c0)]) k = some c1) :
    alookup cm k = some c1 ∨ (k = i ∧ c1 = c0 ∧ alookup cm k = none) := by
  cases hq : alookup cm k with
  | some q =>
    left
    rw [alookup_append_left cm [(i, c0)] k q hq] at h
    injection h with h'
    exact congrArg some h'
  | none =>
    right
    rw [alookup_append_fresh cm i c0 k hq] at h
    by_cases hk : k = i
    · rw [if_pos hk] at h
      injection h with h'
      exact ⟨hk, h'.symm, rfl⟩
    · rw [if_neg hk] at h
      cases h

/-- The master invariant of the `greedyColoring` fold: lookups persist, every
processed vertex gets a color, the key list stays duplicate-free, mutually
adjacent colored vertices have distinct colors, and every entry holds the
least color unused by the earlier-colored neighbors of its vertex. -/
theorem greedy_fold_inv (g : Graph) (hwf : g.WF) :
    ∀ (todo : List Vertex) (cm : List (Nat × Nat)),
    (∀ v ∈ todo, v ∈ g.vertList) →
    ((todo.map (fun v => v.id)).Nodup) →
    ((cm.map Prod.fst).Nodup) →
    (∀ k ∈ cm.map Prod.fst, ∀ v ∈ todo, k ≠ v.id) →
    (∀ vx vy, vx ∈ g.vertList → vy ∈ g.vertList → vx.id ∈ vy.conns →
      vy.id ∈ vx.conns → ∀ cx cy, alookup cm vx.id = some cx →
      alookup cm vy.id = some cy → cx ≠ cy) →
    (∀ cm1 i c cm2, cm = cm1 ++ (i, c) :: cm2 →
      ∃ v, v ∈ g.vertList ∧ v.id = i ∧
        c ∉ v.conns.filterMap (fun nid => alookup cm1 nid) ∧
        ∀ c' < c, c' ∈ v.conns.filterMap (fun nid => alookup cm1 nid)) →
    (∀ k c, alookup cm k = some c →
      alookup (todo.foldl
        (fun color_map v =>
          let used := v.conns.filterMap (fun nid => alookup color_map nid)
          match (List.range g.numVertices).find? (fun c => !(used.contains c)) with
          | some c => color_map ++ [(v.id, c)]
          | none => color_map) cm) k = some c) ∧
    (∀ v ∈ todo, (alookup (todo.foldl
        (fun color_map v =>
          let used := v.conns.filterMap (fun nid => alookup color_map nid)
          match (List.range g.numVertices).find? (fun c => !(used.contains c)) with
          | some c => color_map ++ [(v.id, c)]
          | none => color_map) cm) v.id).isSome) ∧
    (((todo.foldl
        (fun color_map v =>
          let used := v.conns.filterMap (fun nid => alookup color_map nid)
          match (List.range g.numVertices).find? (fun c => !(used.contains c)) with
          | some c => color_map ++ [(v.id, c)]
          | none => color_map) cm).map Prod.fst).Nodup) ∧
    (∀ vx vy, vx ∈ g.vertList → vy ∈ g.vertList → vx.id ∈ vy.conns →
      vy.id ∈ vx.conns → ∀ cx cy,
      alookup (todo.foldl
        (fun color_map v =>
          let used := v.conns.filterMap (fun nid => alookup color_map nid)
          match (List.range g.numVertices).find? (fun c => !(used.contains c)) with
          | some c => color_map ++ [(v.id, c)]
          | none => color_map) cm) vx.id = some cx →
      alookup (todo.foldl
        (fun color_map v =>
          let used := v.conns.filterMap (fun nid => alookup color_map nid)
          match (List.range g.numVertices).find? (fun c => !(used.contains c)) with
          | some c => color_map ++ [(v.id, c)]
          | none => color_map) cm) vy.id = some cy → cx ≠ cy) ∧
    (∀ cm1 i c cm2, (todo.foldl
        (fun color_map v =>
          let used := v.conns.filterMap (fun nid => alookup color_map nid)
          match (List.range g.numVertices).find? (fun c => !(used.contains c)) with
          | some c => color_map ++ [(v.id, c)]
          | none => color_map) cm) = cm1 ++ (i, c) :: cm2 →
      ∃ v, v ∈ g.vertList ∧ v.id = i ∧
        c ∉ v.conns.filterMap (fun nid => alookup cm1 nid) ∧
        ∀ c' < c, c' ∈ v.conns.filterMap (fun nid => alookup cm1 nid)) := by
  intro todo
  induction todo with
  | nil =>
    intro cm _ _ h3 _ h5 h6
    exact ⟨fun k c h => h, fun v hv => absurd hv (List.not_mem_nil v), h3, h5, h6⟩
  | cons v todo ih =>
    intro cm h1 h2 h3 h4 h5 h6
    rw [List.foldl_cons]
    have hvl : v ∈ g.vertList := h1 v (List.mem_cons_self _ _)
    rw [List.map_cons, List.nodup_cons] at h2
    obtain ⟨hvfresh, h2'⟩ := h2
    cases hfind : (List.range g.numVertices).find?
        (fun c => !((v.conns.filterMap (fun nid => alookup cm nid)).contains c)) with
    | none =>
      exfalso
      have hall := List.find?_eq_none.mp hfind
      have hsub : ∀ x ∈ List.range g.numVertices,
          x ∈ v.conns.filterMap (fun nid => alookup cm nid) := by
        intro x hx
        have hx' := hall x hx
        simp only [Bool.not_eq_true', Bool.not_eq_false] at hx'
        exact List.elem_iff.mp hx'
      have hlen := nodup_subset_length _ _ (List.nodup_range _)
        (fun x hx => hsub x hx)
      rw [List.length_range] at hlen
      have hle : (v.conns.filterMap (fun nid => alookup cm nid)).length ≤
          v.adj.length := by
        have h1' := List.length_filterMap_le (fun nid => alookup cm nid) v.conns
        have h2'' : v.conns.length = v.adj.length := List.length_map _ _
        omega
      have hdeg := wf_degree_lt g hwf v hvl
      omega
    | some c =>
      simp only [hfind]
      have hcnot : c ∉ v.conns.filterMap (fun nid => alookup cm nid) := by
        obtain ⟨hp, -, -⟩ := find_range_least _ _ _ hfind
        simp only [Bool.not_eq_true'] at hp
        intro hc
        have ht : (v.conns.filterMap (fun nid => alookup cm nid)).contains c = true :=
          List.elem_iff.mpr hc
        rw [hp] at ht
        exact Bool.false_ne_true ht
      have hcleast : ∀ c' < c, c' ∈ v.conns.filterMap (fun nid => alookup cm nid) := by
        obtain ⟨-, -, hl⟩ := find_range_least _ _ _ hfind
        intro c' hc'
        have := hl c' hc'
        simp only [Bool.not_eq_false'] at this
        exact List.elem_iff.mp this
      have hvnone : alookup cm v.id = none := by
        apply alookup_eq_none
        intro hk
        exact h4 v.id hk v (List.mem_cons_self _ _) rfl
      have h1' : ∀ w ∈ todo, w ∈ g.vertList :=
        fun w hw => h1 w (List.mem_cons_of_mem _ hw)
      have h3' : ((cm ++ [(v.id, c)]).map Prod.fst).Nodup := by
        rw [List.map_append]
        rw [List.nodup_append]
        refine ⟨h3, List.nodup_singleton _, ?_⟩
        intro a ha hb
        simp only [List.map_cons, List.map_nil, List.mem_singleton] at hb
        subst hb
        exact h4 _ ha v (List.mem_cons_self _ _) rfl
      have h4' : ∀ k ∈ (cm ++ [(v.id, c)]).map Prod.fst, ∀ w ∈ todo, k ≠ w.id := by
        intro k hk w hw
        rw [List.map_append] at hk
        rcases List.mem_append.mp hk with hk' | hk'
        · exact h4 k hk' w (List.mem_cons_of_mem _ hw)
        · simp only [List.map_cons, List.map_nil, List.mem_singleton] at hk'
          subst hk'
          intro he
          exact hvfresh (he ▸ List.mem_map_of_mem (fun v => v.id) hw)
      have h5' : ∀ vx vy, vx ∈ g.vertList → vy ∈ g.vertList → vx.id ∈ vy.conns →
          vy.id ∈ vx.conns → ∀ cx cy, alookup (cm ++ [(v.id, c)]) vx.id = some cx →
          alookup (cm ++ [(v.id, c)]) vy.id = some cy → cx ≠ cy := by
        intro vx vy hvx hvy hxy hyx cx cy hlx hly
        rcases alookup_append_singleton_cases cm v.id c vx.id cx hlx with hx | ⟨hxi, hxc, -⟩
        · rcases alookup_append_singleton_cases cm v.id c vy.id cy hly with hy | ⟨hyi, hyc, -⟩
          · exact h5 vx vy hvx hvy hxy hyx cx cy hx hy
          · -- vy is the new entry
            have hvyv : vy = v := id_inj_of_nodup g (wf_ids_nodup g hwf) vy v hvy hvl hyi
            have hxy' : vx.id ∈ v.conns := hvyv ▸ hxy
            have hcx : cx ∈ v.conns.filterMap (fun nid => alookup cm nid) :=
              List.mem_filterMap.mpr ⟨vx.id, hxy', hx⟩
            rw [hyc]
            intro he
            exact hcnot (he ▸ hcx)
        · rcases alookup_append_singleton_cases cm v.id c vy.id cy hly with hy | ⟨hyi, -, -⟩
          · have hvxv : vx = v := id_inj_of_nodup g (wf_ids_nodup g hwf) vx v hvx hvl hxi
            have hyx' : vy.id ∈ v.conns := hvxv ▸ hyx
            have hcy : cy ∈ v.conns.filterMap (fun nid => alookup cm nid) :=
              List.mem_filterMap.mpr ⟨vy.id, hyx', hy⟩
            rw [hxc]
            intro he
            exact hcnot (he ▸ hcy)
          · -- both would be the new entry: a self loop, impossible under WF
            exfalso
            have hvxv : vx = v := id_inj_of_nodup g (wf_ids_nodup g hwf) vx v hvx hvl hxi
            have hvyv : vy = v := id_inj_of_nodup g (wf_ids_nodup g hwf) vy v hvy hvl hyi
            rw [hvxv, hvyv] at hxy
            obtain ⟨p, hp, hpid⟩ := List.mem_map.mp hxy
            obtain ⟨-, -, hkey⟩ := wf_vertex_facts g hwf v hvl
            exact (hkey p hp).2 hpid
      have h6' : ∀ cm1 i c0 cm2, cm ++ [(v.id, c)] = cm1 ++ (i, c0) :: cm2 →
          ∃ w, w ∈ g.vertList ∧ w.id = i ∧
            c0 ∉ w.conns.filterMap (fun nid => alookup cm1 nid) ∧
            ∀ c' < c0, c' ∈ w.conns.filterMap (fun nid => alookup cm1 nid) := by
        intro cm1 i c0 cm2 hsplit
        rcases append_singleton_split cm cm1 cm2 (v.id, c) (i, c0) hsplit with
          ⟨-, rfl, hpair⟩ | ⟨b', -, hcm⟩
        · injection hpair with hi hc
          subst hi
          subst hc
          exact ⟨v, hvl, rfl, hcnot, hcleast⟩
        · exact h6 cm1 i c0 b' hcm
      obtain ⟨P1, P2, P3, P4, P5⟩ := ih (cm ++ [(v.id, c)]) h1' h2' h3' h4' h5' h6'
      refine ⟨?_, ?_, P3, P4, P5⟩
      · intro k c1 hk
        exact P1 k c1 (alookup_append_left cm [(v.id, c)] k c1 hk)
      · intro w hw
        rcases List.mem_cons.mp hw with rfl | hw'
        · have hl : alookup (cm ++ [(w.id, c)]) w.id = some c := by
            rw [alookup_append_fresh cm w.id c w.id hvnone, if_pos rfl]
          rw [P1 w.id c hl]
          rfl
        · exact P2 w hw'

/-- Claim C8: on a well-formed graph with maximum degree `d`,
`greedyColoring` processes the vertices in descending degree order, colors
EVERY vertex, gives mutually adjacent vertices distinct colors, assigns
each vertex the smallest color index not used by its already-colored
neighbors, and uses at most `d + 1` distinct colors. -/
theorem greedyColoring_spec (g : Graph) (hwf : g.WF) (d : Nat)
    (hd : ∀ v ∈ g.vertList, v.adj.length ≤ d) :
    ((sortBy (fun u v => decide (v.adj.length ≤ u.adj.length)) g.vertList).Pairwise
      (fun u v => v.adj.length ≤ u.adj.length)) ∧
    (∀ i ∈ g.getVertices, (alookup (greedyColoring g) i).isSome) ∧
    (∀ vx vy, vx ∈ g.vertList → vy ∈ g.vertList → vx.id ∈ vy.conns →
      vy.id ∈ vx.conns → ∀ cx cy, alookup (greedyColoring g) vx.id = some cx →
      alookup (greedyColoring g) vy.id = some cy → cx ≠ cy) ∧
    (∀ cm1 i c cm2, greedyColoring g = cm1 ++ (i, c) :: cm2 →
      ∃ v, v ∈ g.vertList ∧ v.id = i ∧
        c ∉ v.conns.filterMap (fun nid => alookup cm1 nid) ∧
        ∀ c' < c, c' ∈ v.conns.filterMap (fun nid => alookup cm1 nid)) ∧
    ((greedyColoring g).map Prod.snd).dedup.length ≤ d + 1 := by
  have hperm : List.Perm (sortBy (fun u v => decide (v.adj.length ≤ u.adj.length))
      g.vertList) g.vertList := sortBy_perm _ _
  have hsubv : ∀ v ∈ sortBy (fun u v => decide (v.adj.length ≤ u.adj.length))
      g.vertList, v ∈ g.vertList := fun v hv => hperm.mem_iff.mp hv
  have hidnd : ((sortBy (fun u v => decide (v.adj.length ≤ u.adj.length))
      g.vertList).map (fun v => v.id)).Nodup := by
    have h1 := hperm.map (fun v => v.id)
    exact h1.nodup_iff.mpr (wf_ids_nodup g hwf)
  have hmaster := greedy_fold_inv g hwf
    (sortBy (fun u v => decide (v.adj.length ≤ u.adj.length)) g.vertList) []
    hsubv hidnd (by simp) (by simp)
    (by
      intro vx vy _ _ _ _ cx cy hcx _
      rw [show alookup [] vx.id = none from rfl] at hcx
      exact Option.noConfusion hcx)
    (by
      intro cm1 i c cm2 h
      exact absurd h (by simp))
  obtain ⟨-, P2, -, P4, P5⟩ := hmaster
  refine ⟨?_, ?_, P4, P5, ?_⟩
  · have h := sortBy_pairwise (fun u v => decide (v.adj.length ≤ u.adj.length))
      (by
        intro a b
        rcases Nat.le_total b.adj.length a.adj.length with h | h
        · exact Or.inl (by simpa using h)
        · exact Or.inr (by simpa using h))
      (by
        intro a b c hab hbc
        simp only [decide_eq_true_eq] at hab hbc ⊢
        omega)
      g.vertList
    exact h.imp (by
      intro a b hab
      simpa using hab)
  · intro i hi
    obtain ⟨v, hv, hvid⟩ := List.mem_map.mp hi
    have hvs : v ∈ sortBy (fun u v => decide (v.adj.length ≤ u.adj.length)) g.vertList :=
      hperm.mem_iff.mpr hv
    have := P2 v hvs
    rw [hvid] at this
    exact this
  · have hcolor : ∀ q ∈ greedyColoring g, q.2 < d + 1 := by
      intro q hq
      obtain ⟨s, t, hst⟩ := List.append_of_mem hq
      obtain ⟨v, hv, -, -, hleast⟩ := P5 s q.1 q.2 t hst
      have hsub : ∀ x ∈ List.range q.2,
          x ∈ v.conns.filterMap (fun nid => alookup s nid) :=
        fun x hx => hleast x (List.mem_range.mp hx)
      have hlen := nodup_subset_length _ _ (List.nodup_range _) hsub
      rw [List.length_range] at hlen
      have h1 := List.length_filterMap_le (fun nid => alookup s nid) v.conns
      have h2 : v.conns.length = v.adj.length := List.length_map _ _
      have h3 := hd v hv
      omega
    have hsub2 : ∀ x ∈ ((greedyColoring g).map Prod.snd).dedup,
        x ∈ List.range (d + 1) := by
      intro x hx
      rw [List.mem_dedup] at hx
      obtain ⟨q, hq, rfl⟩ := List.mem_map.mp hx
      exact List.mem_range.mpr (hcolor q hq)
    have h := nodup_subset_length _ _ (List.nodup_dedup _) hsub2
    rw [List.length_range] at h
    exact h

/-- A 3-vertex path graph (claim C8 witness data). -/
def gC8 : Graph := buildGraph 3 [(0, 1, 1), (1, 2, 1)]

/-- Witness for claim C8 at the path `gC8` (maximum degree 2): the coloring
is total at vertex `0` and uses at most `3` distinct colors. -/
theorem greedyColoring_spec_witness :
    gC8.WF ∧
    (alookup (greedyColoring gC8) 0).isSome ∧
    ((greedyColoring gC8).map Prod.snd).dedup.length ≤ 3 := by
  have h := greedyColoring_spec gC8 (by decide) 2 (by decide)
  exact ⟨by decide, h.2.1 0 (by decide), h.2.2.2.2⟩

end Alg
